import Mathlib

/-!
Reverb impulse-response generator

A shallow embedding of `createReverbImpulseResponse`
(`src/CreateReverbImpulseResponse.cpp`) and theorems about it.

Conventions of the embedding:

* `float`/`double` values are rationals (`ℚ`): arithmetic is exact, and the
  decimal literals of the source (`0.1`, `0.5f`, `6.91f`, `0.9f`, ...) are the
  decimal fractions they denote.
* `int` values are integers.  `castInt` is the truncation towards zero that the
  cast `(int) x` yields when `int` can represent it; `castInt32` is the cast on
  the 32-bit `int`, a `Fault` when the truncated value does not fit.
  `createReverbImpulseResponse` and its stages compute on the integers;
  `createReverbImpulseResponse32` is the same program, statement by statement,
  with every conversion on the 32-bit `int`.  The two agree whenever no
  conversion overflows (`createReverbImpulseResponse32_of_fits`).
* `std::exp`, `std::sin` and `juce::MathConstants<float>::pi` are not part of
  the repository; they are parameters (`MathFns`).
* `juce::Random::getSystemRandom()` is a generator with internal state.  It is
  passed explicitly: a `Random` is a script of draws plus the position of the
  next draw, and every `nextFloat`/`nextBool` advances the position by one.
* Undefined behaviour of the C++ program (a sample access outside the buffer,
  a buffer of negative size, a conversion to `int` that overflows) is a
  `Fault`; the source itself has no error path.
-/

namespace ReverbIR

/-- The ways a run can leave defined behaviour. -/
inductive Fault where
  | outOfBounds
  | negativeSize
  | castOverflow
  deriving DecidableEq, Repr

/-- The library functions used by the source that are not rational. -/
structure MathFns where
  exp : ℚ → ℚ
  sin : ℚ → ℚ
  pi : ℚ

/-- A scripted random generator: draw number `k` yields `floats k` when it is
asked for a float and `bools k` when it is asked for a boolean; `pos` is the
number of the next draw. -/
structure Random where
  floats : Nat → ℚ
  bools : Nat → Bool
  pos : Nat

/-- The call `juce::Random::nextFloat`: the next draw, read as a float. -/
def Random.nextFloat (r : Random) : ℚ × Random :=
  (r.floats r.pos, { r with pos := r.pos + 1 })

/-- The call `juce::Random::nextBool`: the next draw, read as a boolean. -/
def Random.nextBool (r : Random) : Bool × Random :=
  (r.bools r.pos, { r with pos := r.pos + 1 })

/-- The generator yields floats in `[0, 1)`, as `nextFloat` is documented to. -/
def Random.InRange (r : Random) : Prop :=
  ∀ k, 0 ≤ r.floats k ∧ r.floats k < 1

/-- Two generators that will produce the same draws from now on. -/
def Random.Agree (r₁ r₂ : Random) : Prop :=
  ∀ k, r₁.floats (r₁.pos + k) = r₂.floats (r₂.pos + k) ∧
    r₁.bools (r₁.pos + k) = r₂.bools (r₂.pos + k)

/-- A stereo `juce::AudioBuffer<float>`: channel 0 and channel 1. -/
structure AudioBuffer where
  left : List ℚ
  right : List ℚ
  deriving DecidableEq, Repr

/-- The value of the cast `(int) x` when `int` can represent it: truncation towards zero.
The cast with the range of the 32-bit `int` is `castInt32`. -/
def castInt (x : ℚ) : Int :=
  if 0 ≤ x then ⌊x⌋ else ⌈x⌉

/-- The library function `juce::jmax`: `a < b ? b : a`. -/
def jmax (a b : ℚ) : ℚ := if a < b then b else a

/-- The library function `juce::jmin` on `int`: `b < a ? b : a`. -/
def jmin (a b : Int) : Int := if b < a then b else a

/-- The library function `juce::jlimit (lowerLimit, upperLimit, valueToConstrain)`. -/
def jlimit (lower upper value : ℚ) : ℚ :=
  if value < lower then lower else if upper < value then upper else value

/-- The library function `juce::jmap (value0To1, targetRangeMin, targetRangeMax)`. -/
def jmap (value0To1 targetMin targetMax : ℚ) : ℚ :=
  targetMin + value0To1 * (targetMax - targetMin)

/-- Read `data[i]` through a raw channel pointer. -/
def readAt (data : List ℚ) (i : Int) : Except Fault ℚ :=
  if 0 ≤ i ∧ i < (data.length : Int) then .ok (data.getD i.toNat 0)
  else .error .outOfBounds

/-- Write `data[i] = v` through a raw channel pointer. -/
def writeAt (data : List ℚ) (i : Int) (v : ℚ) : Except Fault (List ℚ) :=
  if 0 ≤ i ∧ i < (data.length : Int) then .ok (data.set i.toNat v)
  else .error .outOfBounds

/-- Lines 4-5: `juce::AudioBuffer<float> impulseResponse (2, length)` followed by
`impulseResponse.clear()`; a negative size is a fault. -/
def AudioBuffer.alloc (length : Int) : Except Fault AudioBuffer :=
  if 0 ≤ length then
    .ok ⟨List.replicate length.toNat 0, List.replicate length.toNat 0⟩
  else .error .negativeSize

/-- The method `AudioBuffer::setSample (channel, index, value)`. -/
def AudioBuffer.setSample (b : AudioBuffer) (channel : Nat) (i : Int) (v : ℚ) :
    Except Fault AudioBuffer :=
  match channel with
  | 0 => do
    let l ← writeAt b.left i v
    pure { b with left := l }
  | 1 => do
    let r ← writeAt b.right i v
    pure { b with right := r }
  | _ => .error .outOfBounds

/-- The method `AudioBuffer::applyGain (gain)`: every sample of both channels is scaled. -/
def AudioBuffer.applyGain (b : AudioBuffer) (gain : ℚ) : AudioBuffer :=
  ⟨b.left.map (· * gain), b.right.map (· * gain)⟩

/-- The largest absolute value among `data`, `0` when there is none. -/
def magnitude (data : List ℚ) : ℚ :=
  data.foldl (fun m x => jmax m |x|) 0

/-- The method `AudioBuffer::getMagnitude (channel, 0, numSamples)` on one channel. -/
def getMagnitude (data : List ℚ) (numSamples : Int) : ℚ :=
  magnitude (data.take numSamples.toNat)

/-- The body of `for (int c = 0; c < getNumChannels(); ++c)` run on channel 0 and
then on channel 1, each through its own write pointer. -/
def AudioBuffer.forEachChannel (f : List ℚ → Except Fault (List ℚ)) (b : AudioBuffer) :
    Except Fault AudioBuffer := do
  let l ← f b.left
  let r ← f b.right
  pure ⟨l, r⟩

/-- Run `body i` for `n` consecutive values of the loop variable, starting at `i`. -/
def forLoopAux {σ : Type} (body : Int → σ → Except Fault σ) : Nat → Int → σ → Except Fault σ
  | 0, _, s => .ok s
  | n + 1, i, s =>
    match body i s with
    | .ok s' => forLoopAux body n (i + 1) s'
    | .error e => .error e

/-- The loop `for (int i = lo; i < hi; ++i) body`. -/
def forLoop {σ : Type} (lo hi : Int) (body : Int → σ → Except Fault σ) (s : σ) :
    Except Fault σ :=
  forLoopAux body (hi - lo).toNat lo s

/-- The constant `numEarlyReflections`. -/
def numEarlyReflections : Nat := 12

/-- The table `earlyDelaysMs`. -/
def earlyDelaysMs : List ℚ := [7, 11, 13, 17, 23, 29, 31, 37, 41, 43, 47, 53]

/-- Line 16: `delaySamples = (int)(earlyDelaysMs[i] * sampleRate / 1000.0f)`. -/
def delaySamples (sampleRate : ℚ) (i : Int) : Int :=
  castInt (earlyDelaysMs.getD i.toNat 0 * sampleRate / 1000)

/-- Line 30: `lateStart = (int)(0.1 * sampleRate)`. -/
def lateStart (sampleRate : ℚ) : Int :=
  castInt (1 / 10 * sampleRate)

/-- Line 3: `length = (int)(sampleRate * duration)`. -/
def irLength (duration sampleRate : ℚ) : Int :=
  castInt (sampleRate * duration)

/-- The first loop (lines 11-12): one float per reflection, mapped to `[0.5, 1)`. -/
def drawEarlyGains (rng : Random) : Except Fault (List ℚ × Random) :=
  forLoop 0 numEarlyReflections
    (fun i st =>
      let (x, g) := st.2.nextFloat
      .ok (st.1.set i.toNat (x * (1 / 2) + 1 / 2), g))
    (List.replicate numEarlyReflections 0, rng)

/-- The body of the second loop (lines 16-24). -/
def placeReflection (sampleRate : ℚ) (length : Int) (earlyGains : List ℚ) (i : Int)
    (st : AudioBuffer × Random) : Except Fault (AudioBuffer × Random) :=
  if delaySamples sampleRate i < length then do
    let g := earlyGains.getD i.toNat 0
    let (bL, g₁) := st.2.nextBool
    let signL : ℚ := if bL then 1 else -1
    let (bR, g₂) := g₁.nextBool
    let signR : ℚ := if bR then 1 else -1
    let b₁ ← st.1.setSample 0 (delaySamples sampleRate i) (g * signL)
    let b₂ ← b₁.setSample 1 (delaySamples sampleRate i) (g * signR)
    pure (b₂, g₂)
  else pure st

/-- Lines 3-25: the cleared buffer with the early reflections in it. -/
def earlyReflections (duration sampleRate : ℚ) (rng : Random) :
    Except Fault (AudioBuffer × Random) := do
  let impulseResponse ← AudioBuffer.alloc (irLength duration sampleRate)
  let (earlyGains, g) ← drawEarlyGains rng
  forLoop 0 numEarlyReflections
    (placeReflection sampleRate (irLength duration sampleRate) earlyGains) (impulseResponse, g)

/-- The value `decayEnv` of line 34 at sample `i`. -/
def decayEnv (M : MathFns) (duration sampleRate : ℚ) (i : Int) : ℚ :=
  M.exp (-(691 / 100) * ((i : ℚ) / sampleRate) / duration)

/-- The body of the late-reverb loop (lines 33-41). -/
def lateSample (M : MathFns) (duration sampleRate : ℚ) (i : Int)
    (st : AudioBuffer × Random) : Except Fault (AudioBuffer × Random) := do
  let (x, g₁) := st.2.nextFloat
  let nL := (x * 2 - 1) * (1 / 2)
  let (y, g₂) := g₁.nextFloat
  let nR := (y * 2 - 1) * (1 / 2)
  let b₁ ← st.1.setSample 0 i (nL * decayEnv M duration sampleRate i)
  let b₂ ← b₁.setSample 1 i (nR * decayEnv M duration sampleRate i)
  pure (b₂, g₂)

/-- Lines 3-42: early reflections, then the decaying noise tail. -/
def lateReverb (M : MathFns) (duration sampleRate : ℚ) (rng : Random) :
    Except Fault (AudioBuffer × Random) := do
  let st ← earlyReflections duration sampleRate rng
  forLoop (lateStart sampleRate) (irLength duration sampleRate)
    (lateSample M duration sampleRate) st

/-- The value `mod` of line 54 at sample `i`. -/
def modulation (M : MathFns) (sampleRate : ℚ) (i : Int) : ℚ :=
  1 + 5 / 100 * M.sin (2 * M.pi * (1 / 10) * ((i : ℚ) / sampleRate))

/-- The statement `data[i] *= factor`. -/
def scaleAt (factor : ℚ) (i : Int) (data : List ℚ) : Except Fault (List ℚ) := do
  let x ← readAt data i
  writeAt data i (x * factor)

/-- Lines 3-57: the buffer after the slow amplitude modulation of the tail. -/
def modulated (M : MathFns) (duration sampleRate : ℚ) (rng : Random) :
    Except Fault (AudioBuffer × Random) := do
  let (b, g) ← lateReverb M duration sampleRate rng
  let b' ← b.forEachChannel
    (forLoop (lateStart sampleRate) (irLength duration sampleRate)
      (fun i data => scaleAt (modulation M sampleRate i) i data))
  pure (b', g)

/-- Line 60: `proximity = juce::jlimit (0.0f, 1.0f, proximity / 100.0f)`. -/
def normalizedProximity (proximity : ℚ) : ℚ :=
  jlimit 0 1 (proximity / 100)

/-- Line 61: `earlyGain = juce::jmap (proximity, 1.0f, 0.0f)`. -/
def earlyGain (proximity : ℚ) : ℚ :=
  jmap (normalizedProximity proximity) 1 0

/-- Line 62: `lateGain = juce::jmap (proximity, 0.5f, 1.0f)`. -/
def lateGain (proximity : ℚ) : ℚ :=
  jmap (normalizedProximity proximity) (1 / 2) 1

/-- The gain that lines 68-71 apply at sample `i`. -/
def proximityGain (sampleRate proximity : ℚ) (i : Int) : ℚ :=
  if i < lateStart sampleRate then earlyGain proximity else lateGain proximity

/-- Lines 63-73: the proximity loop over both channels. -/
def proximityBalance (duration sampleRate proximity : ℚ) (b : AudioBuffer) :
    Except Fault AudioBuffer :=
  b.forEachChannel
    (forLoop 0 (irLength duration sampleRate)
      (fun i data =>
        if i < lateStart sampleRate then scaleAt (earlyGain proximity) i data
        else scaleAt (lateGain proximity) i data))

/-- Lines 3-73: the buffer after the early/late balance. -/
def balanced (M : MathFns) (duration sampleRate proximity : ℚ) (rng : Random) :
    Except Fault (AudioBuffer × Random) := do
  let (b, g) ← modulated M duration sampleRate rng
  let b' ← proximityBalance duration sampleRate proximity b
  pure (b', g)

/-- The call `std::reverse (data, data + length)`. -/
def reverseRange (length : Int) (data : List ℚ) : List ℚ :=
  (data.take length.toNat).reverse ++ data.drop length.toNat

/-- Lines 77-81: both channels reversed in place. -/
def reverseChannels (length : Int) (b : AudioBuffer) : AudioBuffer :=
  ⟨reverseRange length b.left, reverseRange length b.right⟩

/-- Lines 3-81: the buffer right after the reversal step (which runs only when
`reverseReverb` is set). -/
def reversed (M : MathFns) (duration sampleRate : ℚ) (reverseReverb : Bool) (proximity : ℚ)
    (rng : Random) : Except Fault (AudioBuffer × Random) := do
  let (b, g) ← balanced M duration sampleRate proximity rng
  if reverseReverb then pure (reverseChannels (irLength duration sampleRate) b, g)
  else pure (b, g)

/-- The value `checkSamples` of lines 84-85. -/
def checkSamples (duration sampleRate : ℚ) : Int :=
  jmin (castInt (1 / 10 * sampleRate)) (irLength duration sampleRate)

/-- The inner loop of lines 91-92 on one channel. -/
def scanStart (n : Int) (d : List ℚ) (startMax : ℚ) : Except Fault ℚ :=
  forLoop 0 n
    (fun i m => do
      let x ← readAt d i
      pure (jmax m |x|))
    startMax

/-- Lines 87-93: `startMax` over the first `checkSamples` samples of both channels. -/
def startMax (duration sampleRate : ℚ) (b : AudioBuffer) : Except Fault ℚ := do
  let m ← scanStart (checkSamples duration sampleRate) b.left 0
  scanStart (checkSamples duration sampleRate) b.right m

/-- Lines 84-100: the loudness repair of a reversed response. -/
def loudnessRepair (duration sampleRate : ℚ) (b : AudioBuffer) : Except Fault AudioBuffer := do
  let m ← startMax duration sampleRate b
  if m < 9 / 10 ∧ 0 < m then pure (b.applyGain (9 / 10 / m))
  else pure b

/-- Lines 3-101: the buffer on which the final normalization runs. -/
def beforeNormalization (M : MathFns) (duration sampleRate : ℚ) (reverseReverb : Bool)
    (proximity : ℚ) (rng : Random) : Except Fault (AudioBuffer × Random) := do
  let (b, g) ← reversed M duration sampleRate reverseReverb proximity rng
  if reverseReverb then do
    let b' ← loudnessRepair duration sampleRate b
    pure (b', g)
  else pure (b, g)

/-- The value `maxAmp` of lines 104-106. -/
def maxAmp (length : Int) (b : AudioBuffer) : ℚ :=
  jmax (jmax 0 (getMagnitude b.left length)) (getMagnitude b.right length)

/-- Lines 104-109: peak normalization. -/
def normalizeIR (length : Int) (b : AudioBuffer) : AudioBuffer :=
  if 0 < maxAmp length b then b.applyGain (1 / maxAmp length b) else b

/-- The whole of `createReverbImpulseResponse`: the returned buffer, and the
state in which the random generator is left. -/
def createReverbImpulseResponse (M : MathFns) (duration sampleRate : ℚ) (reverseReverb : Bool)
    (proximity : ℚ) (rng : Random) : Except Fault (AudioBuffer × Random) := do
  let (b, g) ← beforeNormalization M duration sampleRate reverseReverb proximity rng
  pure (normalizeIR (irLength duration sampleRate) b, g)

/-- Rational stand-ins for the library functions, for running the embedding. -/
def sampleMath : MathFns where
  exp := fun x => 1 / (1 - x + x * x / 2)
  sin := fun x => x - x * x * x / 6
  pi := 355 / 113

/-- A scripted generator for running the embedding. -/
def sampleRandom : Random where
  floats := fun k => ((k % 7 : Nat) : ℚ) / 8
  bools := fun k => k % 3 == 0
  pos := 0

/-- Two results that are both faults of the same kind, or both values related by `R`. -/
def ExceptRel {α β : Type} (R : α → β → Prop) : Except Fault α → Except Fault β → Prop
  | .ok a, .ok b => R a b
  | .error e, .error e' => e = e'
  | _, _ => False

/-- Both channels hold `n` samples. -/
def AudioBuffer.HasLength (b : AudioBuffer) (n : Nat) : Prop :=
  b.left.length = n ∧ b.right.length = n

/-- The sample offsets of the twelve early reflections, in table order. -/
def tapOffsets (sampleRate : ℚ) : List Int :=
  (List.range numEarlyReflections).map (fun (k : Nat) => delaySamples sampleRate (k : Int))

/-- The state of the reflection loop after the taps before `i`: the buffer keeps its
length, the generator its script, only tap offsets have been written, both channels
agree in magnitude, and the taps placed so far carry a gain in `[0.5, 1)`. -/
def EarlyInv (duration sampleRate : ℚ) (rng : Random) (i : Int)
    (st : AudioBuffer × Random) : Prop :=
  st.1.HasLength (irLength duration sampleRate).toNat ∧
  st.2.floats = rng.floats ∧ st.2.bools = rng.bools ∧
  (∀ j : Nat, (j : Int) ∉ tapOffsets sampleRate →
    st.1.left.getD j 0 = 0 ∧ st.1.right.getD j 0 = 0) ∧
  (∀ j : Nat, |st.1.left.getD j 0| = |st.1.right.getD j 0|) ∧
  (rng.InRange → ∀ k : Nat, (k : Int) < i →
    delaySamples sampleRate k < irLength duration sampleRate →
    1 / 2 ≤ |st.1.left.getD (delaySamples sampleRate k).toNat 0| ∧
      |st.1.left.getD (delaySamples sampleRate k).toNat 0| < 1)

/-- Two runs that hold the same buffer (or gain table) and whose generators will produce
the same draws. -/
def SameRun {α : Type} (a b : α × Random) : Prop :=
  a.1 = b.1 ∧ a.2.Agree b.2

/-- The script of `sampleRandom` held by a generator that has already made five draws. -/
def shiftedRandom : Random where
  floats := fun k => sampleRandom.floats (k - 5)
  bools := fun k => sampleRandom.bools (k - 5)
  pos := 5

/-- A buffer whose first sample peaks at 0.45 and whose second sample is 0.9, of the
length computed for one second at 18 Hz. -/
def quietOnset18 : AudioBuffer :=
  ⟨9 / 20 :: 9 / 10 :: List.replicate 16 0, List.replicate 18 0⟩

/-- A buffer whose only non-zero sample is a first sample of 0.45, of the length computed
for one second at 20 Hz. -/
def quietOnset20 : AudioBuffer :=
  ⟨9 / 20 :: List.replicate 19 0, List.replicate 20 0⟩

/-- The number of reflections among the first `i` of the table whose offset lies inside a
buffer of `length` samples. -/
def tapsInside (sampleRate : ℚ) (length : Int) : Nat → Nat
  | 0 => 0
  | i + 1 =>
    tapsInside sampleRate length i +
      (if delaySamples sampleRate (i : Int) < length then 1 else 0)

/-- The draws behind the state of the reflection loop after the taps before `i`: the
generator has made the twelve gain draws and two sign draws per placed tap, and every
placed offset holds the gain of some tap with that offset, with the sign of one draw on
the left channel and the sign of the next draw on the right channel. -/
def EarlyTrace (duration sampleRate : ℚ) (rng : Random) (i : Int)
    (st : AudioBuffer × Random) : Prop :=
  st.2.pos = rng.pos + numEarlyReflections +
      2 * tapsInside sampleRate (irLength duration sampleRate) i.toNat ∧
  ∀ k : Nat, (k : Int) < i → delaySamples sampleRate k < irLength duration sampleRate →
    ∃ k₁ : Nat, (k₁ : Int) < i ∧ delaySamples sampleRate k₁ = delaySamples sampleRate k ∧
      ∃ p : Nat, rng.pos + numEarlyReflections ≤ p ∧ p + 1 < st.2.pos ∧
        st.1.left.getD (delaySamples sampleRate k).toNat 0 =
          (rng.floats (rng.pos + k₁) * (1 / 2) + 1 / 2) * (if rng.bools p then 1 else -1) ∧
        st.1.right.getD (delaySamples sampleRate k).toNat 0 =
          (rng.floats (rng.pos + k₁) * (1 / 2) + 1 / 2) *
            (if rng.bools (p + 1) then 1 else -1)

/-- The state of the late-reverb loop started from `e`, before index `i`: two draws per
written index, the first for the left and the second for the right channel, each sample
the centred draw times the decay envelope, and the samples before `lateStart` untouched. -/
def LateInv (M : MathFns) (duration sampleRate : ℚ) (e : AudioBuffer × Random) (i : Int)
    (st : AudioBuffer × Random) : Prop :=
  st.1.HasLength (irLength duration sampleRate).toNat ∧
  st.2.floats = e.2.floats ∧ st.2.bools = e.2.bools ∧
  st.2.pos = e.2.pos + 2 * (i - lateStart sampleRate).toNat ∧
  (∀ j : Nat, (j : Int) < lateStart sampleRate →
    st.1.left.getD j 0 = e.1.left.getD j 0 ∧ st.1.right.getD j 0 = e.1.right.getD j 0) ∧
  ∀ j : Nat, lateStart sampleRate ≤ (j : Int) → (j : Int) < i →
    st.1.left.getD j 0 =
      (e.2.floats (e.2.pos + 2 * ((j : Int) - lateStart sampleRate).toNat) * 2 - 1) * (1 / 2) *
        decayEnv M duration sampleRate j ∧
    st.1.right.getD j 0 =
      (e.2.floats (e.2.pos + 2 * ((j : Int) - lateStart sampleRate).toNat + 1) * 2 - 1) *
        (1 / 2) * decayEnv M duration sampleRate j

/-- The smallest value of the 32-bit `int`. -/
def intMin : Int := -2147483648

/-- The largest value of the 32-bit `int`. -/
def intMax : Int := 2147483647

/-- The cast `(int) x` on the 32-bit `int`: the truncated value when `int` can represent
it; the conversion of any other value is undefined behaviour. -/
def castInt32 (x : ℚ) : Except Fault Int :=
  if intMin ≤ castInt x ∧ castInt x ≤ intMax then .ok (castInt x) else .error .castOverflow

/-- The body of the second loop (lines 16-24) with the conversion of line 16 on the 32-bit
`int`. -/
def placeReflection32 (sampleRate : ℚ) (length : Int) (earlyGains : List ℚ) (i : Int)
    (st : AudioBuffer × Random) : Except Fault (AudioBuffer × Random) := do
  let delaySamples ← castInt32 (earlyDelaysMs.getD i.toNat 0 * sampleRate / 1000)
  if delaySamples < length then do
    let g := earlyGains.getD i.toNat 0
    let (bL, g₁) := st.2.nextBool
    let signL : ℚ := if bL then 1 else -1
    let (bR, g₂) := g₁.nextBool
    let signR : ℚ := if bR then 1 else -1
    let b₁ ← st.1.setSample 0 delaySamples (g * signL)
    let b₂ ← b₁.setSample 1 delaySamples (g * signR)
    pure (b₂, g₂)
  else pure st

/-- Lines 84-100 on a reversed buffer, with the conversion of line 84 on the 32-bit
`int`. -/
def loudnessRepair32 (sampleRate : ℚ) (length : Int) (b : AudioBuffer) :
    Except Fault AudioBuffer := do
  let converted ← castInt32 (1 / 10 * sampleRate)
  let checkSamples := jmin converted length
  let m₁ ← scanStart checkSamples b.left 0
  let startMax ← scanStart checkSamples b.right m₁
  if startMax < 9 / 10 ∧ 0 < startMax then pure (b.applyGain (9 / 10 / startMax))
  else pure b

/-- The whole of `createReverbImpulseResponse`, statement by statement, with every
`(int)` conversion (lines 3, 16, 30 and 84) on the 32-bit `int` of the program: a
conversion that overflows is a fault at the point where it is made. -/
def createReverbImpulseResponse32 (M : MathFns) (duration sampleRate : ℚ)
    (reverseReverb : Bool) (proximity : ℚ) (rng : Random) :
    Except Fault (AudioBuffer × Random) := do
  let length ← castInt32 (sampleRate * duration)
  let impulseResponse ← AudioBuffer.alloc length
  let (earlyGains, g₀) ← drawEarlyGains rng
  let st ← forLoop 0 numEarlyReflections (placeReflection32 sampleRate length earlyGains)
    (impulseResponse, g₀)
  let lateStart ← castInt32 (1 / 10 * sampleRate)
  let (b₁, g) ← forLoop lateStart length (lateSample M duration sampleRate) st
  let b₂ ← b₁.forEachChannel
    (forLoop lateStart length (fun i data => scaleAt (modulation M sampleRate i) i data))
  let b₃ ← b₂.forEachChannel
    (forLoop 0 length
      (fun i data =>
        if i < lateStart then scaleAt (earlyGain proximity) i data
        else scaleAt (lateGain proximity) i data))
  let b₄ ←
    if reverseReverb then loudnessRepair32 sampleRate length (reverseChannels length b₃)
    else pure b₃
  pure (normalizeIR length b₄, g)

/-! ## Theorems -/

theorem castInt_of_nonneg {x : ℚ} (h : 0 ≤ x) : castInt x = ⌊x⌋ := by
  simp [castInt, h]

theorem castInt_nonneg {x : ℚ} (h : 0 ≤ x) : 0 ≤ castInt x := by
  rw [castInt_of_nonneg h]; exact Int.floor_nonneg.mpr h

theorem forLoopAux_inv {σ : Type} (body : Int → σ → Except Fault σ) (P : Int → σ → Prop)
    (lo hi : Int)
    (step : ∀ i s, lo ≤ i → i < hi → P i s → ∃ s', body i s = .ok s' ∧ P (i + 1) s') :
    ∀ (n : Nat) (i : Int) (s : σ), i + n = hi → lo ≤ i → P i s →
      ∃ s', forLoopAux body n i s = .ok s' ∧ P hi s' := by
  intro n
  induction n with
  | zero =>
    intro i s hi' _ hP
    have : i = hi := by simpa using hi'
    subst this
    exact ⟨s, rfl, hP⟩
  | succ n ih =>
    intro i s hi' hlo hP
    obtain ⟨s', hb, hP'⟩ := step i s hlo (by push_cast at hi'; omega) hP
    obtain ⟨s'', hr, hP''⟩ := ih (i + 1) s' (by push_cast at hi'; omega) (by omega) hP'
    exact ⟨s'', by simp [forLoopAux, hb, hr], hP''⟩

/-- A loop whose body preserves a position-indexed invariant runs to completion and
establishes the invariant at the upper bound. -/
theorem forLoop_inv {σ : Type} (body : Int → σ → Except Fault σ) (P : Int → σ → Prop)
    (lo hi : Int) (s : σ) (hle : lo ≤ hi) (h0 : P lo s)
    (step : ∀ i s, lo ≤ i → i < hi → P i s → ∃ s', body i s = .ok s' ∧ P (i + 1) s') :
    ∃ s', forLoop lo hi body s = .ok s' ∧ P hi s' := by
  unfold forLoop
  exact forLoopAux_inv body P lo hi step (hi - lo).toNat lo s (by omega) le_rfl h0

/-- A loop whose range is empty does nothing. -/
theorem forLoop_empty {σ : Type} (body : Int → σ → Except Fault σ) (lo hi : Int) (s : σ)
    (h : hi ≤ lo) : forLoop lo hi body s = .ok s := by
  unfold forLoop
  have : (hi - lo).toNat = 0 := by omega
  rw [this]; rfl

theorem forLoopAux_rel {σ τ : Type} (R : σ → τ → Prop) (body₁ : Int → σ → Except Fault σ)
    (body₂ : Int → τ → Except Fault τ)
    (step : ∀ i s t, R s t → ExceptRel R (body₁ i s) (body₂ i t)) :
    ∀ (n : Nat) (i : Int) (s : σ) (t : τ), R s t →
      ExceptRel R (forLoopAux body₁ n i s) (forLoopAux body₂ n i t) := by
  intro n
  induction n with
  | zero => intro i s t h; exact h
  | succ n ih =>
    intro i s t h
    have hs := step i s t h
    unfold forLoopAux
    cases h₁ : body₁ i s with
    | error e =>
      cases h₂ : body₂ i t with
      | error e' => rw [h₁, h₂] at hs; simpa [ExceptRel] using hs
      | ok t' => rw [h₁, h₂] at hs; exact hs.elim
    | ok s' =>
      cases h₂ : body₂ i t with
      | error e' => rw [h₁, h₂] at hs; exact hs.elim
      | ok t' =>
        rw [h₁, h₂] at hs
        exact ih (i + 1) s' t' hs

/-- Two loops over the same range whose bodies preserve a relation between their
states end in related results. -/
theorem forLoop_rel {σ τ : Type} (R : σ → τ → Prop) (body₁ : Int → σ → Except Fault σ)
    (body₂ : Int → τ → Except Fault τ) (lo hi : Int) (s : σ) (t : τ)
    (step : ∀ i s t, R s t → ExceptRel R (body₁ i s) (body₂ i t)) (h : R s t) :
    ExceptRel R (forLoop lo hi body₁ s) (forLoop lo hi body₂ t) :=
  forLoopAux_rel R body₁ body₂ step _ lo s t h

theorem ExceptRel.bind {α β α' β' : Type} {R : α → β → Prop} {R' : α' → β' → Prop}
    {x : Except Fault α} {y : Except Fault β} {f : α → Except Fault α'}
    {g : β → Except Fault β'} (hxy : ExceptRel R x y)
    (hfg : ∀ a b, R a b → ExceptRel R' (f a) (g b)) :
    ExceptRel R' (x >>= f) (y >>= g) := by
  cases x with
  | error e =>
    cases y with
    | error e' => simpa [ExceptRel, Bind.bind, Except.bind] using hxy
    | ok b => exact hxy.elim
  | ok a =>
    cases y with
    | error e' => exact hxy.elim
    | ok b => exact hfg a b hxy

theorem getD_set_self (data : List ℚ) (i : Nat) (v : ℚ) (h : i < data.length) :
    (data.set i v).getD i 0 = v := by
  simp [List.getD_eq_getElem?_getD, List.getElem?_set, h]

theorem getD_set_ne (data : List ℚ) (i j : Nat) (v : ℚ) (h : i ≠ j) :
    (data.set i v).getD j 0 = data.getD j 0 := by
  simp [List.getD_eq_getElem?_getD, List.getElem?_set, h]

theorem writeAt_ok (data : List ℚ) (i : Int) (v : ℚ) (h0 : 0 ≤ i) (h1 : i < data.length) :
    writeAt data i v = .ok (data.set i.toNat v) := by
  simp [writeAt, h0, h1]

theorem readAt_ok (data : List ℚ) (i : Int) (h0 : 0 ≤ i) (h1 : i < data.length) :
    readAt data i = .ok (data.getD i.toNat 0) := by
  simp [readAt, h0, h1]

theorem scaleAt_ok (factor : ℚ) (data : List ℚ) (i : Int) (h0 : 0 ≤ i) (h1 : i < data.length) :
    scaleAt factor i data = .ok (data.set i.toNat (data.getD i.toNat 0 * factor)) := by
  simp [scaleAt, readAt_ok data i h0 h1, writeAt_ok data i _ h0 h1, Bind.bind, Except.bind]

/-- A loop of in-place scalings inside the buffer scales exactly the samples of its range. -/
theorem forLoop_scale (f : Int → ℚ) (lo hi : Int) (data : List ℚ) (hlo : 0 ≤ lo)
    (hhi : hi ≤ data.length) :
    ∃ d', forLoop lo hi (fun i d => scaleAt (f i) i d) data = .ok d' ∧
      d'.length = data.length ∧
      ∀ j : Nat, d'.getD j 0 =
        if lo ≤ (j : Int) ∧ (j : Int) < hi then data.getD j 0 * f j else data.getD j 0 := by
  rcases le_or_lt lo hi with hle | hlt
  · have key := forLoop_inv (fun i d => scaleAt (f i) i d)
      (fun i d => d.length = data.length ∧ ∀ j : Nat, d.getD j 0 =
        if lo ≤ (j : Int) ∧ (j : Int) < i then data.getD j 0 * f j else data.getD j 0)
      lo hi data hle ⟨rfl, fun j => by
        have : ¬ (lo ≤ (j : Int) ∧ (j : Int) < lo) := by omega
        simp [this]⟩
      (by
        intro i d h1 h2 ⟨hlen, hval⟩
        have hi0 : 0 ≤ i := by omega
        have hi1 : i < (d.length : Int) := by rw [hlen]; omega
        refine ⟨_, scaleAt_ok (f i) d i hi0 hi1, by simpa using hlen, ?_⟩
        intro j
        by_cases hj : i.toNat = j
        · subst hj
          rw [getD_set_self _ _ _ (by omega), hval]
          have e : ((i.toNat : Nat) : Int) = i := by omega
          have c1 : ¬ (lo ≤ i ∧ i < i) := by omega
          have c2 : (lo ≤ i ∧ i < i + 1) := by omega
          rw [e, if_neg c1, if_pos c2]
        · rw [getD_set_ne _ _ _ _ hj, hval]
          have : ((j : Int) < i + 1) ↔ ((j : Int) < i) := by omega
          simp only [this])
    obtain ⟨d', h1, h2, h3⟩ := key
    exact ⟨d', h1, h2, h3⟩
  · refine ⟨data, forLoop_empty _ _ _ _ hlt.le, rfl, fun j => ?_⟩
    have : ¬ (lo ≤ (j : Int) ∧ (j : Int) < hi) := by omega
    simp [this]

theorem earlyDelay_nonneg (n : Nat) : 0 ≤ earlyDelaysMs.getD n 0 := by
  rw [List.getD_eq_getElem?_getD]
  cases h : earlyDelaysMs[n]? with
  | none => simp
  | some x =>
    have hm : x ∈ earlyDelaysMs := List.getElem?_mem h
    simp only [earlyDelaysMs, List.mem_cons, List.mem_singleton, List.not_mem_nil, or_false] at hm
    rcases hm with h | h | h | h | h | h | h | h | h | h | h | h <;> simp [h]

theorem earlyDelay_le (n : Nat) : earlyDelaysMs.getD n 0 ≤ 53 := by
  rw [List.getD_eq_getElem?_getD]
  cases h : earlyDelaysMs[n]? with
  | none => simp
  | some x =>
    have hm : x ∈ earlyDelaysMs := List.getElem?_mem h
    simp only [earlyDelaysMs, List.mem_cons, List.mem_singleton, List.not_mem_nil, or_false] at hm
    rcases hm with h | h | h | h | h | h | h | h | h | h | h | h <;> simp [h] <;> norm_num

theorem delaySamples_nonneg {sampleRate : ℚ} (hs : 0 ≤ sampleRate) (i : Int) :
    0 ≤ delaySamples sampleRate i := by
  unfold delaySamples
  apply castInt_nonneg
  have := earlyDelay_nonneg i.toNat
  positivity

theorem lateStart_nonneg {sampleRate : ℚ} (hs : 0 ≤ sampleRate) : 0 ≤ lateStart sampleRate := by
  unfold lateStart
  apply castInt_nonneg
  positivity

theorem irLength_nonneg {duration sampleRate : ℚ} (hd : 0 ≤ duration) (hs : 0 ≤ sampleRate) :
    0 ≤ irLength duration sampleRate := by
  unfold irLength
  apply castInt_nonneg
  positivity

theorem mem_tapOffsets (sampleRate : ℚ) (j : Int) :
    j ∈ tapOffsets sampleRate ↔
      ∃ k : Nat, k < numEarlyReflections ∧ delaySamples sampleRate (k : Int) = j := by
  unfold tapOffsets
  rw [List.mem_map]
  constructor
  · rintro ⟨k, hk, rfl⟩
    exact ⟨k, List.mem_range.mp hk, rfl⟩
  · rintro ⟨k, hk, rfl⟩
    exact ⟨k, List.mem_range.mpr hk, rfl⟩

theorem setSample_left_ok (b : AudioBuffer) (i : Int) (v : ℚ) (h0 : 0 ≤ i)
    (h1 : i < b.left.length) :
    b.setSample 0 i v = .ok { b with left := b.left.set i.toNat v } := by
  simp [AudioBuffer.setSample, writeAt_ok b.left i v h0 h1, Bind.bind, Except.bind, pure,
    Except.pure]

theorem setSample_right_ok (b : AudioBuffer) (i : Int) (v : ℚ) (h0 : 0 ≤ i)
    (h1 : i < b.right.length) :
    b.setSample 1 i v = .ok { b with right := b.right.set i.toNat v } := by
  simp [AudioBuffer.setSample, writeAt_ok b.right i v h0 h1, Bind.bind, Except.bind, pure,
    Except.pure]

/-- Writing sample `i` of both channels inside the buffer succeeds. -/
theorem setSample_both_ok (b : AudioBuffer) (n : Nat) (hb : b.HasLength n) (i : Int) (v w : ℚ)
    (h0 : 0 ≤ i) (h1 : i < n) :
    (b.setSample 0 i v >>= fun b₁ => b₁.setSample 1 i w) =
      .ok ⟨b.left.set i.toNat v, b.right.set i.toNat w⟩ := by
  obtain ⟨hl, hr⟩ := hb
  rw [setSample_left_ok b i v h0 (by rw [hl]; exact h1)]
  simp only [Bind.bind, Except.bind]
  rw [setSample_right_ok _ i w h0 (by simpa [hr] using h1)]

theorem drawEarlyGains_spec (rng : Random) :
    ∃ gains g, drawEarlyGains rng = .ok (gains, g) ∧ gains.length = numEarlyReflections ∧
      g.floats = rng.floats ∧ g.bools = rng.bools ∧ g.pos = rng.pos + numEarlyReflections ∧
      ∀ j : Nat, j < numEarlyReflections →
        gains.getD j 0 = rng.floats (rng.pos + j) * (1 / 2) + 1 / 2 := by
  have key := forLoop_inv
    (fun (i : Int) (st : List ℚ × Random) =>
      let (x, g) := st.2.nextFloat
      (Except.ok (st.1.set i.toNat (x * (1 / 2) + 1 / 2), g) : Except Fault (List ℚ × Random)))
    (fun i st => st.1.length = numEarlyReflections ∧ st.2.floats = rng.floats ∧
      st.2.bools = rng.bools ∧ (st.2.pos : Int) = rng.pos + i ∧
      ∀ j : Nat, (j : Int) < i → st.1.getD j 0 = rng.floats (rng.pos + j) * (1 / 2) + 1 / 2)
    0 numEarlyReflections (List.replicate numEarlyReflections 0, rng) (by simp)
    ⟨by simp, rfl, rfl, by simp, fun j hj => by omega⟩
    (by
      rintro i ⟨gs, g⟩ h0 h1 ⟨hlen, hf, hb, hp, hv⟩
      refine ⟨_, rfl, by simpa using hlen, hf, hb, ?_, ?_⟩
      · simp only [Random.nextFloat]; push_cast; simp only at hp; omega
      · intro j hj
        simp only [Random.nextFloat]
        by_cases e : i.toNat = j
        · subst e
          have hlt : i.toNat < gs.length := by
            simp only at hlen; rw [hlen]; simp only [numEarlyReflections] at h1 ⊢; omega
          rw [getD_set_self _ _ _ hlt, hf]
          have : g.pos = rng.pos + i.toNat := by simp only at hp; omega
          rw [this]
        · rw [getD_set_ne _ _ _ _ e]
          exact hv j (by omega))
  obtain ⟨⟨gains, g⟩, h, hlen, hf, hb, hp, hv⟩ := key
  refine ⟨gains, g, h, hlen, hf, hb, ?_, fun j hj => hv j (by exact_mod_cast hj)⟩
  simp only at hp; omega

theorem placeReflection_in (sampleRate : ℚ) (length : Int) (earlyGains : List ℚ) (i : Int)
    (b : AudioBuffer) (g : Random) (hb : b.HasLength length.toNat)
    (h0 : 0 ≤ delaySamples sampleRate i) (h1 : delaySamples sampleRate i < length) :
    placeReflection sampleRate length earlyGains i (b, g) =
      .ok (⟨b.left.set (delaySamples sampleRate i).toNat
              (earlyGains.getD i.toNat 0 * (if g.bools g.pos then 1 else -1)),
            b.right.set (delaySamples sampleRate i).toNat
              (earlyGains.getD i.toNat 0 * (if g.bools (g.pos + 1) then 1 else -1))⟩,
           { g with pos := g.pos + 1 + 1 }) := by
  have h := setSample_both_ok b length.toNat hb (delaySamples sampleRate i)
    (earlyGains.getD i.toNat 0 * (if g.bools g.pos then 1 else -1))
    (earlyGains.getD i.toNat 0 * (if g.bools (g.pos + 1) then 1 else -1)) h0 (by omega)
  simp only [Bind.bind, Except.bind] at h
  simp only [placeReflection, h1, if_true, Random.nextBool, Bind.bind, Except.bind, pure,
    Except.pure]
  revert h
  cases b.setSample 0 (delaySamples sampleRate i)
    (earlyGains.getD i.toNat 0 * (if g.bools g.pos then 1 else -1)) with
  | error e => intro h; simp at h
  | ok b₁ =>
    intro h
    simp only at h ⊢
    rw [h]

theorem placeReflection_out (sampleRate : ℚ) (length : Int) (earlyGains : List ℚ) (i : Int)
    (st : AudioBuffer × Random) (h1 : ¬ delaySamples sampleRate i < length) :
    placeReflection sampleRate length earlyGains i st = .ok st := by
  simp only [placeReflection, h1, if_false]; rfl

theorem abs_mul_sign (x : ℚ) (c : Bool) : |x * (if c then 1 else -1)| = |x| := by
  cases c <;> simp

theorem getD_replicate_zero (n j : Nat) : (List.replicate n (0 : ℚ)).getD j 0 = 0 := by
  rw [List.getD_eq_getElem?_getD, List.getElem?_replicate]
  split <;> rfl

theorem placeReflection_step (duration sampleRate : ℚ) (rng : Random) (gains : List ℚ)
    (hs : 0 ≤ sampleRate)
    (hg : ∀ j : Nat, j < numEarlyReflections →
      gains.getD j 0 = rng.floats (rng.pos + j) * (1 / 2) + 1 / 2)
    (i : Int) (st : AudioBuffer × Random) (h0 : 0 ≤ i) (h1 : i < numEarlyReflections)
    (hP : EarlyInv duration sampleRate rng i st) :
    ∃ st', placeReflection sampleRate (irLength duration sampleRate) gains i st = .ok st' ∧
      EarlyInv duration sampleRate rng (i + 1) st' := by
  obtain ⟨b, g⟩ := st
  obtain ⟨hlen, hf, hb, hz, ha, hr⟩ := hP
  have hd0 := delaySamples_nonneg hs i
  have hmem : delaySamples sampleRate i ∈ tapOffsets sampleRate := by
    rw [mem_tapOffsets]
    refine ⟨i.toNat, by omega, ?_⟩
    have : ((i.toNat : Nat) : Int) = i := by omega
    rw [this]
  by_cases hlt : delaySamples sampleRate i < irLength duration sampleRate
  · refine ⟨_, placeReflection_in sampleRate _ gains i b g hlen hd0 hlt, ?_⟩
    have hdl : (delaySamples sampleRate i).toNat < b.left.length := by rw [hlen.1]; omega
    have hdr : (delaySamples sampleRate i).toNat < b.right.length := by rw [hlen.2]; omega
    refine ⟨⟨by simpa using hlen.1, by simpa using hlen.2⟩, hf, hb, ?_, ?_, ?_⟩
    · intro j hj
      have hne : (delaySamples sampleRate i).toNat ≠ j := by
        intro e
        apply hj
        have : (j : Int) = delaySamples sampleRate i := by omega
        rw [this]; exact hmem
      simp only [getD_set_ne _ _ _ _ hne]
      exact hz j hj
    · intro j
      by_cases e : (delaySamples sampleRate i).toNat = j
      · subst e
        simp only [getD_set_self _ _ _ hdl, getD_set_self _ _ _ hdr, abs_mul_sign]
      · simp only [getD_set_ne _ _ _ _ e]
        exact ha j
    · intro hin k hk hkl
      by_cases e : (delaySamples sampleRate i).toNat = (delaySamples sampleRate k).toNat
      · simp only
        rw [← e, getD_set_self _ _ _ hdl, abs_mul_sign]
        have hi : i.toNat < numEarlyReflections := by omega
        rw [hg i.toNat hi]
        obtain ⟨hx0, hx1⟩ := hin (rng.pos + i.toNat)
        rw [abs_of_nonneg (by linarith)]
        constructor <;> linarith
      · simp only [getD_set_ne _ _ _ _ e]
        have hki : (k : Int) ≠ i := by
          intro e'
          apply e
          rw [e']
        exact hr hin k (by omega) hkl
  · refine ⟨_, placeReflection_out sampleRate _ gains i (b, g) hlt, hlen, hf, hb, hz, ha, ?_⟩
    intro hin k hk hkl
    have hki : (k : Int) ≠ i := by
      intro e'
      apply hlt
      rw [← e']; exact hkl
    exact hr hin k (by omega) hkl

/-- Lines 3-25 on a non-negative duration and sample rate: the buffer has the computed
length, is silent away from the tap offsets, and holds a gain in `[0.5, 1)` with a sign
per channel at every tap offset inside it. -/
theorem earlyReflections_spec (duration sampleRate : ℚ) (rng : Random) (hd : 0 ≤ duration)
    (hs : 0 ≤ sampleRate) :
    ∃ st, earlyReflections duration sampleRate rng = .ok st ∧
      EarlyInv duration sampleRate rng numEarlyReflections st := by
  obtain ⟨gains, g, hgains, _, hf, hb, _, hg⟩ := drawEarlyGains_spec rng
  have hN := irLength_nonneg hd hs
  have key := forLoop_inv
    (placeReflection sampleRate (irLength duration sampleRate) gains)
    (EarlyInv duration sampleRate rng) 0 numEarlyReflections
    (⟨List.replicate (irLength duration sampleRate).toNat 0,
      List.replicate (irLength duration sampleRate).toNat 0⟩, g) (by simp)
    ⟨⟨by simp, by simp⟩, hf, hb, fun j _ => ⟨getD_replicate_zero _ _, getD_replicate_zero _ _⟩,
      fun j => by simp only [getD_replicate_zero], fun _ k hk => by omega⟩
    (fun i st h0 h1 hP => placeReflection_step duration sampleRate rng gains hs hg i st h0 h1 hP)
  obtain ⟨st, hst, hP⟩ := key
  refine ⟨st, ?_, hP⟩
  simp only [earlyReflections, AudioBuffer.alloc, hN, if_true, hgains, Bind.bind, Except.bind]
  exact hst

theorem lateSample_ok (M : MathFns) (duration sampleRate : ℚ) (i : Int) (b : AudioBuffer)
    (g : Random) (n : Nat) (hb : b.HasLength n) (h0 : 0 ≤ i) (h1 : i < n) :
    lateSample M duration sampleRate i (b, g) =
      .ok (⟨b.left.set i.toNat
              ((g.floats g.pos * 2 - 1) * (1 / 2) * decayEnv M duration sampleRate i),
            b.right.set i.toNat
              ((g.floats (g.pos + 1) * 2 - 1) * (1 / 2) * decayEnv M duration sampleRate i)⟩,
           { g with pos := g.pos + 1 + 1 }) := by
  have h := setSample_both_ok b n hb i
    ((g.floats g.pos * 2 - 1) * (1 / 2) * decayEnv M duration sampleRate i)
    ((g.floats (g.pos + 1) * 2 - 1) * (1 / 2) * decayEnv M duration sampleRate i) h0 h1
  simp only [Bind.bind, Except.bind] at h
  simp only [lateSample, Random.nextFloat, Bind.bind, Except.bind, pure, Except.pure]
  revert h
  cases b.setSample 0 i
    ((g.floats g.pos * 2 - 1) * (1 / 2) * decayEnv M duration sampleRate i) with
  | error e => intro h; simp at h
  | ok b₁ =>
    intro h
    simp only at h ⊢
    rw [h]

/-- Lines 27-42 leave the early region as the reflection loop left it. -/
theorem lateReverb_spec (M : MathFns) (duration sampleRate : ℚ) (rng : Random)
    (hd : 0 ≤ duration) (hs : 0 ≤ sampleRate) :
    ∃ e st, earlyReflections duration sampleRate rng = .ok e ∧
      EarlyInv duration sampleRate rng numEarlyReflections e ∧
      lateReverb M duration sampleRate rng = .ok st ∧
      st.1.HasLength (irLength duration sampleRate).toNat ∧
      st.2.floats = rng.floats ∧ st.2.bools = rng.bools ∧
      ∀ j : Nat, (j : Int) < lateStart sampleRate →
        st.1.left.getD j 0 = e.1.left.getD j 0 ∧ st.1.right.getD j 0 = e.1.right.getD j 0 := by
  obtain ⟨e, he, hinv⟩ := earlyReflections_spec duration sampleRate rng hd hs
  have hl0 := lateStart_nonneg hs
  have hrun : lateReverb M duration sampleRate rng =
      forLoop (lateStart sampleRate) (irLength duration sampleRate)
        (lateSample M duration sampleRate) e := by
    simp only [lateReverb, he, Bind.bind, Except.bind]
  rcases le_or_lt (lateStart sampleRate) (irLength duration sampleRate) with hle | hlt
  · have key := forLoop_inv (lateSample M duration sampleRate)
      (fun _ st => st.1.HasLength (irLength duration sampleRate).toNat ∧
        st.2.floats = rng.floats ∧ st.2.bools = rng.bools ∧
        ∀ j : Nat, (j : Int) < lateStart sampleRate →
          st.1.left.getD j 0 = e.1.left.getD j 0 ∧ st.1.right.getD j 0 = e.1.right.getD j 0)
      (lateStart sampleRate) (irLength duration sampleRate) e hle
      ⟨hinv.1, hinv.2.1, hinv.2.2.1, fun j _ => ⟨rfl, rfl⟩⟩
      (by
        rintro i ⟨b, g⟩ h0 h1 ⟨hlen, hf, hb, hv⟩
        refine ⟨_, lateSample_ok M duration sampleRate i b g _ hlen (by omega) (by omega), ?_⟩
        refine ⟨⟨by simpa using hlen.1, by simpa using hlen.2⟩, hf, hb, ?_⟩
        intro j hj
        have hne : i.toNat ≠ j := by omega
        simp only [getD_set_ne _ _ _ _ hne]
        exact hv j hj)
    obtain ⟨st, hst, hP⟩ := key
    exact ⟨e, st, he, hinv, by rw [hrun, hst], hP⟩
  · refine ⟨e, e, he, hinv, ?_, hinv.1, hinv.2.1, hinv.2.2.1, fun j _ => ⟨rfl, rfl⟩⟩
    rw [hrun, forLoop_empty _ _ _ _ hlt.le]

theorem forEachChannel_ok (f : List ℚ → Except Fault (List ℚ)) (b : AudioBuffer)
    (l r : List ℚ) (hl : f b.left = .ok l) (hr : f b.right = .ok r) :
    b.forEachChannel f = .ok ⟨l, r⟩ := by
  simp only [AudioBuffer.forEachChannel, hl, hr, Bind.bind, Except.bind, pure, Except.pure]

/-- A per-channel loop of in-place scalings inside the buffer. -/
theorem forEachChannel_scale (f : Int → ℚ) (lo hi : Int) (b : AudioBuffer) (n : Nat)
    (hb : b.HasLength n) (hlo : 0 ≤ lo) (hhi : hi ≤ n) :
    ∃ b', b.forEachChannel (forLoop lo hi (fun i d => scaleAt (f i) i d)) = .ok b' ∧
      b'.HasLength n ∧
      ∀ j : Nat,
        b'.left.getD j 0 =
          (if lo ≤ (j : Int) ∧ (j : Int) < hi then b.left.getD j 0 * f j
            else b.left.getD j 0) ∧
        b'.right.getD j 0 =
          (if lo ≤ (j : Int) ∧ (j : Int) < hi then b.right.getD j 0 * f j
            else b.right.getD j 0) := by
  obtain ⟨l, hl, hll, hlv⟩ := forLoop_scale f lo hi b.left hlo (by rw [hb.1]; exact hhi)
  obtain ⟨r, hr, hrl, hrv⟩ := forLoop_scale f lo hi b.right hlo (by rw [hb.2]; exact hhi)
  exact ⟨⟨l, r⟩, forEachChannel_ok _ b l r hl hr, ⟨by rw [hll, hb.1], by rw [hrl, hb.2]⟩,
    fun j => ⟨hlv j, hrv j⟩⟩

/-- Lines 44-57 leave the early region as the reflection loop left it. -/
theorem modulated_spec (M : MathFns) (duration sampleRate : ℚ) (rng : Random)
    (hd : 0 ≤ duration) (hs : 0 ≤ sampleRate) :
    ∃ e st, earlyReflections duration sampleRate rng = .ok e ∧
      EarlyInv duration sampleRate rng numEarlyReflections e ∧
      modulated M duration sampleRate rng = .ok st ∧
      st.1.HasLength (irLength duration sampleRate).toNat ∧
      st.2.floats = rng.floats ∧ st.2.bools = rng.bools ∧
      ∀ j : Nat, (j : Int) < lateStart sampleRate →
        st.1.left.getD j 0 = e.1.left.getD j 0 ∧ st.1.right.getD j 0 = e.1.right.getD j 0 := by
  obtain ⟨e, ⟨b, g⟩, he, hinv, hlate, hlen, hf, hb, hv⟩ :=
    lateReverb_spec M duration sampleRate rng hd hs
  have hN := irLength_nonneg hd hs
  obtain ⟨b', hb', hlen', hv'⟩ := forEachChannel_scale (modulation M sampleRate)
    (lateStart sampleRate) (irLength duration sampleRate) b _ hlen (lateStart_nonneg hs)
    (by omega)
  refine ⟨e, (b', g), he, hinv, ?_, hlen', hf, hb, ?_⟩
  · simp only [modulated, hlate, hb', Bind.bind, Except.bind, pure, Except.pure]
  · intro j hj
    have hc : ¬ (lateStart sampleRate ≤ (j : Int) ∧ (j : Int) < irLength duration sampleRate) := by
      omega
    obtain ⟨h1, h2⟩ := hv' j
    rw [if_neg hc] at h1 h2
    simp only at h1 h2 ⊢
    rw [h1, h2]
    exact hv j hj

theorem getD_eq_zero_of_le (data : List ℚ) (j : Nat) (h : data.length ≤ j) :
    data.getD j 0 = 0 := by
  rw [List.getD_eq_getElem?_getD, List.getElem?_eq_none h]; rfl

/-- Lines 63-73 multiply every sample by the gain of its region. -/
theorem proximityBalance_spec (duration sampleRate proximity : ℚ) (b : AudioBuffer)
    (hb : b.HasLength (irLength duration sampleRate).toNat)
    (hN : 0 ≤ irLength duration sampleRate) :
    ∃ b', proximityBalance duration sampleRate proximity b = .ok b' ∧
      b'.HasLength (irLength duration sampleRate).toNat ∧
      ∀ j : Nat,
        b'.left.getD j 0 = b.left.getD j 0 * proximityGain sampleRate proximity j ∧
        b'.right.getD j 0 = b.right.getD j 0 * proximityGain sampleRate proximity j := by
  obtain ⟨b', hb', hlen', hv'⟩ := forEachChannel_scale (proximityGain sampleRate proximity)
    0 (irLength duration sampleRate) b _ hb le_rfl (by omega)
  have hbody : (fun (i : Int) (data : List ℚ) =>
      if i < lateStart sampleRate then scaleAt (earlyGain proximity) i data
      else scaleAt (lateGain proximity) i data) =
      (fun i d => scaleAt (proximityGain sampleRate proximity i) i d) := by
    funext i data
    unfold proximityGain
    split <;> rfl
  refine ⟨b', ?_, hlen', ?_⟩
  · unfold proximityBalance
    rw [hbody]; exact hb'
  · intro j
    obtain ⟨h1, h2⟩ := hv' j
    by_cases hj : (j : Int) < irLength duration sampleRate
    · have hc : (0 : Int) ≤ (j : Int) ∧ (j : Int) < irLength duration sampleRate := ⟨by omega, hj⟩
      rw [if_pos hc] at h1 h2
      exact ⟨h1, h2⟩
    · have hc : ¬ ((0 : Int) ≤ (j : Int) ∧ (j : Int) < irLength duration sampleRate) := by omega
      rw [if_neg hc] at h1 h2
      rw [h1, h2, getD_eq_zero_of_le b.left j (by rw [hb.1]; omega),
        getD_eq_zero_of_le b.right j (by rw [hb.2]; omega)]
      simp

/-- Lines 3-73: the balanced buffer is the modulated one with every sample multiplied by
the gain of its region. -/
theorem balanced_spec (M : MathFns) (duration sampleRate proximity : ℚ) (rng : Random)
    (hd : 0 ≤ duration) (hs : 0 ≤ sampleRate) :
    ∃ m st, modulated M duration sampleRate rng = .ok m ∧
      balanced M duration sampleRate proximity rng = .ok st ∧ st.2 = m.2 ∧
      st.1.HasLength (irLength duration sampleRate).toNat ∧
      ∀ j : Nat,
        st.1.left.getD j 0 = m.1.left.getD j 0 * proximityGain sampleRate proximity j ∧
        st.1.right.getD j 0 = m.1.right.getD j 0 * proximityGain sampleRate proximity j := by
  obtain ⟨e, ⟨b, g⟩, _, _, hm, hlen, _, _, _⟩ := modulated_spec M duration sampleRate rng hd hs
  obtain ⟨b', hb', hlen', hv⟩ := proximityBalance_spec duration sampleRate proximity b hlen
    (irLength_nonneg hd hs)
  refine ⟨(b, g), (b', g), hm, ?_, rfl, hlen', hv⟩
  simp only [balanced, hm, hb', Bind.bind, Except.bind, pure, Except.pure]

theorem reverseRange_eq (length : Int) (data : List ℚ) (h : data.length = length.toNat) :
    reverseRange length data = data.reverse := by
  unfold reverseRange
  rw [← h, List.take_length, List.drop_length, List.append_nil]

theorem reverseChannels_eq (length : Int) (b : AudioBuffer) (h : b.HasLength length.toNat) :
    reverseChannels length b = ⟨b.left.reverse, b.right.reverse⟩ := by
  unfold reverseChannels
  rw [reverseRange_eq length b.left h.1, reverseRange_eq length b.right h.2]

theorem reverseChannels_hasLength (length : Int) (b : AudioBuffer)
    (h : b.HasLength length.toNat) : (reverseChannels length b).HasLength length.toNat := by
  rw [reverseChannels_eq length b h]
  exact ⟨by simpa using h.1, by simpa using h.2⟩

theorem getD_reverse (data : List ℚ) (i : Nat) (h : i < data.length) :
    data.reverse.getD (data.length - 1 - i) 0 = data.getD i 0 := by
  rw [List.getD_eq_getElem?_getD, List.getD_eq_getElem?_getD,
    List.getElem?_reverse (by omega)]
  have : data.length - 1 - (data.length - 1 - i) = i := by omega
  rw [this]

theorem applyGain_hasLength (b : AudioBuffer) (n : Nat) (c : ℚ) (h : b.HasLength n) :
    (b.applyGain c).HasLength n := by
  exact ⟨by simpa [AudioBuffer.applyGain] using h.1, by simpa [AudioBuffer.applyGain] using h.2⟩

theorem applyGain_one (b : AudioBuffer) : b.applyGain 1 = b := by
  simp [AudioBuffer.applyGain]

theorem getD_map_mul (data : List ℚ) (c : ℚ) (j : Nat) :
    (data.map (· * c)).getD j 0 = data.getD j 0 * c := by
  rw [List.getD_eq_getElem?_getD, List.getD_eq_getElem?_getD, List.getElem?_map]
  cases data[j]? <;> simp

theorem scanStart_ok (n : Int) (d : List ℚ) (m₀ : ℚ) (hn : n ≤ d.length) :
    ∃ m, scanStart n d m₀ = .ok m := by
  unfold scanStart
  rcases le_or_lt 0 n with h | h
  · obtain ⟨m, hm, _⟩ := forLoop_inv
      (fun (i : Int) (m : ℚ) => (do
        let x ← readAt d i
        pure (jmax m |x|) : Except Fault ℚ))
      (fun _ _ => True) 0 n m₀ h trivial
      (by
        intro i m h0 h1 _
        refine ⟨jmax m |d.getD i.toNat 0|, ?_, trivial⟩
        simp only [readAt_ok d i h0 (by omega), Bind.bind, Except.bind, pure, Except.pure])
    exact ⟨m, hm⟩
  · exact ⟨m₀, forLoop_empty _ _ _ _ h.le⟩

theorem checkSamples_le (duration sampleRate : ℚ) :
    checkSamples duration sampleRate ≤ irLength duration sampleRate := by
  unfold checkSamples jmin
  split <;> omega

/-- Lines 84-100 on a buffer of the computed length: the repair either leaves the buffer
alone or applies one positive gain `0.9 / startMax` to all of it. -/
theorem loudnessRepair_spec (duration sampleRate : ℚ) (b : AudioBuffer)
    (hb : b.HasLength (irLength duration sampleRate).toNat) :
    ∃ m, startMax duration sampleRate b = .ok m ∧
      loudnessRepair duration sampleRate b =
        .ok (if m < 9 / 10 ∧ 0 < m then b.applyGain (9 / 10 / m) else b) := by
  have hc := checkSamples_le duration sampleRate
  obtain ⟨m₁, h₁⟩ := scanStart_ok (checkSamples duration sampleRate) b.left 0
    (by rw [hb.1]; omega)
  obtain ⟨m₂, h₂⟩ := scanStart_ok (checkSamples duration sampleRate) b.right m₁
    (by rw [hb.2]; omega)
  have hm : startMax duration sampleRate b = .ok m₂ := by
    simp only [startMax, h₁, h₂, Bind.bind, Except.bind]
  refine ⟨m₂, hm, ?_⟩
  simp only [loudnessRepair, hm, Bind.bind, Except.bind, pure, Except.pure]
  split <;> rfl

/-- Lines 3-101: the buffer handed to the final normalization is the balanced buffer,
reversed and multiplied by one positive gain when `reverseReverb` is set. -/
theorem beforeNormalization_spec (M : MathFns) (duration sampleRate : ℚ) (reverseReverb : Bool)
    (proximity : ℚ) (rng : Random) (hd : 0 ≤ duration) (hs : 0 ≤ sampleRate) :
    ∃ st r pre, balanced M duration sampleRate proximity rng = .ok st ∧
      reversed M duration sampleRate reverseReverb proximity rng = .ok (r, st.2) ∧
      beforeNormalization M duration sampleRate reverseReverb proximity rng = .ok (pre, st.2) ∧
      r = (if reverseReverb then ⟨st.1.left.reverse, st.1.right.reverse⟩ else st.1) ∧
      r.HasLength (irLength duration sampleRate).toNat ∧
      pre.HasLength (irLength duration sampleRate).toNat ∧
      ∃ c : ℚ, 0 < c ∧ pre = r.applyGain c := by
  obtain ⟨_, ⟨b, g⟩, _, hbal, _, hlen, _⟩ :=
    balanced_spec M duration sampleRate proximity rng hd hs
  cases reverseReverb with
  | false =>
    refine ⟨(b, g), b, b, hbal, ?_, ?_, by simp, hlen, hlen, 1, one_pos, (applyGain_one b).symm⟩
    · simp only [reversed, hbal, Bind.bind, Except.bind, pure, Except.pure]; rfl
    · simp only [beforeNormalization, reversed, hbal, Bind.bind, Except.bind, pure,
        Except.pure]; rfl
  | true =>
    have hrl := reverseChannels_hasLength (irLength duration sampleRate) b hlen
    have hre := reverseChannels_eq (irLength duration sampleRate) b hlen
    obtain ⟨m, _, hrep⟩ := loudnessRepair_spec duration sampleRate _ hrl
    have hrev : reversed M duration sampleRate true proximity rng =
        .ok (reverseChannels (irLength duration sampleRate) b, g) := by
      simp only [reversed, hbal, Bind.bind, Except.bind, pure, Except.pure]; rfl
    refine ⟨(b, g), reverseChannels (irLength duration sampleRate) b,
      (if m < 9 / 10 ∧ 0 < m then
        (reverseChannels (irLength duration sampleRate) b).applyGain (9 / 10 / m)
        else reverseChannels (irLength duration sampleRate) b), hbal, hrev, ?_, by simpa using hre,
        hrl, ?_, ?_⟩
    · simp only [beforeNormalization, hrev, hrep, Bind.bind, Except.bind, pure, Except.pure]
      rfl
    · split
      · exact applyGain_hasLength _ _ _ hrl
      · exact hrl
    · by_cases hc : m < 9 / 10 ∧ 0 < m
      · rw [if_pos hc]
        exact ⟨9 / 10 / m, div_pos (by norm_num) hc.2, rfl⟩
      · rw [if_neg hc]
        exact ⟨1, one_pos, (applyGain_one _).symm⟩

theorem jmax_eq_max (a b : ℚ) : jmax a b = max a b := by
  unfold jmax
  split
  · rename_i h; exact (max_eq_right h.le).symm
  · rename_i h; exact (max_eq_left (not_lt.mp h)).symm

theorem foldl_jmax_ge (l : List ℚ) (a : ℚ) : a ≤ l.foldl (fun m x => jmax m |x|) a := by
  induction l generalizing a with
  | nil => exact le_rfl
  | cons x xs ih =>
    simp only [List.foldl_cons]
    exact le_trans (by rw [jmax_eq_max]; exact le_max_left _ _) (ih _)

theorem foldl_jmax_mem (l : List ℚ) (a x : ℚ) (hx : x ∈ l) :
    |x| ≤ l.foldl (fun m x => jmax m |x|) a := by
  induction l generalizing a with
  | nil => simp at hx
  | cons y ys ih =>
    simp only [List.foldl_cons]
    rcases List.mem_cons.mp hx with h | h
    · subst h
      exact le_trans (by rw [jmax_eq_max]; exact le_max_right _ _) (foldl_jmax_ge _ _)
    · exact ih _ h

theorem foldl_jmax_attained (l : List ℚ) (a : ℚ) :
    l.foldl (fun m x => jmax m |x|) a = a ∨
      ∃ x ∈ l, l.foldl (fun m x => jmax m |x|) a = |x| := by
  induction l generalizing a with
  | nil => exact Or.inl rfl
  | cons y ys ih =>
    simp only [List.foldl_cons]
    rcases ih (jmax a |y|) with h | ⟨x, hx, h⟩
    · rw [h, jmax_eq_max]
      rcases max_choice a |y| with h' | h'
      · exact Or.inl h'
      · exact Or.inr ⟨y, List.mem_cons_self _ _, h'⟩
    · exact Or.inr ⟨x, List.mem_cons_of_mem _ hx, h⟩

theorem foldl_jmax_scale (l : List ℚ) (a c : ℚ) (hc : 0 ≤ c) :
    (l.map (· * c)).foldl (fun m x => jmax m |x|) (a * c) =
      l.foldl (fun m x => jmax m |x|) a * c := by
  induction l generalizing a with
  | nil => rfl
  | cons y ys ih =>
    simp only [List.map_cons, List.foldl_cons]
    have : jmax (a * c) |y * c| = jmax a |y| * c := by
      rw [jmax_eq_max, jmax_eq_max, abs_mul, abs_of_nonneg hc, max_mul_of_nonneg _ _ hc]
    rw [this]
    exact ih _

theorem magnitude_nonneg (l : List ℚ) : 0 ≤ magnitude l := foldl_jmax_ge l 0

theorem magnitude_scale (l : List ℚ) (c : ℚ) (hc : 0 ≤ c) :
    magnitude (l.map (· * c)) = magnitude l * c := by
  have := foldl_jmax_scale l 0 c hc
  rw [zero_mul] at this
  exact this

theorem getMagnitude_eq (length : Int) (data : List ℚ) (h : data.length = length.toNat) :
    getMagnitude data length = magnitude data := by
  unfold getMagnitude
  rw [← h, List.take_length]

/-- On a buffer of the computed length `maxAmp` is the larger of the two channel
magnitudes. -/
theorem maxAmp_eq (length : Int) (b : AudioBuffer) (h : b.HasLength length.toNat) :
    maxAmp length b = max (magnitude b.left) (magnitude b.right) := by
  unfold maxAmp
  rw [getMagnitude_eq length b.left h.1, getMagnitude_eq length b.right h.2, jmax_eq_max,
    jmax_eq_max, max_eq_right (magnitude_nonneg _)]

theorem maxAmp_nonneg (length : Int) (b : AudioBuffer) (h : b.HasLength length.toNat) :
    0 ≤ maxAmp length b := by
  rw [maxAmp_eq length b h]
  exact le_max_of_le_left (magnitude_nonneg _)

theorem abs_le_maxAmp (length : Int) (b : AudioBuffer) (h : b.HasLength length.toNat) (x : ℚ)
    (hx : x ∈ b.left ∨ x ∈ b.right) : |x| ≤ maxAmp length b := by
  rw [maxAmp_eq length b h]
  rcases hx with hx | hx
  · exact le_max_of_le_left (foldl_jmax_mem _ 0 x hx)
  · exact le_max_of_le_right (foldl_jmax_mem _ 0 x hx)

theorem maxAmp_attained (length : Int) (b : AudioBuffer) (h : b.HasLength length.toNat)
    (hpos : 0 < maxAmp length b) :
    ∃ x, (x ∈ b.left ∨ x ∈ b.right) ∧ |x| = maxAmp length b := by
  rw [maxAmp_eq length b h] at hpos ⊢
  rcases max_choice (magnitude b.left) (magnitude b.right) with hm | hm
  · rw [hm] at hpos ⊢
    rcases foldl_jmax_attained b.left 0 with h0 | ⟨x, hx, hv⟩
    · unfold magnitude at hpos; rw [h0] at hpos; exact absurd hpos (lt_irrefl _)
    · exact ⟨x, Or.inl hx, hv.symm⟩
  · rw [hm] at hpos ⊢
    rcases foldl_jmax_attained b.right 0 with h0 | ⟨x, hx, hv⟩
    · unfold magnitude at hpos; rw [h0] at hpos; exact absurd hpos (lt_irrefl _)
    · exact ⟨x, Or.inr hx, hv.symm⟩

theorem maxAmp_applyGain (length : Int) (b : AudioBuffer) (h : b.HasLength length.toNat)
    (c : ℚ) (hc : 0 ≤ c) : maxAmp length (b.applyGain c) = maxAmp length b * c := by
  rw [maxAmp_eq length b h, maxAmp_eq length _ (applyGain_hasLength b _ c h)]
  simp only [AudioBuffer.applyGain]
  rw [magnitude_scale _ c hc, magnitude_scale _ c hc, max_mul_of_nonneg _ _ hc]

/-- A buffer with a non-zero sample has a positive peak. -/
theorem maxAmp_pos_of_ne_zero (length : Int) (b : AudioBuffer) (h : b.HasLength length.toNat)
    (x : ℚ) (hx : x ∈ b.left ∨ x ∈ b.right) (hne : x ≠ 0) : 0 < maxAmp length b :=
  lt_of_lt_of_le (abs_pos.mpr hne) (abs_le_maxAmp length b h x hx)

/-- Lines 104-109 on a buffer with a positive peak: the scaled buffer has peak one, no
sample above one in magnitude, and a sample of magnitude exactly one. -/
theorem normalizeIR_peak (length : Int) (b : AudioBuffer) (h : b.HasLength length.toNat)
    (hpos : 0 < maxAmp length b) :
    normalizeIR length b = b.applyGain (1 / maxAmp length b) ∧
      maxAmp length (normalizeIR length b) = 1 ∧
      (∀ y, y ∈ (normalizeIR length b).left ∨ y ∈ (normalizeIR length b).right → |y| ≤ 1) ∧
      ∃ y, (y ∈ (normalizeIR length b).left ∨ y ∈ (normalizeIR length b).right) ∧ |y| = 1 := by
  have hn : normalizeIR length b = b.applyGain (1 / maxAmp length b) := by
    unfold normalizeIR; rw [if_pos hpos]
  have hlen := applyGain_hasLength b _ (1 / maxAmp length b) h
  have hone : maxAmp length (b.applyGain (1 / maxAmp length b)) = 1 := by
    rw [maxAmp_applyGain length b h _ (by positivity)]
    field_simp
  rw [hn]
  refine ⟨rfl, hone, ?_, ?_⟩
  · intro y hy
    have := abs_le_maxAmp length _ hlen y hy
    rwa [hone] at this
  · have := maxAmp_attained length _ hlen (by rw [hone]; exact one_pos)
    rwa [hone] at this

/-- Lines 104-109 on a silent buffer: nothing is scaled. -/
theorem normalizeIR_silent (length : Int) (b : AudioBuffer) (h : b.HasLength length.toNat)
    (hz : ∀ x, x ∈ b.left ∨ x ∈ b.right → x = 0) : normalizeIR length b = b := by
  unfold normalizeIR
  have : ¬ 0 < maxAmp length b := by
    intro hpos
    obtain ⟨x, hx, hv⟩ := maxAmp_attained length b h hpos
    rw [hz x hx, abs_zero] at hv
    rw [← hv] at hpos
    exact lt_irrefl _ hpos
  rw [if_neg this]

/-- The final normalization multiplies the whole buffer by one positive gain. -/
theorem normalizeIR_gain (length : Int) (b : AudioBuffer) :
    ∃ c : ℚ, 0 < c ∧ normalizeIR length b = b.applyGain c := by
  unfold normalizeIR
  split
  · rename_i h; exact ⟨_, by positivity, rfl⟩
  · exact ⟨1, one_pos, (applyGain_one b).symm⟩

/-- The whole function on a non-negative duration and sample rate: it returns the
normalized `beforeNormalization` buffer and the generator that stage left. -/
theorem createReverbImpulseResponse_eq (M : MathFns) (duration sampleRate : ℚ)
    (reverseReverb : Bool) (proximity : ℚ) (rng : Random) (pre : AudioBuffer) (g : Random)
    (h : beforeNormalization M duration sampleRate reverseReverb proximity rng = .ok (pre, g)) :
    createReverbImpulseResponse M duration sampleRate reverseReverb proximity rng =
      .ok (normalizeIR (irLength duration sampleRate) pre, g) := by
  simp only [createReverbImpulseResponse, h, Bind.bind, Except.bind, pure, Except.pure]

theorem reversed_forward (M : MathFns) (duration sampleRate proximity : ℚ) (rng : Random) :
    reversed M duration sampleRate false proximity rng =
      balanced M duration sampleRate proximity rng := by
  simp only [reversed, Bind.bind, Except.bind, pure, Except.pure]
  cases balanced M duration sampleRate proximity rng <;> rfl

theorem beforeNormalization_forward (M : MathFns) (duration sampleRate proximity : ℚ)
    (rng : Random) :
    beforeNormalization M duration sampleRate false proximity rng =
      balanced M duration sampleRate proximity rng := by
  have h := reversed_forward M duration sampleRate proximity rng
  simp only [beforeNormalization, h, Bind.bind, Except.bind, pure, Except.pure]
  cases balanced M duration sampleRate proximity rng <;> rfl

theorem applyGain_applyGain (b : AudioBuffer) (c₁ c₂ : ℚ) :
    (b.applyGain c₁).applyGain c₂ = b.applyGain (c₁ * c₂) := by
  simp [AudioBuffer.applyGain, mul_assoc]

theorem applyGain_getD (b : AudioBuffer) (c : ℚ) (j : Nat) :
    (b.applyGain c).left.getD j 0 = b.left.getD j 0 * c ∧
      (b.applyGain c).right.getD j 0 = b.right.getD j 0 * c :=
  ⟨getD_map_mul b.left c j, getD_map_mul b.right c j⟩

/-- The whole function on a non-negative duration and sample rate: every stage runs
without fault, and the returned buffer is the balanced buffer, reversed when
`reverseReverb` is set, times one positive gain. -/
theorem createReverbImpulseResponse_spec (M : MathFns) (duration sampleRate : ℚ)
    (reverseReverb : Bool) (proximity : ℚ) (rng : Random) (hd : 0 ≤ duration)
    (hs : 0 ≤ sampleRate) :
    ∃ st r pre out, balanced M duration sampleRate proximity rng = .ok st ∧
      reversed M duration sampleRate reverseReverb proximity rng = .ok (r, st.2) ∧
      beforeNormalization M duration sampleRate reverseReverb proximity rng = .ok (pre, st.2) ∧
      createReverbImpulseResponse M duration sampleRate reverseReverb proximity rng =
        .ok (out, st.2) ∧
      out = normalizeIR (irLength duration sampleRate) pre ∧
      r = (if reverseReverb then ⟨st.1.left.reverse, st.1.right.reverse⟩ else st.1) ∧
      st.1.HasLength (irLength duration sampleRate).toNat ∧
      pre.HasLength (irLength duration sampleRate).toNat ∧
      out.HasLength (irLength duration sampleRate).toNat ∧
      ∃ c : ℚ, 0 < c ∧ out = r.applyGain c := by
  obtain ⟨st, r, pre, hbal, hrev, hpre, hr, _, hplen, c₁, hc₁, hpc⟩ :=
    beforeNormalization_spec M duration sampleRate reverseReverb proximity rng hd hs
  obtain ⟨_, st', _, hbal', _, hslen, _⟩ :=
    balanced_spec M duration sampleRate proximity rng hd hs
  have hst : st' = st := by
    rw [hbal] at hbal'; exact (Except.ok.inj hbal').symm
  subst hst
  obtain ⟨c₂, hc₂, hn⟩ := normalizeIR_gain (irLength duration sampleRate) pre
  refine ⟨st', r, pre, normalizeIR (irLength duration sampleRate) pre, hbal, hrev, hpre,
    createReverbImpulseResponse_eq M duration sampleRate reverseReverb proximity rng pre _ hpre,
    rfl, hr, hslen, hplen, ?_, c₁ * c₂, mul_pos hc₁ hc₂, ?_⟩
  · rw [hn]; exact applyGain_hasLength _ _ _ hplen
  · rw [hn, hpc, applyGain_applyGain]

/-- In the balanced buffer every sample before `lateStart` is the early-reflection
sample times `earlyGain`. -/
theorem balanced_early (M : MathFns) (duration sampleRate proximity : ℚ) (rng : Random)
    (hd : 0 ≤ duration) (hs : 0 ≤ sampleRate) :
    ∃ e st, earlyReflections duration sampleRate rng = .ok e ∧
      EarlyInv duration sampleRate rng numEarlyReflections e ∧
      balanced M duration sampleRate proximity rng = .ok st ∧
      ∀ j : Nat, (j : Int) < lateStart sampleRate →
        st.1.left.getD j 0 = e.1.left.getD j 0 * earlyGain proximity ∧
        st.1.right.getD j 0 = e.1.right.getD j 0 * earlyGain proximity := by
  obtain ⟨e, m, he, hinv, hm, _, _, _, hv⟩ := modulated_spec M duration sampleRate rng hd hs
  obtain ⟨m', st, hm', hbal, _, _, hv'⟩ :=
    balanced_spec M duration sampleRate proximity rng hd hs
  have hmm : m' = m := by
    rw [hm] at hm'; exact (Except.ok.inj hm').symm
  subst hmm
  refine ⟨e, st, he, hinv, hbal, ?_⟩
  intro j hj
  obtain ⟨h1, h2⟩ := hv' j
  obtain ⟨h3, h4⟩ := hv j hj
  have hg : proximityGain sampleRate proximity j = earlyGain proximity := by
    unfold proximityGain; rw [if_pos hj]
  rw [h1, h2, h3, h4, hg]
  exact ⟨rfl, rfl⟩

theorem normalizedProximity_eq (proximity : ℚ) :
    normalizedProximity proximity = max 0 (min proximity 100) / 100 := by
  unfold normalizedProximity jlimit
  split
  · rename_i h
    have : proximity < 0 := by linarith
    rw [min_eq_left (by linarith), max_eq_left this.le]; simp
  · rename_i h
    split
    · rename_i h'
      have : 100 < proximity := by linarith
      rw [min_eq_right this.le, max_eq_right (by norm_num)]; norm_num
    · rename_i h'
      have h1 : 0 ≤ proximity := by linarith
      have h2 : proximity ≤ 100 := by linarith
      rw [min_eq_left h2, max_eq_right h1]

theorem earlyGain_eq (proximity : ℚ) :
    earlyGain proximity = 1 - max 0 (min proximity 100) / 100 := by
  unfold earlyGain jmap
  rw [normalizedProximity_eq]; ring

theorem lateGain_eq (proximity : ℚ) :
    lateGain proximity = 1 / 2 + 1 / 2 * (max 0 (min proximity 100) / 100) := by
  unfold lateGain jmap
  rw [normalizedProximity_eq]; ring

theorem Random.Agree.nextFloat {r₁ r₂ : Random} (h : r₁.Agree r₂) :
    r₁.nextFloat.1 = r₂.nextFloat.1 ∧ r₁.nextFloat.2.Agree r₂.nextFloat.2 := by
  refine ⟨by simpa using (h 0).1, fun k => ?_⟩
  have := h (k + 1)
  simp only [Random.nextFloat]
  rw [show r₁.pos + 1 + k = r₁.pos + (k + 1) by omega,
    show r₂.pos + 1 + k = r₂.pos + (k + 1) by omega]
  exact this

theorem Random.Agree.nextBool {r₁ r₂ : Random} (h : r₁.Agree r₂) :
    r₁.nextBool.1 = r₂.nextBool.1 ∧ r₁.nextBool.2.Agree r₂.nextBool.2 := by
  refine ⟨by simpa using (h 0).2, fun k => ?_⟩
  have := h (k + 1)
  simp only [Random.nextBool]
  rw [show r₁.pos + 1 + k = r₁.pos + (k + 1) by omega,
    show r₂.pos + 1 + k = r₂.pos + (k + 1) by omega]
  exact this

theorem ExceptRel.of_eq {α : Type} (x : Except Fault α) : ExceptRel (fun a b => a = b) x x := by
  cases x <;> simp [ExceptRel]

/-- A stage that does not touch the generator maps runs in the same state to runs in
the same state. -/
theorem sameRun_lift {α β : Type} (f : α → Except Fault β) (a : α) (g₁ g₂ : Random)
    (h : g₁.Agree g₂) :
    ExceptRel SameRun (f a >>= fun b => pure (b, g₁)) (f a >>= fun b => pure (b, g₂)) := by
  cases f a with
  | error e => simp [ExceptRel, Bind.bind, Except.bind]
  | ok b => exact ⟨rfl, h⟩

theorem sameRun_lift₂ {α β γ : Type} (f : α → Except Fault β) (k : β → Except Fault γ) (a : α)
    (g₁ g₂ : Random) (h : g₁.Agree g₂) :
    ExceptRel SameRun (f a >>= fun b => k b >>= fun c => pure (c, g₁))
      (f a >>= fun b => k b >>= fun c => pure (c, g₂)) := by
  cases f a with
  | error e => simp [ExceptRel, Bind.bind, Except.bind]
  | ok b => exact sameRun_lift k b g₁ g₂ h

theorem setSample_pair_agree (b : AudioBuffer) (i : Int) (v w : ℚ) (g₁ g₂ : Random)
    (h : g₁.Agree g₂) :
    ExceptRel SameRun
      (b.setSample 0 i v >>= fun b₁ => b₁.setSample 1 i w >>= fun b₂ => pure (b₂, g₁))
      (b.setSample 0 i v >>= fun b₁ => b₁.setSample 1 i w >>= fun b₂ => pure (b₂, g₂)) :=
  sameRun_lift₂ (fun b => b.setSample 0 i v) (fun b₁ => b₁.setSample 1 i w) b g₁ g₂ h

theorem drawEarlyGains_agree (r₁ r₂ : Random) (h : r₁.Agree r₂) :
    ExceptRel SameRun (drawEarlyGains r₁) (drawEarlyGains r₂) := by
  unfold drawEarlyGains
  apply forLoop_rel SameRun
  · rintro i ⟨gs, g₁⟩ ⟨gs', g₂⟩ ⟨hgs, hg⟩
    simp only at hgs hg
    subst hgs
    obtain ⟨hx, hn⟩ := hg.nextFloat
    have hx' : g₁.floats g₁.pos = g₂.floats g₂.pos := hx
    exact ⟨by simp only [Random.nextFloat, hx'], hn⟩
  · exact ⟨rfl, h⟩

theorem placeReflection_agree (sampleRate : ℚ) (length : Int) (gains : List ℚ) (i : Int)
    (s t : AudioBuffer × Random) (h : SameRun s t) :
    ExceptRel SameRun (placeReflection sampleRate length gains i s)
      (placeReflection sampleRate length gains i t) := by
  obtain ⟨b, g₁⟩ := s
  obtain ⟨b', g₂⟩ := t
  obtain ⟨hb, hg⟩ := h
  simp only at hb hg
  subst hb
  unfold placeReflection
  split
  · obtain ⟨h1, hn1⟩ := hg.nextBool
    obtain ⟨h2, hn2⟩ := hn1.nextBool
    simp only [h1, h2]
    exact setSample_pair_agree b _ _ _ _ _ hn2
  · exact ⟨rfl, hg⟩

theorem lateSample_agree (M : MathFns) (duration sampleRate : ℚ) (i : Int)
    (s t : AudioBuffer × Random) (h : SameRun s t) :
    ExceptRel SameRun (lateSample M duration sampleRate i s)
      (lateSample M duration sampleRate i t) := by
  obtain ⟨b, g₁⟩ := s
  obtain ⟨b', g₂⟩ := t
  obtain ⟨hb, hg⟩ := h
  simp only at hb hg
  subst hb
  unfold lateSample
  obtain ⟨h1, hn1⟩ := hg.nextFloat
  obtain ⟨h2, hn2⟩ := hn1.nextFloat
  simp only [h1, h2]
  exact setSample_pair_agree b _ _ _ _ _ hn2

theorem earlyReflections_agree (duration sampleRate : ℚ) (r₁ r₂ : Random) (h : r₁.Agree r₂) :
    ExceptRel SameRun (earlyReflections duration sampleRate r₁)
      (earlyReflections duration sampleRate r₂) := by
  unfold earlyReflections
  apply ExceptRel.bind (ExceptRel.of_eq (AudioBuffer.alloc (irLength duration sampleRate)))
  intro b b' hb
  subst hb
  apply ExceptRel.bind (drawEarlyGains_agree r₁ r₂ h)
  rintro ⟨gs, g₁⟩ ⟨gs', g₂⟩ ⟨hgs, hg⟩
  simp only at hgs hg
  subst hgs
  exact forLoop_rel SameRun _ _ _ _ _ _
    (placeReflection_agree sampleRate (irLength duration sampleRate) gs) ⟨rfl, hg⟩

theorem lateReverb_agree (M : MathFns) (duration sampleRate : ℚ) (r₁ r₂ : Random)
    (h : r₁.Agree r₂) :
    ExceptRel SameRun (lateReverb M duration sampleRate r₁)
      (lateReverb M duration sampleRate r₂) := by
  unfold lateReverb
  apply ExceptRel.bind (earlyReflections_agree duration sampleRate r₁ r₂ h)
  intro s t hst
  exact forLoop_rel SameRun _ _ _ _ _ _ (lateSample_agree M duration sampleRate) hst

theorem modulated_agree (M : MathFns) (duration sampleRate : ℚ) (r₁ r₂ : Random)
    (h : r₁.Agree r₂) :
    ExceptRel SameRun (modulated M duration sampleRate r₁)
      (modulated M duration sampleRate r₂) := by
  unfold modulated
  apply ExceptRel.bind (lateReverb_agree M duration sampleRate r₁ r₂ h)
  rintro ⟨b, g₁⟩ ⟨b', g₂⟩ ⟨hb, hg⟩
  simp only at hb hg
  subst hb
  exact sameRun_lift _ b g₁ g₂ hg

theorem balanced_agree (M : MathFns) (duration sampleRate proximity : ℚ) (r₁ r₂ : Random)
    (h : r₁.Agree r₂) :
    ExceptRel SameRun (balanced M duration sampleRate proximity r₁)
      (balanced M duration sampleRate proximity r₂) := by
  unfold balanced
  apply ExceptRel.bind (modulated_agree M duration sampleRate r₁ r₂ h)
  rintro ⟨b, g₁⟩ ⟨b', g₂⟩ ⟨hb, hg⟩
  simp only at hb hg
  subst hb
  exact sameRun_lift _ b g₁ g₂ hg

theorem reversed_agree (M : MathFns) (duration sampleRate : ℚ) (reverseReverb : Bool)
    (proximity : ℚ) (r₁ r₂ : Random) (h : r₁.Agree r₂) :
    ExceptRel SameRun (reversed M duration sampleRate reverseReverb proximity r₁)
      (reversed M duration sampleRate reverseReverb proximity r₂) := by
  unfold reversed
  apply ExceptRel.bind (balanced_agree M duration sampleRate proximity r₁ r₂ h)
  rintro ⟨b, g₁⟩ ⟨b', g₂⟩ ⟨hb, hg⟩
  simp only at hb hg
  subst hb
  cases reverseReverb
  · exact ⟨rfl, hg⟩
  · exact ⟨rfl, hg⟩

theorem beforeNormalization_agree (M : MathFns) (duration sampleRate : ℚ)
    (reverseReverb : Bool) (proximity : ℚ) (r₁ r₂ : Random) (h : r₁.Agree r₂) :
    ExceptRel SameRun (beforeNormalization M duration sampleRate reverseReverb proximity r₁)
      (beforeNormalization M duration sampleRate reverseReverb proximity r₂) := by
  unfold beforeNormalization
  apply ExceptRel.bind (reversed_agree M duration sampleRate reverseReverb proximity r₁ r₂ h)
  rintro ⟨b, g₁⟩ ⟨b', g₂⟩ ⟨hb, hg⟩
  simp only at hb hg
  subst hb
  cases reverseReverb
  · exact ⟨rfl, hg⟩
  · exact sameRun_lift _ b g₁ g₂ hg

/-- Runs from generators that will produce the same draws return the same buffer (or
the same fault) and leave generators that will again produce the same draws. -/
theorem createReverbImpulseResponse_agree (M : MathFns) (duration sampleRate : ℚ)
    (reverseReverb : Bool) (proximity : ℚ) (r₁ r₂ : Random) (h : r₁.Agree r₂) :
    ExceptRel SameRun (createReverbImpulseResponse M duration sampleRate reverseReverb proximity r₁)
      (createReverbImpulseResponse M duration sampleRate reverseReverb proximity r₂) := by
  unfold createReverbImpulseResponse
  apply ExceptRel.bind
    (beforeNormalization_agree M duration sampleRate reverseReverb proximity r₁ r₂ h)
  rintro ⟨b, g₁⟩ ⟨b', g₂⟩ ⟨hb, hg⟩
  simp only at hb hg
  subst hb
  exact ⟨rfl, hg⟩

theorem sampleRandom_inRange : sampleRandom.InRange := by
  intro k
  have h : (k % 7 : Nat) < 7 := Nat.mod_lt _ (by norm_num)
  have h' : ((k % 7 : Nat) : ℚ) < 7 := by exact_mod_cast h
  have h0 : (0 : ℚ) ≤ ((k % 7 : Nat) : ℚ) := Nat.cast_nonneg _
  simp only [sampleRandom]
  constructor
  · positivity
  · linarith

theorem mem_of_getD_ne_zero (data : List ℚ) (j : Nat) (h : data.getD j 0 ≠ 0) :
    data.getD j 0 ∈ data := by
  rcases lt_or_le j data.length with hj | hj
  · rw [List.getD_eq_getElem?_getD, List.getElem?_eq_getElem hj]
    exact List.getElem_mem hj
  · exact absurd (getD_eq_zero_of_le data j hj) h

/-- The early region of the returned buffer: every sample before `lateStart` (at the
mirrored index when the response is reversed) is the early-reflection sample times
`earlyGain` times one positive gain. -/
theorem output_early (M : MathFns) (duration sampleRate : ℚ) (reverseReverb : Bool)
    (proximity : ℚ) (rng : Random) (hd : 0 ≤ duration) (hs : 0 ≤ sampleRate) :
    ∃ e out g, earlyReflections duration sampleRate rng = .ok e ∧
      EarlyInv duration sampleRate rng numEarlyReflections e ∧
      createReverbImpulseResponse M duration sampleRate reverseReverb proximity rng =
        .ok (out, g) ∧
      ∃ c : ℚ, 0 < c ∧ ∀ i : Nat, (i : Int) < lateStart sampleRate →
        (i : Int) < irLength duration sampleRate →
        out.left.getD (if reverseReverb then (irLength duration sampleRate).toNat - 1 - i else i) 0
            = e.1.left.getD i 0 * earlyGain proximity * c ∧
        out.right.getD (if reverseReverb then (irLength duration sampleRate).toNat - 1 - i else i) 0
            = e.1.right.getD i 0 * earlyGain proximity * c := by
  obtain ⟨st, r, pre, out, hbal, _, _, hout, _, hr, hslen, _, _, c, hc, hoc⟩ :=
    createReverbImpulseResponse_spec M duration sampleRate reverseReverb proximity rng hd hs
  obtain ⟨e, st', he, hinv, hbal', hv⟩ :=
    balanced_early M duration sampleRate proximity rng hd hs
  have hst : st' = st := by
    rw [hbal] at hbal'; exact (Except.ok.inj hbal').symm
  subst hst
  refine ⟨e, out, st'.2, he, hinv, hout, c, hc, ?_⟩
  intro i hi hiN
  obtain ⟨h1, h2⟩ := hv i hi
  rw [hoc]
  cases reverseReverb with
  | false =>
    simp only [Bool.false_eq_true, if_false] at hr ⊢
    rw [hr, (applyGain_getD st'.1 c i).1, (applyGain_getD st'.1 c i).2, h1, h2]
    exact ⟨rfl, rfl⟩
  | true =>
    simp only [if_true] at hr ⊢
    have hl : i < st'.1.left.length := by rw [hslen.1]; omega
    have hrr : i < st'.1.right.length := by rw [hslen.2]; omega
    have e1 := getD_reverse st'.1.left i hl
    have e2 := getD_reverse st'.1.right i hrr
    rw [hslen.1] at e1
    rw [hslen.2] at e2
    rw [hr, (applyGain_getD _ c _).1, (applyGain_getD _ c _).2]
    simp only
    rw [e1, e2, h1, h2]
    exact ⟨rfl, rfl⟩

theorem castInt32_ok {x : ℚ} (h0 : intMin ≤ castInt x) (h1 : castInt x ≤ intMax) :
    castInt32 x = .ok (castInt x) := by
  unfold castInt32
  rw [if_pos ⟨h0, h1⟩]

theorem castInt32_overflow {x : ℚ} (h : intMax < castInt x) :
    castInt32 x = .error .castOverflow := by
  unfold castInt32
  rw [if_neg (by intro hc; exact absurd hc.2 (not_le.mpr h))]

/-- A non-negative value below `2 ^ 31` converts to `int` without overflow. -/
theorem castInt32_of_lt {x : ℚ} (h0 : 0 ≤ x) (h1 : x < 2147483648) :
    castInt32 x = .ok (castInt x) := by
  have hc := castInt_nonneg h0
  have hlt : castInt x < 2147483648 := by
    rw [castInt_of_nonneg h0, Int.floor_lt]
    exact_mod_cast h1
  apply castInt32_ok
  · unfold intMin; omega
  · unfold intMax; omega

theorem placeReflection32_eq (sampleRate : ℚ) (length : Int) (gains : List ℚ) (i : Int)
    (st : AudioBuffer × Random)
    (h : castInt32 (earlyDelaysMs.getD i.toNat 0 * sampleRate / 1000) =
      .ok (delaySamples sampleRate i)) :
    placeReflection32 sampleRate length gains i st =
      placeReflection sampleRate length gains i st := by
  unfold placeReflection32 placeReflection
  rw [h]
  rfl

theorem loudnessRepair32_eq (duration sampleRate : ℚ) (b : AudioBuffer)
    (h : castInt32 (1 / 10 * sampleRate) = .ok (lateStart sampleRate)) :
    loudnessRepair32 sampleRate (irLength duration sampleRate) b =
      loudnessRepair duration sampleRate b := by
  unfold loudnessRepair32 loudnessRepair startMax checkSamples
  rw [h]
  simp only [lateStart, Bind.bind, Except.bind]
  cases scanStart (jmin (castInt (1 / 10 * sampleRate)) (irLength duration sampleRate)) b.left 0
    with
  | error e => rfl
  | ok m₁ => rfl

/-- When no conversion overflows, the program on the 32-bit `int` is the program on the
integers. -/
theorem createReverbImpulseResponse32_eq (M : MathFns) (duration sampleRate : ℚ)
    (reverseReverb : Bool) (proximity : ℚ) (rng : Random)
    (h₁ : castInt32 (sampleRate * duration) = .ok (irLength duration sampleRate))
    (h₂ : ∀ i : Int, castInt32 (earlyDelaysMs.getD i.toNat 0 * sampleRate / 1000) =
      .ok (delaySamples sampleRate i))
    (h₃ : castInt32 (1 / 10 * sampleRate) = .ok (lateStart sampleRate)) :
    createReverbImpulseResponse32 M duration sampleRate reverseReverb proximity rng =
      createReverbImpulseResponse M duration sampleRate reverseReverb proximity rng := by
  have hbody : ∀ gains : List ℚ,
      placeReflection32 sampleRate (irLength duration sampleRate) gains =
        placeReflection sampleRate (irLength duration sampleRate) gains := by
    intro gains
    funext i st
    exact placeReflection32_eq sampleRate _ gains i st (h₂ i)
  have hrep : loudnessRepair32 sampleRate (irLength duration sampleRate) =
      loudnessRepair duration sampleRate := by
    funext b
    exact loudnessRepair32_eq duration sampleRate b h₃
  unfold createReverbImpulseResponse32
  rw [h₁, h₃]
  simp only [hbody, hrep, createReverbImpulseResponse, beforeNormalization, reversed, balanced,
    modulated, lateReverb, earlyReflections, proximityBalance, Bind.bind, Except.bind, pure,
    Except.pure]
  cases AudioBuffer.alloc (irLength duration sampleRate) with
  | error e => rfl
  | ok buf =>
    simp only
    cases drawEarlyGains rng with
    | error e => rfl
    | ok gg =>
      obtain ⟨gains, g₀⟩ := gg
      simp only
      cases forLoop 0 (numEarlyReflections : Int)
        (placeReflection sampleRate (irLength duration sampleRate) gains) (buf, g₀) with
      | error e => rfl
      | ok st =>
        simp only
        cases forLoop (lateStart sampleRate) (irLength duration sampleRate)
          (lateSample M duration sampleRate) st with
        | error e => rfl
        | ok l =>
          obtain ⟨b₁, g⟩ := l
          simp only
          cases b₁.forEachChannel (forLoop (lateStart sampleRate) (irLength duration sampleRate)
            (fun i data => scaleAt (modulation M sampleRate i) i data)) with
          | error e => rfl
          | ok b₂ =>
            simp only
            cases b₂.forEachChannel (forLoop 0 (irLength duration sampleRate)
              (fun i data =>
                if i < lateStart sampleRate then scaleAt (earlyGain proximity) i data
                else scaleAt (lateGain proximity) i data)) with
            | error e => rfl
            | ok b₃ =>
              simp only
              cases reverseReverb with
              | false => rfl
              | true =>
                simp only [if_true]
                cases loudnessRepair duration sampleRate
                  (reverseChannels (irLength duration sampleRate) b₃) with
                | error e => rfl
                | ok b₄ => rfl

/-- For a non-negative duration and sample rate with `sampleRate * duration < 2 ^ 31` and
`0.1 * sampleRate < 2 ^ 31` no conversion of the call overflows, and the program on the
32-bit `int` is the program on the integers. -/
theorem createReverbImpulseResponse32_of_fits (M : MathFns) (duration sampleRate : ℚ)
    (reverseReverb : Bool) (proximity : ℚ) (rng : Random) (hd : 0 ≤ duration)
    (hs : 0 ≤ sampleRate) (hlen : sampleRate * duration < 2147483648)
    (hrate : 1 / 10 * sampleRate < 2147483648) :
    castInt32 (sampleRate * duration) = .ok (irLength duration sampleRate) ∧
    (∀ i : Int, castInt32 (earlyDelaysMs.getD i.toNat 0 * sampleRate / 1000) =
      .ok (delaySamples sampleRate i)) ∧
    castInt32 (1 / 10 * sampleRate) = .ok (lateStart sampleRate) ∧
    createReverbImpulseResponse32 M duration sampleRate reverseReverb proximity rng =
      createReverbImpulseResponse M duration sampleRate reverseReverb proximity rng := by
  have h₁ : castInt32 (sampleRate * duration) = .ok (irLength duration sampleRate) :=
    castInt32_of_lt (mul_nonneg hs hd) hlen
  have h₂ : ∀ i : Int, castInt32 (earlyDelaysMs.getD i.toNat 0 * sampleRate / 1000) =
      .ok (delaySamples sampleRate i) := by
    intro i
    have h0 := earlyDelay_nonneg i.toNat
    have h53 := earlyDelay_le i.toNat
    apply castInt32_of_lt (by positivity)
    have : earlyDelaysMs.getD i.toNat 0 * sampleRate ≤ 53 * sampleRate :=
      mul_le_mul_of_nonneg_right h53 hs
    rw [div_lt_iff₀ (by norm_num)]
    linarith
  have h₃ : castInt32 (1 / 10 * sampleRate) = .ok (lateStart sampleRate) :=
    castInt32_of_lt (by positivity) hrate
  exact ⟨h₁, h₂, h₃, createReverbImpulseResponse32_eq M duration sampleRate reverseReverb
    proximity rng h₁ h₂ h₃⟩

/-- A length that does not fit the 32-bit `int` is a fault on line 3. -/
theorem createReverbImpulseResponse32_overflow (M : MathFns) (duration sampleRate : ℚ)
    (reverseReverb : Bool) (proximity : ℚ) (rng : Random)
    (h : intMax < castInt (sampleRate * duration)) :
    createReverbImpulseResponse32 M duration sampleRate reverseReverb proximity rng =
      .error .castOverflow := by
  unfold createReverbImpulseResponse32
  rw [castInt32_overflow h]
  rfl

theorem length_48000_50000_overflows : intMax < castInt ((48000 : ℚ) * 50000) := by
  have : castInt ((48000 : ℚ) * 50000) = 2400000000 := by norm_num [castInt]
  rw [this]
  decide

/-- C1 (as amended): for every duration > 0 and sampleRate > 0 whose conversions to `int`
do not overflow (`sampleRate * duration < 2 ^ 31` and `0.1 * sampleRate < 2 ^ 31`) the
call returns a buffer whose left and right channels both have length
`N = (int)(sampleRate * duration)`, the product truncated, that is
`⌊sampleRate * duration⌋`; the two channels have equal length and `N ≥ 0`. -/
theorem C1_channel_lengths (M : MathFns) (duration sampleRate : ℚ) (reverseReverb : Bool)
    (proximity : ℚ) (rng : Random) (hd : 0 < duration) (hs : 0 < sampleRate)
    (hlen : sampleRate * duration < 2147483648) (hrate : 1 / 10 * sampleRate < 2147483648) :
    ∃ out g,
      createReverbImpulseResponse32 M duration sampleRate reverseReverb proximity rng =
        .ok (out, g) ∧
      castInt32 (sampleRate * duration) = .ok ⌊sampleRate * duration⌋ ∧
      irLength duration sampleRate = ⌊sampleRate * duration⌋ ∧
      0 ≤ ⌊sampleRate * duration⌋ ∧
      out.left.length = ⌊sampleRate * duration⌋.toNat ∧
      out.right.length = ⌊sampleRate * duration⌋.toNat ∧
      out.left.length = out.right.length := by
  obtain ⟨h₁, _, _, heq⟩ := createReverbImpulseResponse32_of_fits M duration sampleRate
    reverseReverb proximity rng hd.le hs.le hlen hrate
  obtain ⟨st, _, _, out, _, _, _, hout, _, _, _, _, holen, _⟩ :=
    createReverbImpulseResponse_spec M duration sampleRate reverseReverb proximity rng hd.le hs.le
  have hN : irLength duration sampleRate = ⌊sampleRate * duration⌋ :=
    castInt_of_nonneg (mul_nonneg hs.le hd.le)
  rw [hN] at holen h₁
  exact ⟨out, st.2, by rw [heq, hout], h₁, hN,
    Int.floor_nonneg.mpr (mul_nonneg hs.le hd.le), holen.1, holen.2,
    holen.1.trans holen.2.symm⟩

/-- One second at 48 kHz gives two channels of 48000 samples. -/
theorem C1_channel_lengths_witness :
    ∃ out g, createReverbImpulseResponse32 sampleMath 1 48000 false 0 sampleRandom =
        .ok (out, g) ∧
      out.left.length = 48000 ∧ out.right.length = 48000 := by
  obtain ⟨out, g, h, _, _, _, hl, hr, _⟩ :=
    C1_channel_lengths sampleMath 1 48000 false 0 sampleRandom (by norm_num) (by norm_num)
      (by norm_num) (by norm_num)
  have e : ⌊(48000 : ℚ) * 1⌋ = 48000 := by norm_num
  rw [e] at hl hr
  exact ⟨out, g, h, hl, hr⟩

/-- C1 as stated fails twice. At 44.1 kHz and 3/16 s the product is 8268.75, the channels
hold 8268 samples, and rounding to nearest would give 8269. At 48 kHz and 50000 s the
product 2400000000 exceeds the largest `int`, the conversion of line 3 is undefined, and
no buffer of a length `N ≥ 0` is returned. -/
theorem C1_round_counterexample :
    (∃ out g, createReverbImpulseResponse32 sampleMath (3 / 16) 44100 false 0 sampleRandom =
        .ok (out, g) ∧
      out.left.length = 8268 ∧ out.right.length = 8268 ∧
      (round ((44100 : ℚ) * (3 / 16))).toNat = 8269 ∧
      out.left.length ≠ (round ((44100 : ℚ) * (3 / 16))).toNat) ∧
    ((0 : ℚ) < 50000 ∧ (0 : ℚ) < 48000 ∧
      createReverbImpulseResponse32 sampleMath 50000 48000 false 0 sampleRandom =
        .error .castOverflow) := by
  constructor
  · obtain ⟨_, _, _, heq⟩ := createReverbImpulseResponse32_of_fits sampleMath (3 / 16) 44100
      false 0 sampleRandom (by norm_num) (by norm_num) (by norm_num) (by norm_num)
    obtain ⟨st, _, _, out, _, _, _, hout, _, _, _, _, holen, _⟩ :=
      createReverbImpulseResponse_spec sampleMath (3 / 16) 44100 false 0 sampleRandom
        (by norm_num) (by norm_num)
    have hN : irLength (3 / 16) 44100 = 8268 := by
      norm_num [irLength, castInt, Int.floor_eq_iff]
    have hR : round ((44100 : ℚ) * (3 / 16)) = 8269 := by
      rw [round_eq]; norm_num [Int.floor_eq_iff]
    rw [hN] at holen
    have hl : out.left.length = 8268 := holen.1
    have hr : out.right.length = 8268 := holen.2
    refine ⟨out, st.2, by rw [heq, hout], hl, hr, by rw [hR]; rfl, ?_⟩
    rw [hR, hl]
    decide
  · exact ⟨by norm_num, by norm_num,
      createReverbImpulseResponse32_overflow sampleMath 50000 48000 false 0 sampleRandom
        length_48000_50000_overflows⟩

/-- C2: for every duration > 0 and sampleRate > 0 and every random stream, if the buffer
before the final normalization holds a non-zero sample then the returned buffer has a
sample of absolute value exactly 1, its peak is 1, and every returned sample lies in
`[-1, 1]`; if that buffer is all zero it is returned unscaled, all zero. -/
theorem C2_peak_normalized (M : MathFns) (duration sampleRate : ℚ) (reverseReverb : Bool)
    (proximity : ℚ) (rng : Random) (hd : 0 < duration) (hs : 0 < sampleRate) :
    ∃ pre out g,
      beforeNormalization M duration sampleRate reverseReverb proximity rng = .ok (pre, g) ∧
      createReverbImpulseResponse M duration sampleRate reverseReverb proximity rng =
        .ok (out, g) ∧
      ((∃ x, (x ∈ pre.left ∨ x ∈ pre.right) ∧ x ≠ 0) →
        maxAmp (irLength duration sampleRate) out = 1 ∧
        (∃ y, (y ∈ out.left ∨ y ∈ out.right) ∧ |y| = 1) ∧
        ∀ y, y ∈ out.left ∨ y ∈ out.right → -1 ≤ y ∧ y ≤ 1) ∧
      ((∀ x, x ∈ pre.left ∨ x ∈ pre.right → x = 0) →
        out = pre ∧ ∀ y, y ∈ out.left ∨ y ∈ out.right → y = 0) := by
  obtain ⟨st, _, pre, out, _, _, hpre, hout, hon, _, _, hplen, _, _⟩ :=
    createReverbImpulseResponse_spec M duration sampleRate reverseReverb proximity rng hd.le hs.le
  refine ⟨pre, out, st.2, hpre, hout, ?_, ?_⟩
  · rintro ⟨x, hx, hne⟩
    have hpos := maxAmp_pos_of_ne_zero _ pre hplen x hx hne
    obtain ⟨_, h1, h2, h3⟩ := normalizeIR_peak _ pre hplen hpos
    rw [← hon] at h1 h2 h3
    exact ⟨h1, h3, fun y hy => abs_le.mp (h2 y hy)⟩
  · intro hz
    have h := normalizeIR_silent _ pre hplen hz
    rw [← hon] at h
    exact ⟨h, fun y hy => hz y (by rw [h] at hy; exact hy)⟩

/-- One second at 48 kHz with proximity 0: the 7 ms reflection makes the buffer non-silent,
so the returned buffer peaks at exactly 1. -/
theorem C2_peak_normalized_witness :
    ∃ out g, createReverbImpulseResponse sampleMath 1 48000 false 0 sampleRandom = .ok (out, g) ∧
      (∃ y, (y ∈ out.left ∨ y ∈ out.right) ∧ |y| = 1) ∧
      ∀ y, y ∈ out.left ∨ y ∈ out.right → -1 ≤ y ∧ y ≤ 1 := by
  obtain ⟨pre, out, g, hpre, hout, hnz, _⟩ :=
    C2_peak_normalized sampleMath 1 48000 false 0 sampleRandom (by norm_num) (by norm_num)
  obtain ⟨e, st, _, hinv, hbal, hv⟩ :=
    balanced_early sampleMath 1 48000 0 sampleRandom (by norm_num) (by norm_num)
  rw [beforeNormalization_forward, hbal] at hpre
  have hst : st.1 = pre := congrArg Prod.fst (Except.ok.inj hpre)
  have hd0 : delaySamples 48000 ((0 : Nat) : Int) = 336 := by
    norm_num [delaySamples, earlyDelaysMs, castInt, Int.floor_eq_iff]
  have hls : lateStart 48000 = 4800 := by
    norm_num [lateStart, castInt, Int.floor_eq_iff]
  have hN : irLength 1 48000 = 48000 := by
    norm_num [irLength, castInt]
  have htap := hinv.2.2.2.2.2 sampleRandom_inRange 0 (by norm_num [numEarlyReflections])
    (by rw [hd0, hN]; norm_num)
  rw [hd0] at htap
  have h336 := (hv 336 (by rw [hls]; norm_num)).1
  have hg : earlyGain 0 = 1 := by norm_num [earlyGain, jmap, normalizedProximity, jlimit]
  rw [hg, mul_one] at h336
  have hne : st.1.left.getD 336 0 ≠ 0 := by
    rw [h336]
    intro h0
    have : (1 : ℚ) / 2 ≤ |e.1.left.getD (Int.toNat 336) 0| := htap.1
    have e336 : Int.toNat 336 = 336 := rfl
    rw [e336, h0, abs_zero] at this
    norm_num at this
  have hmem := mem_of_getD_ne_zero _ _ hne
  rw [hst] at hmem hne
  obtain ⟨_, h2, h3⟩ := hnz ⟨_, Or.inl hmem, hne⟩
  exact ⟨out, g, hout, h2, h3⟩

/-- C3 as stated fails twice. With duration 0 the call signals no error, it returns a
buffer. With 48 kHz and 50000 s, both positive, the conversion of line 3 overflows and the
call does not return a buffer. -/
theorem C3_zero_duration_counterexample :
    ¬ ((∃ e, createReverbImpulseResponse32 sampleMath 0 48000 false 50 sampleRandom =
          .error e) ↔ ((0 : ℚ) ≤ 0 ∨ (48000 : ℚ) ≤ 0)) ∧
    ((0 : ℚ) < 50000 ∧ (0 : ℚ) < 48000 ∧
      ¬ ∃ out, createReverbImpulseResponse32 sampleMath 50000 48000 false 50 sampleRandom =
        .ok out) := by
  constructor
  · obtain ⟨_, _, _, heq⟩ := createReverbImpulseResponse32_of_fits sampleMath 0 48000
      false 50 sampleRandom le_rfl (by norm_num) (by norm_num) (by norm_num)
    obtain ⟨st, _, _, out, _, _, _, hout, _⟩ :=
      createReverbImpulseResponse_spec sampleMath 0 48000 false 50 sampleRandom le_rfl
        (by norm_num)
    intro h
    obtain ⟨e, he⟩ := h.mpr (Or.inl le_rfl)
    rw [heq, hout] at he
    exact Except.noConfusion he
  · refine ⟨by norm_num, by norm_num, ?_⟩
    rintro ⟨out, hout⟩
    rw [createReverbImpulseResponse32_overflow sampleMath 50000 48000 false 50 sampleRandom
      length_48000_50000_overflows] at hout
    exact Except.noConfusion hout

/-- C3 (as amended): the function has no parameter check and signals no error; for every
duration > 0 and sampleRate > 0 whose conversions to `int` do not overflow
(`sampleRate * duration < 2 ^ 31` and `0.1 * sampleRate < 2 ^ 31`) it returns a buffer,
and so it does when duration or sampleRate is 0 and the other is not negative (the buffer
is then empty). -/
theorem C3_no_error_signalled (M : MathFns) (duration sampleRate : ℚ) (reverseReverb : Bool)
    (proximity : ℚ) (rng : Random) (hd : 0 ≤ duration) (hs : 0 ≤ sampleRate)
    (hlen : sampleRate * duration < 2147483648) (hrate : 1 / 10 * sampleRate < 2147483648) :
    (∃ out g,
      createReverbImpulseResponse32 M duration sampleRate reverseReverb proximity rng =
        .ok (out, g) ∧
      (duration = 0 ∨ sampleRate = 0 → out.left = [] ∧ out.right = [])) ∧
    ∀ e, createReverbImpulseResponse32 M duration sampleRate reverseReverb proximity rng ≠
      .error e := by
  obtain ⟨_, _, _, heq⟩ := createReverbImpulseResponse32_of_fits M duration sampleRate
    reverseReverb proximity rng hd hs hlen hrate
  obtain ⟨st, _, _, out, _, _, _, hout, _, _, _, _, holen, _⟩ :=
    createReverbImpulseResponse_spec M duration sampleRate reverseReverb proximity rng hd hs
  rw [← heq] at hout
  refine ⟨⟨out, st.2, hout, ?_⟩, ?_⟩
  · intro h0
    have hN : irLength duration sampleRate = 0 := by
      unfold irLength
      have : sampleRate * duration = 0 := by
        rcases h0 with h | h <;> simp [h]
      rw [this]
      simp [castInt]
    rw [hN] at holen
    exact ⟨List.length_eq_zero.mp holen.1, List.length_eq_zero.mp holen.2⟩
  · intro e he
    rw [hout] at he
    exact Except.noConfusion he

/-- A valid call and a call with duration 0 both return without error. -/
theorem C3_no_error_signalled_witness :
    (∃ out g, createReverbImpulseResponse32 sampleMath 1 48000 false 50 sampleRandom =
        .ok (out, g)) ∧
    (∃ g, createReverbImpulseResponse32 sampleMath 0 48000 false 50 sampleRandom =
        .ok (⟨[], []⟩, g)) := by
  constructor
  · obtain ⟨⟨out, g, h, _⟩, _⟩ :=
      C3_no_error_signalled sampleMath 1 48000 false 50 sampleRandom (by norm_num)
        (by norm_num) (by norm_num) (by norm_num)
    exact ⟨out, g, h⟩
  · obtain ⟨⟨out, g, h, hz⟩, _⟩ :=
      C3_no_error_signalled sampleMath 0 48000 false 50 sampleRandom le_rfl (by norm_num)
        (by norm_num) (by norm_num)
    obtain ⟨hl, hr⟩ := hz (Or.inl rfl)
    refine ⟨g, ?_⟩
    rw [h]
    cases out
    simp only at hl hr
    rw [hl, hr]

theorem proximityBalance_congr (duration sampleRate p q : ℚ)
    (h : normalizedProximity p = normalizedProximity q) :
    proximityBalance duration sampleRate p = proximityBalance duration sampleRate q := by
  funext b
  simp only [proximityBalance, earlyGain, lateGain, h]

/-- The result depends on `proximity` only through its normalized value. -/
theorem createReverbImpulseResponse_congr (M : MathFns) (duration sampleRate : ℚ)
    (reverseReverb : Bool) (p q : ℚ) (rng : Random)
    (h : normalizedProximity p = normalizedProximity q) :
    createReverbImpulseResponse M duration sampleRate reverseReverb p rng =
      createReverbImpulseResponse M duration sampleRate reverseReverb q rng := by
  simp only [createReverbImpulseResponse, beforeNormalization, reversed, balanced,
    proximityBalance_congr duration sampleRate p q h]

theorem normalizedProximity_clamp (p : ℚ) :
    normalizedProximity (max 0 (min p 100)) = normalizedProximity p := by
  rw [normalizedProximity_eq, normalizedProximity_eq]
  have h0 : (0 : ℚ) ≤ max 0 (min p 100) := le_max_left _ _
  have h1 : max 0 (min p 100) ≤ 100 := max_le (by norm_num) (min_le_right _ _)
  rw [min_eq_left h1, max_eq_right h0]

/-- C4: two calls with the same parameters whose generators will produce the same
sequence of draws return identical buffers (or fail alike): the result is a function of
the parameters and the upcoming random draws only. -/
theorem C4_deterministic (M : MathFns) (duration sampleRate : ℚ) (reverseReverb : Bool)
    (proximity : ℚ) (r₁ r₂ : Random) (h : r₁.Agree r₂) :
    (createReverbImpulseResponse M duration sampleRate reverseReverb proximity r₁).map Prod.fst =
      (createReverbImpulseResponse M duration sampleRate reverseReverb proximity r₂).map
        Prod.fst := by
  have key := createReverbImpulseResponse_agree M duration sampleRate reverseReverb proximity
    r₁ r₂ h
  revert key
  cases createReverbImpulseResponse M duration sampleRate reverseReverb proximity r₁ with
  | error e₁ =>
    cases createReverbImpulseResponse M duration sampleRate reverseReverb proximity r₂ with
    | error e₂ => intro key; simp only [ExceptRel] at key; rw [key]
    | ok b => intro key; exact key.elim
  | ok a =>
    cases createReverbImpulseResponse M duration sampleRate reverseReverb proximity r₂ with
    | error e₂ => intro key; exact key.elim
    | ok b => intro key; simp only [Except.map]; rw [key.1]

/-- A generator at its first draw and one that reaches the same script after five earlier
draws give the same buffer. -/
theorem C4_deterministic_witness :
    (createReverbImpulseResponse sampleMath 1 48000 true 30 sampleRandom).map Prod.fst =
      (createReverbImpulseResponse sampleMath 1 48000 true 30 shiftedRandom).map Prod.fst :=
  C4_deterministic sampleMath 1 48000 true 30 sampleRandom shiftedRandom
    (fun k => by simp [sampleRandom, shiftedRandom])

/-- C5: the normalized proximity used by the code is `clamp (proximity, 0, 100) / 100`; the
result for a proximity below 0 is the result for 0 and the result for a proximity above
100 is the result for 100 (same other parameters, same random stream), and with
duration > 0 and sampleRate > 0 no proximity makes the call fail. -/
theorem C5_proximity_clamped (M : MathFns) (duration sampleRate : ℚ) (reverseReverb : Bool)
    (proximity : ℚ) (rng : Random) (hd : 0 < duration) (hs : 0 < sampleRate) :
    normalizedProximity proximity = max 0 (min proximity 100) / 100 ∧
    createReverbImpulseResponse M duration sampleRate reverseReverb proximity rng =
      createReverbImpulseResponse M duration sampleRate reverseReverb
        (max 0 (min proximity 100)) rng ∧
    (proximity < 0 →
      createReverbImpulseResponse M duration sampleRate reverseReverb proximity rng =
        createReverbImpulseResponse M duration sampleRate reverseReverb 0 rng) ∧
    (100 < proximity →
      createReverbImpulseResponse M duration sampleRate reverseReverb proximity rng =
        createReverbImpulseResponse M duration sampleRate reverseReverb 100 rng) ∧
    ∃ out g,
      createReverbImpulseResponse M duration sampleRate reverseReverb proximity rng =
        .ok (out, g) := by
  have hc := createReverbImpulseResponse_congr M duration sampleRate reverseReverb proximity
    (max 0 (min proximity 100)) rng (normalizedProximity_clamp proximity).symm
  refine ⟨normalizedProximity_eq proximity, hc, ?_, ?_, ?_⟩
  · intro hlt
    have : max 0 (min proximity 100) = 0 := by
      rw [min_eq_left (by linarith), max_eq_left hlt.le]
    rw [hc, this]
  · intro hgt
    have : max 0 (min proximity 100) = 100 := by
      rw [min_eq_right hgt.le, max_eq_right (by norm_num)]
    rw [hc, this]
  · obtain ⟨st, _, _, out, _, _, _, hout, _⟩ :=
      createReverbImpulseResponse_spec M duration sampleRate reverseReverb proximity rng hd.le
        hs.le
    exact ⟨out, st.2, hout⟩

/-- Proximity -5 gives the result of proximity 0, and proximity 250 the result of
proximity 100. -/
theorem C5_proximity_clamped_witness :
    createReverbImpulseResponse sampleMath 1 48000 false (-5) sampleRandom =
      createReverbImpulseResponse sampleMath 1 48000 false 0 sampleRandom ∧
    createReverbImpulseResponse sampleMath 1 48000 false 250 sampleRandom =
      createReverbImpulseResponse sampleMath 1 48000 false 100 sampleRandom ∧
    normalizedProximity 250 = 1 ∧ normalizedProximity (-5) = 0 := by
  have h1 := C5_proximity_clamped sampleMath 1 48000 false (-5) sampleRandom (by norm_num)
    (by norm_num)
  have h2 := C5_proximity_clamped sampleMath 1 48000 false 250 sampleRandom (by norm_num)
    (by norm_num)
  refine ⟨h1.2.2.1 (by norm_num), h2.2.2.2.1 (by norm_num), ?_, ?_⟩
  · rw [h2.1]; norm_num
  · rw [h1.1]; norm_num

/-- C6: with `p = clamp (proximity, 0, 100) / 100`, the proximity stage multiplies every
sample with index below `lateStart` by `earlyGain = 1 - p` and every sample from
`lateStart` on by `lateGain = 0.5 + 0.5 * p`, on both channels; proximity 0 gives gains
1 and 0.5, proximity 100 gives gains 0 and 1. -/
theorem C6_proximity_balance (M : MathFns) (duration sampleRate proximity : ℚ) (rng : Random)
    (hd : 0 < duration) (hs : 0 < sampleRate) :
    (∃ m st, modulated M duration sampleRate rng = .ok m ∧
      balanced M duration sampleRate proximity rng = .ok st ∧
      ∀ j : Nat, (j : Int) < irLength duration sampleRate →
        st.1.left.getD j 0 = m.1.left.getD j 0 *
          (if (j : Int) < lateStart sampleRate then 1 - max 0 (min proximity 100) / 100
            else 1 / 2 + 1 / 2 * (max 0 (min proximity 100) / 100)) ∧
        st.1.right.getD j 0 = m.1.right.getD j 0 *
          (if (j : Int) < lateStart sampleRate then 1 - max 0 (min proximity 100) / 100
            else 1 / 2 + 1 / 2 * (max 0 (min proximity 100) / 100))) ∧
    earlyGain proximity = 1 - max 0 (min proximity 100) / 100 ∧
    lateGain proximity = 1 / 2 + 1 / 2 * (max 0 (min proximity 100) / 100) ∧
    earlyGain 0 = 1 ∧ lateGain 0 = 1 / 2 ∧ earlyGain 100 = 0 ∧ lateGain 100 = 1 := by
  obtain ⟨m, st, hm, hbal, _, _, hv⟩ :=
    balanced_spec M duration sampleRate proximity rng hd.le hs.le
  refine ⟨⟨m, st, hm, hbal, ?_⟩, earlyGain_eq proximity, lateGain_eq proximity, ?_, ?_, ?_, ?_⟩
  · intro j _
    obtain ⟨h1, h2⟩ := hv j
    have hg : proximityGain sampleRate proximity j =
        (if (j : Int) < lateStart sampleRate then 1 - max 0 (min proximity 100) / 100
          else 1 / 2 + 1 / 2 * (max 0 (min proximity 100) / 100)) := by
      unfold proximityGain
      rw [earlyGain_eq, lateGain_eq]
    rw [h1, h2, hg]
    exact ⟨rfl, rfl⟩
  · rw [earlyGain_eq]; norm_num
  · rw [lateGain_eq]; norm_num
  · rw [earlyGain_eq]; norm_num
  · rw [lateGain_eq]; norm_num

/-- At proximity 25 the early region is scaled by 0.75 and the late region by 0.625. -/
theorem C6_proximity_balance_witness :
    ∃ m st, modulated sampleMath 1 48000 sampleRandom = .ok m ∧
      balanced sampleMath 1 48000 25 sampleRandom = .ok st ∧
      st.1.left.getD 336 0 = m.1.left.getD 336 0 * (3 / 4) ∧
      st.1.right.getD 5000 0 = m.1.right.getD 5000 0 * (5 / 8) := by
  obtain ⟨⟨m, st, hm, hbal, hv⟩, _⟩ :=
    C6_proximity_balance sampleMath 1 48000 25 sampleRandom (by norm_num) (by norm_num)
  have hls : lateStart 48000 = 4800 := by
    norm_num [lateStart, castInt, Int.floor_eq_iff]
  have hN : irLength 1 48000 = 48000 := by
    norm_num [irLength, castInt]
  have h1 := (hv 336 (by rw [hN]; norm_num)).1
  have h2 := (hv 5000 (by rw [hN]; norm_num)).2
  rw [hls] at h1 h2
  have c1 : ((336 : Nat) : Int) < 4800 := by norm_num
  have c2 : ¬ ((5000 : Nat) : Int) < 4800 := by norm_num
  have e1 : 1 - max 0 (min (25 : ℚ) 100) / 100 = 3 / 4 := by norm_num
  have e2 : 1 / 2 + 1 / 2 * (max 0 (min (25 : ℚ) 100) / 100) = 5 / 8 := by norm_num
  rw [if_pos c1, e1] at h1
  rw [if_neg c2, e2] at h2
  exact ⟨m, st, hm, hbal, h1, h2⟩

theorem delaySamples_natCast (sampleRate : ℚ) (k : Nat) :
    delaySamples sampleRate (k : Int) = castInt (earlyDelaysMs.getD k 0 * sampleRate / 1000) := by
  simp [delaySamples]

theorem tapOffsets_48000 :
    tapOffsets 48000 = [336, 528, 624, 816, 1104, 1392, 1488, 1776, 1968, 2064, 2256, 2544] := by
  simp only [tapOffsets, numEarlyReflections, List.range, List.range.loop, List.map,
    delaySamples_natCast, earlyDelaysMs, List.getD_cons_zero, List.getD_cons_succ]
  norm_num [castInt, Int.floor_eq_iff]

theorem tapOffsets_44100 :
    tapOffsets 44100 = [308, 485, 573, 749, 1014, 1278, 1367, 1631, 1808, 1896, 2072, 2337] := by
  simp only [tapOffsets, numEarlyReflections, List.range, List.range.loop, List.map,
    delaySamples_natCast, earlyDelaysMs, List.getD_cons_zero, List.getD_cons_succ]
  norm_num [castInt, Int.floor_eq_iff]

theorem lateStart_48000 : lateStart 48000 = 4800 := by
  norm_num [lateStart, castInt, Int.floor_eq_iff]

theorem irLength_one_48000 : irLength 1 48000 = 48000 := by
  norm_num [irLength, castInt]

theorem earlyGain_full : earlyGain 100 = 0 := by
  rw [earlyGain_eq]; norm_num

theorem earlyGain_pos {proximity : ℚ} (h : proximity < 100) : 0 < earlyGain proximity := by
  rw [earlyGain_eq, min_eq_left h.le]
  have : max 0 proximity < 100 := max_lt (by norm_num) h
  linarith

/-- After the reflection loop a tap offset inside the buffer is non-zero on both channels
when the generator yields floats in `[0, 1)`. -/
theorem early_tap_ne_zero (duration sampleRate : ℚ) (rng : Random) (e : AudioBuffer × Random)
    (hinv : EarlyInv duration sampleRate rng numEarlyReflections e) (hin : rng.InRange)
    (t : Nat) (ht : (t : Int) ∈ tapOffsets sampleRate)
    (hN : (t : Int) < irLength duration sampleRate) :
    e.1.left.getD t 0 ≠ 0 ∧ e.1.right.getD t 0 ≠ 0 := by
  obtain ⟨k, hk, hkt⟩ := (mem_tapOffsets sampleRate t).mp ht
  have hb := (hinv.2.2.2.2.2 hin k (by exact_mod_cast hk) (by rw [hkt]; exact hN)).1
  rw [hkt, Int.toNat_ofNat] at hb
  have ha := hinv.2.2.2.2.1 t
  constructor
  · intro h0
    rw [h0, abs_zero] at hb
    norm_num at hb
  · intro h0
    rw [ha, h0, abs_zero] at hb
    norm_num at hb

/-- C7: at proximity 100 the early reflections are suppressed entirely: for every
duration > 0, sampleRate > 0 and random stream, without reversal every returned sample
with index below `lateStart` is exactly 0 on both channels, and with reversal the
mirrored samples `N - 1 - i`, `i < lateStart`, are exactly 0. -/
theorem C7_full_proximity_silences_early (M : MathFns) (duration sampleRate : ℚ)
    (rng : Random) (hd : 0 < duration) (hs : 0 < sampleRate) :
    (∃ out g,
      createReverbImpulseResponse M duration sampleRate false 100 rng = .ok (out, g) ∧
      ∀ i : Nat, (i : Int) < lateStart sampleRate → (i : Int) < irLength duration sampleRate →
        out.left.getD i 0 = 0 ∧ out.right.getD i 0 = 0) ∧
    (∃ out g,
      createReverbImpulseResponse M duration sampleRate true 100 rng = .ok (out, g) ∧
      ∀ i : Nat, (i : Int) < lateStart sampleRate → (i : Int) < irLength duration sampleRate →
        out.left.getD ((irLength duration sampleRate).toNat - 1 - i) 0 = 0 ∧
        out.right.getD ((irLength duration sampleRate).toNat - 1 - i) 0 = 0) := by
  constructor
  · obtain ⟨e, out, g, _, _, hout, c, _, hv⟩ :=
      output_early M duration sampleRate false 100 rng hd.le hs.le
    refine ⟨out, g, hout, fun i hi hiN => ?_⟩
    obtain ⟨h1, h2⟩ := hv i hi hiN
    simp only [Bool.false_eq_true, if_false] at h1 h2
    rw [h1, h2, earlyGain_full]
    simp
  · obtain ⟨e, out, g, _, _, hout, c, _, hv⟩ :=
      output_early M duration sampleRate true 100 rng hd.le hs.le
    refine ⟨out, g, hout, fun i hi hiN => ?_⟩
    obtain ⟨h1, h2⟩ := hv i hi hiN
    simp only [if_true] at h1 h2
    rw [h1, h2, earlyGain_full]
    simp

/-- One second at 48 kHz, proximity 100: the 7 ms tap position 336 is silent, and so is
its mirror image 47663 in the reversed response. -/
theorem C7_full_proximity_silences_early_witness :
    (∃ out g, createReverbImpulseResponse sampleMath 1 48000 false 100 sampleRandom =
        .ok (out, g) ∧ out.left.getD 336 0 = 0 ∧ out.right.getD 336 0 = 0) ∧
    (∃ out g, createReverbImpulseResponse sampleMath 1 48000 true 100 sampleRandom =
        .ok (out, g) ∧ out.left.getD 47663 0 = 0 ∧ out.right.getD 47663 0 = 0) := by
  obtain ⟨⟨o₁, g₁, h₁, v₁⟩, ⟨o₂, g₂, h₂, v₂⟩⟩ :=
    C7_full_proximity_silences_early sampleMath 1 48000 sampleRandom (by norm_num)
      (by norm_num)
  have a := v₁ 336 (by rw [lateStart_48000]; norm_num) (by rw [irLength_one_48000]; norm_num)
  have b := v₂ 336 (by rw [lateStart_48000]; norm_num) (by rw [irLength_one_48000]; norm_num)
  rw [irLength_one_48000] at b
  exact ⟨⟨o₁, g₁, h₁, a⟩, ⟨o₂, g₂, h₂, b⟩⟩

/-- C8 as stated fails: at 44.1 kHz the 7 ms reflection lies at 308.7 samples; the
impulse is written at index 308, and index 309, the nearest integer, stays silent. -/
theorem C8_round_counterexample :
    delaySamples 44100 0 = 308 ∧ round ((7 : ℚ) * 44100 / 1000) = 309 ∧
    ∃ e g, earlyReflections 1 44100 sampleRandom = .ok (e, g) ∧
      e.left.getD 308 0 ≠ 0 ∧ e.right.getD 308 0 ≠ 0 ∧
      e.left.getD 309 0 = 0 ∧ e.right.getD 309 0 = 0 := by
  obtain ⟨⟨e, g⟩, he, hinv⟩ := earlyReflections_spec 1 44100 sampleRandom (by norm_num)
    (by norm_num)
  have h308 : ((308 : Nat) : Int) ∈ tapOffsets 44100 := by rw [tapOffsets_44100]; decide
  have h309 : ((309 : Nat) : Int) ∉ tapOffsets 44100 := by rw [tapOffsets_44100]; decide
  have hN : irLength 1 44100 = 44100 := by norm_num [irLength, castInt]
  have hnz := early_tap_ne_zero 1 44100 sampleRandom (e, g) hinv sampleRandom_inRange 308 h308
    (by rw [hN]; norm_num)
  have hz := hinv.2.2.2.1 309 h309
  refine ⟨?_, ?_, e, g, he, hnz.1, hnz.2, hz.1, hz.2⟩
  · norm_num [delaySamples, earlyDelaysMs, castInt, Int.floor_eq_iff]
  · rw [round_eq]; norm_num [Int.floor_eq_iff]

/-- C8 (as amended): for every sampleRate > 0 and each of the 12 delay times
`{7, 11, 13, 17, 23, 29, 31, 37, 41, 43, 47, 53}` ms the impulse is written at sample
index `d = (int)(delayMs * sampleRate / 1000)`, the value truncated, that is
`⌊delayMs * sampleRate / 1000⌋`: after the reflection loop only these indices are
non-zero, and each of them inside the buffer is non-zero when the random floats lie in
`[0, 1)`. For sampleRate 48000 the 7 ms tap is at index 336. -/
theorem C8_tap_offsets_truncate (duration sampleRate : ℚ) (rng : Random) (hd : 0 < duration)
    (hs : 0 < sampleRate) :
    earlyDelaysMs = [7, 11, 13, 17, 23, 29, 31, 37, 41, 43, 47, 53] ∧
    (∀ k : Nat, k < 12 →
      delaySamples sampleRate k = ⌊earlyDelaysMs.getD k 0 * sampleRate / 1000⌋) ∧
    delaySamples 48000 0 = 336 ∧
    ∃ e g, earlyReflections duration sampleRate rng = .ok (e, g) ∧
      (∀ j : Nat, e.left.getD j 0 ≠ 0 ∨ e.right.getD j 0 ≠ 0 →
        ∃ k : Nat, k < 12 ∧ (j : Int) = ⌊earlyDelaysMs.getD k 0 * sampleRate / 1000⌋) ∧
      (rng.InRange → ∀ k : Nat, k < 12 →
        ⌊earlyDelaysMs.getD k 0 * sampleRate / 1000⌋ < irLength duration sampleRate →
        e.left.getD ⌊earlyDelaysMs.getD k 0 * sampleRate / 1000⌋.toNat 0 ≠ 0 ∧
        e.right.getD ⌊earlyDelaysMs.getD k 0 * sampleRate / 1000⌋.toNat 0 ≠ 0) := by
  have hfloor : ∀ k : Nat,
      delaySamples sampleRate k = ⌊earlyDelaysMs.getD k 0 * sampleRate / 1000⌋ := by
    intro k
    rw [delaySamples_natCast]
    apply castInt_of_nonneg
    have := earlyDelay_nonneg k
    positivity
  obtain ⟨⟨e, g⟩, he, hinv⟩ := earlyReflections_spec duration sampleRate rng hd.le hs.le
  refine ⟨rfl, fun k _ => hfloor k, ?_, e, g, he, ?_, ?_⟩
  · norm_num [delaySamples, earlyDelaysMs, castInt, Int.floor_eq_iff]
  · intro j hj
    by_contra hno
    have hnot : (j : Int) ∉ tapOffsets sampleRate := by
      intro hm
      obtain ⟨k, hk, hkj⟩ := (mem_tapOffsets sampleRate j).mp hm
      exact hno ⟨k, hk, by rw [← hfloor k, hkj]⟩
    obtain ⟨h1, h2⟩ := hinv.2.2.2.1 j hnot
    rcases hj with hj | hj
    · exact hj h1
    · exact hj h2
  · intro hin k hk hlt
    have hd0 : 0 ≤ delaySamples sampleRate k := delaySamples_nonneg hs.le k
    have hmem : (((delaySamples sampleRate k).toNat : Nat) : Int) ∈ tapOffsets sampleRate := by
      rw [Int.toNat_of_nonneg hd0]
      exact (mem_tapOffsets sampleRate _).mpr ⟨k, hk, rfl⟩
    have := early_tap_ne_zero duration sampleRate rng (e, g) hinv hin
      (delaySamples sampleRate k).toNat hmem
      (by rw [Int.toNat_of_nonneg hd0, hfloor k]; exact hlt)
    rw [hfloor k] at this
    exact this

/-- One second at 48 kHz: the 7 ms impulse sits at index 336. -/
theorem C8_tap_offsets_truncate_witness :
    delaySamples 48000 0 = 336 ∧
    ∃ e g, earlyReflections 1 48000 sampleRandom = .ok (e, g) ∧
      e.left.getD 336 0 ≠ 0 ∧ e.right.getD 336 0 ≠ 0 := by
  obtain ⟨_, _, h336, e, g, he, _, hnz⟩ :=
    C8_tap_offsets_truncate 1 48000 sampleRandom (by norm_num) (by norm_num)
  have hf : ⌊earlyDelaysMs.getD 0 0 * (48000 : ℚ) / 1000⌋ = 336 := by
    norm_num [earlyDelaysMs, Int.floor_eq_iff]
  have := hnz sampleRandom_inRange 0 (by norm_num) (by rw [hf, irLength_one_48000]; norm_num)
  rw [hf] at this
  exact ⟨h336, e, g, he, this⟩

/-- C9: without reversal, for every duration > 0, sampleRate > 0 and random stream, every
index below `min (lateStart, N)` that is not one of the 12 tap offsets is exactly 0 on
both channels of the returned buffer; and when proximity < 100 (random floats in
`[0, 1)`) every tap offset below `min (lateStart, N)` is non-zero on both channels. -/
theorem C9_early_region_sparse (M : MathFns) (duration sampleRate proximity : ℚ)
    (rng : Random) (hd : 0 < duration) (hs : 0 < sampleRate) :
    ∃ out g,
      createReverbImpulseResponse M duration sampleRate false proximity rng = .ok (out, g) ∧
      (∀ i : Nat, (i : Int) < min (lateStart sampleRate) (irLength duration sampleRate) →
        (i : Int) ∉ tapOffsets sampleRate →
        out.left.getD i 0 = 0 ∧ out.right.getD i 0 = 0) ∧
      (rng.InRange → proximity < 100 →
        ∀ t : Nat, (t : Int) ∈ tapOffsets sampleRate →
          (t : Int) < min (lateStart sampleRate) (irLength duration sampleRate) →
          out.left.getD t 0 ≠ 0 ∧ out.right.getD t 0 ≠ 0) := by
  obtain ⟨e, out, g, _, hinv, hout, c, hc, hv⟩ :=
    output_early M duration sampleRate false proximity rng hd.le hs.le
  simp only [Bool.false_eq_true, if_false] at hv
  refine ⟨out, g, hout, ?_, ?_⟩
  · intro i hi hnot
    obtain ⟨h1, h2⟩ := hv i (lt_of_lt_of_le hi (min_le_left _ _))
      (lt_of_lt_of_le hi (min_le_right _ _))
    obtain ⟨z1, z2⟩ := hinv.2.2.2.1 i hnot
    rw [h1, h2, z1, z2]
    simp
  · intro hin hp t ht hlt
    have hN := lt_of_lt_of_le hlt (min_le_right _ _)
    obtain ⟨h1, h2⟩ := hv t (lt_of_lt_of_le hlt (min_le_left _ _)) hN
    obtain ⟨n1, n2⟩ := early_tap_ne_zero duration sampleRate rng e hinv hin t ht hN
    have hg := (earlyGain_pos hp).ne.symm
    rw [h1, h2]
    exact ⟨mul_ne_zero (mul_ne_zero n1 hg) hc.ne.symm, mul_ne_zero (mul_ne_zero n2 hg) hc.ne.symm⟩

/-- One second at 48 kHz, proximity 0: `lateStart` is 4800, index 336 (the 7 ms tap) is
non-zero and its neighbours 335 and 337 are zero, on both channels. -/
theorem C9_early_region_sparse_witness :
    lateStart 48000 = 4800 ∧
    ∃ out g, createReverbImpulseResponse sampleMath 1 48000 false 0 sampleRandom = .ok (out, g) ∧
      out.left.getD 336 0 ≠ 0 ∧ out.right.getD 336 0 ≠ 0 ∧
      out.left.getD 335 0 = 0 ∧ out.right.getD 335 0 = 0 ∧
      out.left.getD 337 0 = 0 ∧ out.right.getD 337 0 = 0 := by
  obtain ⟨out, g, hout, hz, hnz⟩ :=
    C9_early_region_sparse sampleMath 1 48000 0 sampleRandom (by norm_num) (by norm_num)
  rw [lateStart_48000, irLength_one_48000, tapOffsets_48000] at hz hnz
  have a := hnz sampleRandom_inRange (by norm_num) 336 (by decide) (by decide)
  have b := hz 335 (by decide) (by decide)
  have c := hz 337 (by decide) (by decide)
  exact ⟨lateStart_48000, out, g, hout, a.1, a.2, b.1, b.2, c.1, c.2⟩

theorem reverseChannels_twice (length : Int) (b : AudioBuffer)
    (h : b.HasLength length.toNat) :
    reverseChannels length (reverseChannels length b) = b := by
  rw [reverseChannels_eq length _ (reverseChannels_hasLength length b h),
    reverseChannels_eq length b h]
  simp

/-- C10: for every duration > 0, sampleRate > 0 and random stream, the buffer of the
`reverseReverb = true` run right after the reversal step holds at index `N - 1 - i`, on
each channel, the sample that the `reverseReverb = false` run (same parameters, same
random stream) holds at index `i` before normalization, for every `i < N`; and the
reversal step applied twice restores the original order. -/
theorem C10_reversal_symmetry (M : MathFns) (duration sampleRate proximity : ℚ)
    (rng : Random) (hd : 0 < duration) (hs : 0 < sampleRate) :
    ∃ fwd rev g,
      beforeNormalization M duration sampleRate false proximity rng = .ok (fwd, g) ∧
      reversed M duration sampleRate true proximity rng = .ok (rev, g) ∧
      rev = reverseChannels (irLength duration sampleRate) fwd ∧
      (∀ i : Nat, (i : Int) < irLength duration sampleRate →
        rev.left.getD ((irLength duration sampleRate).toNat - 1 - i) 0 = fwd.left.getD i 0 ∧
        rev.right.getD ((irLength duration sampleRate).toNat - 1 - i) 0 = fwd.right.getD i 0) ∧
      reverseChannels (irLength duration sampleRate)
        (reverseChannels (irLength duration sampleRate) fwd) = fwd ∧
      reverseChannels (irLength duration sampleRate)
        (reverseChannels (irLength duration sampleRate) rev) = rev := by
  obtain ⟨⟨b, g⟩, r, _, hbal, hrev, _, hr, hrlen, _, _⟩ :=
    beforeNormalization_spec M duration sampleRate true proximity rng hd.le hs.le
  obtain ⟨_, st, _, hbal', _, hlen, _⟩ :=
    balanced_spec M duration sampleRate proximity rng hd.le hs.le
  have hst : st = (b, g) := by
    rw [hbal] at hbal'; exact (Except.ok.inj hbal').symm
  subst hst
  simp only [if_true] at hr
  simp only at hlen
  refine ⟨b, r, g, ?_, hrev, ?_, ?_, reverseChannels_twice _ b hlen,
    reverseChannels_twice _ r hrlen⟩
  · rw [beforeNormalization_forward, hbal]
  · rw [hr, reverseChannels_eq _ b hlen]
  · intro i hi
    have hl : i < b.left.length := by rw [hlen.1]; omega
    have hrr : i < b.right.length := by rw [hlen.2]; omega
    have e1 := getD_reverse b.left i hl
    have e2 := getD_reverse b.right i hrr
    rw [hlen.1] at e1
    rw [hlen.2] at e2
    rw [hr]
    exact ⟨e1, e2⟩

/-- One second at 48 kHz: sample 47663 right after the reversal is sample 336 of the
forward run before normalization. -/
theorem C10_reversal_symmetry_witness :
    ∃ fwd rev g,
      beforeNormalization sampleMath 1 48000 false 30 sampleRandom = .ok (fwd, g) ∧
      reversed sampleMath 1 48000 true 30 sampleRandom = .ok (rev, g) ∧
      rev.left.getD 47663 0 = fwd.left.getD 336 0 ∧
      rev.right.getD 47663 0 = fwd.right.getD 336 0 := by
  obtain ⟨fwd, rev, g, h1, h2, _, hv, _⟩ :=
    C10_reversal_symmetry sampleMath 1 48000 30 sampleRandom (by norm_num) (by norm_num)
  have a := hv 336 (by rw [irLength_one_48000]; norm_num)
  rw [irLength_one_48000] at a
  exact ⟨fwd, rev, g, h1, h2, a.1, a.2⟩

theorem foldl_jmax_eq_max (l : List ℚ) (a : ℚ) (ha : 0 ≤ a) :
    l.foldl (fun m x => jmax m |x|) a = max a (magnitude l) := by
  induction l generalizing a with
  | nil => simp [magnitude, ha]
  | cons y ys ih =>
    have h0 : jmax 0 |y| = |y| := by rw [jmax_eq_max]; exact max_eq_right (abs_nonneg y)
    have h1 : magnitude (y :: ys) = max |y| (magnitude ys) := by
      unfold magnitude
      rw [List.foldl_cons, h0]
      exact ih |y| (abs_nonneg y)
    rw [List.foldl_cons, ih _ (by rw [jmax_eq_max]; exact le_max_of_le_left ha), h1,
      jmax_eq_max, max_assoc]

/-- The scan of lines 91-92 returns the running maximum over the first `n` samples. -/
theorem scanStart_eq (n : Int) (d : List ℚ) (m₀ : ℚ) (hn : n ≤ d.length) :
    scanStart n d m₀ = .ok ((d.take n.toNat).foldl (fun m x => jmax m |x|) m₀) := by
  unfold scanStart
  rcases le_or_lt 0 n with h | h
  · obtain ⟨m, hm, hP⟩ := forLoop_inv
      (fun (i : Int) (m : ℚ) => (do
        let x ← readAt d i
        pure (jmax m |x|) : Except Fault ℚ))
      (fun i m => m = (d.take i.toNat).foldl (fun m x => jmax m |x|) m₀) 0 n m₀ h
      (by simp)
      (by
        intro i m h0 h1 hm
        refine ⟨jmax m |d.getD i.toNat 0|, ?_, ?_⟩
        · simp only [readAt_ok d i h0 (by omega), Bind.bind, Except.bind, pure, Except.pure]
        · have hlt : i.toNat < d.length := by omega
          have e : (i + 1).toNat = i.toNat + 1 := by omega
          show jmax m |d.getD i.toNat 0| =
            (d.take (i + 1).toNat).foldl (fun m x => jmax m |x|) m₀
          rw [e, List.take_succ, List.foldl_append, ← hm, List.getD_eq_getElem?_getD,
            List.getElem?_eq_getElem hlt]
          rfl)
    rw [hm, hP]
  · rw [forLoop_empty _ _ _ _ h.le]
    have : n.toNat = 0 := by omega
    rw [this]; rfl

/-- Lines 87-93: `startMax` is the larger of the two channel peaks over the first
`checkSamples` samples. -/
theorem startMax_eq (duration sampleRate : ℚ) (b : AudioBuffer)
    (hb : b.HasLength (irLength duration sampleRate).toNat) :
    startMax duration sampleRate b =
      .ok (max (magnitude (b.left.take (checkSamples duration sampleRate).toNat))
        (magnitude (b.right.take (checkSamples duration sampleRate).toNat))) := by
  have hc := checkSamples_le duration sampleRate
  have h₁ := scanStart_eq (checkSamples duration sampleRate) b.left 0 (by rw [hb.1]; omega)
  have h₂ := scanStart_eq (checkSamples duration sampleRate) b.right
    ((b.left.take (checkSamples duration sampleRate).toNat).foldl (fun m x => jmax m |x|) 0)
    (by rw [hb.2]; omega)
  simp only [startMax, h₁, h₂, Bind.bind, Except.bind]
  rw [foldl_jmax_eq_max _ _ (foldl_jmax_ge _ 0)]
  rfl

/-- The repair of lines 96-100 in terms of the window peak. -/
theorem loudnessRepair_eq (duration sampleRate : ℚ) (b : AudioBuffer)
    (hb : b.HasLength (irLength duration sampleRate).toNat) (m : ℚ)
    (hm : m = max (magnitude (b.left.take (checkSamples duration sampleRate).toNat))
        (magnitude (b.right.take (checkSamples duration sampleRate).toNat))) :
    loudnessRepair duration sampleRate b =
      .ok (if m < 9 / 10 ∧ 0 < m then b.applyGain (9 / 10 / m) else b) := by
  have h := startMax_eq duration sampleRate b hb
  rw [← hm] at h
  simp only [loudnessRepair, h, Bind.bind, Except.bind, pure, Except.pure]
  split <;> rfl

theorem take_map_mul (data : List ℚ) (c : ℚ) (n : Nat) :
    (data.map (· * c)).take n = (data.take n).map (· * c) := by
  rw [List.map_take]

theorem magnitude_eq_zero (l : List ℚ) (h : ∀ x ∈ l, x = 0) : magnitude l = 0 := by
  rcases foldl_jmax_attained l 0 with h0 | ⟨x, hx, hv⟩
  · exact h0
  · unfold magnitude
    rw [hv, h x hx, abs_zero]

theorem magnitude_take_replicate_zero (n k : Nat) :
    magnitude ((List.replicate n (0 : ℚ)).take k) = 0 := by
  apply magnitude_eq_zero
  intro x hx
  exact List.eq_of_mem_replicate (List.mem_of_mem_take hx)

theorem checkSamples_eq (duration sampleRate : ℚ) :
    checkSamples duration sampleRate =
      min (lateStart sampleRate) (irLength duration sampleRate) := by
  unfold checkSamples jmin lateStart
  split
  · rename_i h; exact (min_eq_right h.le).symm
  · rename_i h; exact (min_eq_left (not_lt.mp h)).symm

/-- The peak over the first `n` samples of both channels scales with a non-negative gain. -/
theorem window_peak_applyGain (b : AudioBuffer) (c : ℚ) (hc : 0 ≤ c) (n : Nat) :
    max (magnitude ((b.applyGain c).left.take n)) (magnitude ((b.applyGain c).right.take n)) =
      max (magnitude (b.left.take n)) (magnitude (b.right.take n)) * c := by
  simp only [AudioBuffer.applyGain]
  rw [take_map_mul, take_map_mul, magnitude_scale _ c hc, magnitude_scale _ c hc,
    max_mul_of_nonneg _ _ hc]

/-- C11 (as amended): when `reverseReverb` is set, with
`checkSamples = min ((int)(0.1 * sampleRate), N)` (the value truncated, not rounded) and
`startMax` the largest absolute value over the first `checkSamples` samples of both
reversed channels, if `0 < startMax < 0.9` then every sample of both channels is
multiplied by exactly `0.9 / startMax` before the final normalization, so that the window
peak becomes 0.9 (a `startMax` of 0.45 gives the gain 2); if `startMax = 0` or
`startMax ≥ 0.9`, or `reverseReverb` is not set, no repair gain is applied. -/
theorem C11_loudness_repair (M : MathFns) (duration sampleRate proximity : ℚ) (rng : Random)
    (hd : 0 < duration) (hs : 0 < sampleRate) :
    checkSamples duration sampleRate = min ⌊1 / 10 * sampleRate⌋ (irLength duration sampleRate) ∧
    (∀ b : AudioBuffer, b.HasLength (irLength duration sampleRate).toNat →
      ∀ m : ℚ, m = max (magnitude (b.left.take (checkSamples duration sampleRate).toNat))
          (magnitude (b.right.take (checkSamples duration sampleRate).toNat)) →
        startMax duration sampleRate b = .ok m ∧
        (0 < m → m < 9 / 10 →
          loudnessRepair duration sampleRate b = .ok (b.applyGain (9 / 10 / m)) ∧
          (∀ j : Nat,
            (b.applyGain (9 / 10 / m)).left.getD j 0 = b.left.getD j 0 * (9 / 10 / m) ∧
            (b.applyGain (9 / 10 / m)).right.getD j 0 = b.right.getD j 0 * (9 / 10 / m)) ∧
          max (magnitude ((b.applyGain (9 / 10 / m)).left.take
                (checkSamples duration sampleRate).toNat))
              (magnitude ((b.applyGain (9 / 10 / m)).right.take
                (checkSamples duration sampleRate).toNat)) = 9 / 10) ∧
        (m = 9 / 20 → loudnessRepair duration sampleRate b = .ok (b.applyGain 2)) ∧
        (m = 0 ∨ 9 / 10 ≤ m → loudnessRepair duration sampleRate b = .ok b)) ∧
    (∃ r pre g, reversed M duration sampleRate true proximity rng = .ok (r, g) ∧
      r.HasLength (irLength duration sampleRate).toNat ∧
      loudnessRepair duration sampleRate r = .ok pre ∧
      beforeNormalization M duration sampleRate true proximity rng = .ok (pre, g)) ∧
    beforeNormalization M duration sampleRate false proximity rng =
      balanced M duration sampleRate proximity rng := by
  refine ⟨?_, ?_, ?_, beforeNormalization_forward M duration sampleRate proximity rng⟩
  · rw [checkSamples_eq]
    unfold lateStart
    rw [castInt_of_nonneg (by positivity)]
  · intro b hb m hm
    have hrep := loudnessRepair_eq duration sampleRate b hb m hm
    refine ⟨by rw [startMax_eq duration sampleRate b hb, hm], ?_, ?_, ?_⟩
    · intro h0 h9
      rw [if_pos ⟨h9, h0⟩] at hrep
      refine ⟨hrep, fun j => applyGain_getD b _ j, ?_⟩
      rw [window_peak_applyGain b _ (by positivity), ← hm]
      field_simp
      ring
    · intro h
      rw [if_pos (by rw [h]; norm_num)] at hrep
      rw [hrep, h]
      norm_num
    · intro h
      have : ¬ (m < 9 / 10 ∧ 0 < m) := by
        rcases h with h | h
        · rw [h]; norm_num
        · intro hc; linarith [hc.1]
      rw [if_neg this] at hrep
      exact hrep
  · obtain ⟨st, r, pre, _, hrev, hpre, _, hrlen, _, _⟩ :=
      beforeNormalization_spec M duration sampleRate true proximity rng hd.le hs.le
    obtain ⟨m, _, hrep⟩ := loudnessRepair_spec duration sampleRate r hrlen
    refine ⟨r, _, st.2, hrev, hrlen, hrep, ?_⟩
    have hb : beforeNormalization M duration sampleRate true proximity rng =
        (loudnessRepair duration sampleRate r >>= fun b => pure (b, st.2)) := by
      simp only [beforeNormalization, hrev, Bind.bind, Except.bind, pure, Except.pure]
      rfl
    rw [hb, hrep]
    rfl

theorem irLength_one_20 : irLength 1 20 = 20 := by
  norm_num [irLength, castInt]

theorem irLength_one_18 : irLength 1 18 = 18 := by
  norm_num [irLength, castInt]

theorem checkSamples_one_20 : checkSamples 1 20 = 2 := by
  norm_num [checkSamples, jmin, irLength, castInt, Int.floor_eq_iff]

theorem checkSamples_one_18 : checkSamples 1 18 = 1 := by
  norm_num [checkSamples, jmin, irLength, castInt, Int.floor_eq_iff]

theorem magnitude_pair (x y : ℚ) : magnitude [x, y] = max (max 0 |x|) |y| := by
  simp [magnitude, jmax_eq_max]

theorem magnitude_single (x : ℚ) : magnitude [x] = max 0 |x| := by
  simp [magnitude, jmax_eq_max]

/-- One second at 20 Hz: a reversed buffer whose 100 ms window peaks at 0.45 is scaled by
exactly 2 over its full length. -/
theorem C11_loudness_repair_witness :
    checkSamples 1 20 = 2 ∧ startMax 1 20 quietOnset20 = .ok (9 / 20) ∧
    loudnessRepair 1 20 quietOnset20 = .ok (quietOnset20.applyGain 2) := by
  have hlen : quietOnset20.HasLength (irLength 1 20).toNat := by
    rw [irLength_one_20]
    exact ⟨by simp [quietOnset20], by simp [quietOnset20]⟩
  have hm : (9 / 20 : ℚ) = max (magnitude (quietOnset20.left.take (checkSamples 1 20).toNat))
      (magnitude (quietOnset20.right.take (checkSamples 1 20).toNat)) := by
    rw [checkSamples_one_20]
    have e1 : quietOnset20.left.take (Int.toNat 2) = [9 / 20, 0] := rfl
    rw [e1, magnitude_pair]
    simp only [quietOnset20]
    rw [magnitude_take_replicate_zero]
    norm_num [abs_of_nonneg]
  obtain ⟨_, h, _, _⟩ :=
    C11_loudness_repair sampleMath 1 20 0 sampleRandom (by norm_num) (by norm_num)
  obtain ⟨h1, _, h2, _⟩ := h quietOnset20 hlen (9 / 20) hm
  exact ⟨checkSamples_one_20, h1, h2 rfl⟩

/-- C11 as stated fails: at 18 Hz the rounded window `min (round 1.8, N)` holds two
samples and its peak is 0.9, for which the claim promises no repair gain; the code scans
`(int) 1.8 = 1` sample, finds 0.45, and doubles the whole buffer. -/
theorem C11_round_window_counterexample :
    round ((1 / 10 : ℚ) * 18) = 2 ∧ checkSamples 1 18 = 1 ∧
    quietOnset18.HasLength (irLength 1 18).toNat ∧
    max (magnitude (quietOnset18.left.take
            (min (round ((1 / 10 : ℚ) * 18)) (irLength 1 18)).toNat))
        (magnitude (quietOnset18.right.take
            (min (round ((1 / 10 : ℚ) * 18)) (irLength 1 18)).toNat)) = 9 / 10 ∧
    loudnessRepair 1 18 quietOnset18 = .ok (quietOnset18.applyGain 2) ∧
    quietOnset18.applyGain 2 ≠ quietOnset18 := by
  have hR : round ((1 / 10 : ℚ) * 18) = 2 := by
    rw [round_eq]; norm_num [Int.floor_eq_iff]
  have hlen : quietOnset18.HasLength (irLength 1 18).toNat := by
    rw [irLength_one_18]
    exact ⟨by simp [quietOnset18], by simp [quietOnset18]⟩
  have hm : (9 / 20 : ℚ) = max (magnitude (quietOnset18.left.take (checkSamples 1 18).toNat))
      (magnitude (quietOnset18.right.take (checkSamples 1 18).toNat)) := by
    rw [checkSamples_one_18]
    have e1 : quietOnset18.left.take (Int.toNat 1) = [9 / 20] := rfl
    rw [e1, magnitude_single]
    simp only [quietOnset18]
    rw [magnitude_take_replicate_zero]
    norm_num [abs_of_nonneg]
  have hrep := loudnessRepair_eq 1 18 quietOnset18 hlen (9 / 20) hm
  rw [if_pos (by norm_num)] at hrep
  have e2 : (9 / 10 / (9 / 20) : ℚ) = 2 := by norm_num
  rw [e2] at hrep
  refine ⟨hR, checkSamples_one_18, hlen, ?_, hrep, ?_⟩
  · rw [hR, irLength_one_18]
    have e1 : quietOnset18.left.take (min (2 : Int) 18).toNat = [9 / 20, 9 / 10] := rfl
    rw [e1, magnitude_pair]
    simp only [quietOnset18]
    rw [magnitude_take_replicate_zero]
    norm_num [abs_of_nonneg]
  · intro h
    have h' := congrArg (fun b : AudioBuffer => b.left.getD 0 0) h
    simp only [quietOnset18, AudioBuffer.applyGain, List.map_cons, List.getD_cons_zero] at h'
    norm_num at h'

theorem placeReflection_trace_step (duration sampleRate : ℚ) (rng : Random) (gains : List ℚ)
    (hs : 0 ≤ sampleRate)
    (hg : ∀ j : Nat, j < numEarlyReflections →
      gains.getD j 0 = rng.floats (rng.pos + j) * (1 / 2) + 1 / 2)
    (i : Int) (st : AudioBuffer × Random) (h0 : 0 ≤ i) (h1 : i < numEarlyReflections)
    (hP : EarlyInv duration sampleRate rng i st ∧ EarlyTrace duration sampleRate rng i st) :
    ∃ st2, placeReflection sampleRate (irLength duration sampleRate) gains i st = .ok st2 ∧
      (EarlyInv duration sampleRate rng (i + 1) st2 ∧
        EarlyTrace duration sampleRate rng (i + 1) st2) := by
  obtain ⟨hI, hpos, hT⟩ := hP
  obtain ⟨st2, hst2, hI2⟩ :=
    placeReflection_step duration sampleRate rng gains hs hg i st h0 h1 hI
  refine ⟨st2, hst2, hI2, ?_⟩
  obtain ⟨b, g⟩ := st
  have hd0 := delaySamples_nonneg hs i
  have hcast : ((i.toNat : Nat) : Int) = i := by omega
  have hsucc : (i + 1).toNat = i.toNat + 1 := by omega
  have hgb : g.bools = rng.bools := hI.2.2.1
  by_cases hlt : delaySamples sampleRate i < irLength duration sampleRate
  · rw [placeReflection_in sampleRate _ gains i b g hI.1 hd0 hlt] at hst2
    have e2 := (Except.ok.inj hst2).symm
    subst e2
    have hdl : (delaySamples sampleRate i).toNat < b.left.length := by rw [hI.1.1]; omega
    have hdr : (delaySamples sampleRate i).toNat < b.right.length := by rw [hI.1.2]; omega
    constructor
    · simp only at hpos ⊢
      rw [hsucc, tapsInside, hcast, if_pos hlt, hpos]
      ring
    · intro k hk hkl
      simp only at hpos ⊢
      by_cases e : (delaySamples sampleRate i).toNat = (delaySamples sampleRate k).toNat
      · refine ⟨i.toNat, by omega, ?_, g.pos, by omega, by omega, ?_, ?_⟩
        · rw [hcast]
          have hk0 := delaySamples_nonneg hs (k : Int)
          omega
        · rw [← e, getD_set_self _ _ _ hdl, hg i.toNat (by omega), hgb]
        · rw [← e, getD_set_self _ _ _ hdr, hg i.toNat (by omega), hgb]
      · have hki : (k : Int) ≠ i := by
          intro e3
          apply e
          rw [e3]
        obtain ⟨k₁, hk₁, hdk, p, hp0, hp1, hl, hr⟩ := hT k (by omega) hkl
        simp only at hp1 hl hr
        refine ⟨k₁, by omega, hdk, p, hp0, by omega, ?_, ?_⟩
        · rw [getD_set_ne _ _ _ _ e]; exact hl
        · rw [getD_set_ne _ _ _ _ e]; exact hr
  · rw [placeReflection_out sampleRate _ gains i (b, g) hlt] at hst2
    have e2 := (Except.ok.inj hst2).symm
    subst e2
    constructor
    · simp only at hpos ⊢
      rw [hsucc, tapsInside, hcast, if_neg hlt, hpos]
      ring
    · intro k hk hkl
      have hki : (k : Int) ≠ i := by
        intro e3
        apply hlt
        rw [← e3]; exact hkl
      obtain ⟨k₁, hk₁, hdk, p, hp0, hp1, hl, hr⟩ := hT k (by omega) hkl
      exact ⟨k₁, by omega, hdk, p, hp0, hp1, hl, hr⟩

/-- Lines 3-25 with the draws made explicit. -/
theorem earlyReflections_trace (duration sampleRate : ℚ) (rng : Random) (hd : 0 ≤ duration)
    (hs : 0 ≤ sampleRate) :
    ∃ st, earlyReflections duration sampleRate rng = .ok st ∧
      EarlyInv duration sampleRate rng numEarlyReflections st ∧
      EarlyTrace duration sampleRate rng numEarlyReflections st := by
  obtain ⟨gains, g, hgains, _, hf, hb, hp, hg⟩ := drawEarlyGains_spec rng
  have hN := irLength_nonneg hd hs
  have key := forLoop_inv
    (placeReflection sampleRate (irLength duration sampleRate) gains)
    (fun i st => EarlyInv duration sampleRate rng i st ∧ EarlyTrace duration sampleRate rng i st)
    0 numEarlyReflections
    (⟨List.replicate (irLength duration sampleRate).toNat 0,
      List.replicate (irLength duration sampleRate).toNat 0⟩, g) (by simp)
    ⟨⟨⟨by simp, by simp⟩, hf, hb,
      fun j _ => ⟨getD_replicate_zero _ _, getD_replicate_zero _ _⟩,
      fun j => by simp only [getD_replicate_zero], fun _ k hk => by omega⟩,
      by simp only [hp, Int.toNat_zero, tapsInside]; rfl, fun k hk => by omega⟩
    (fun i st h0 h1 hP =>
      placeReflection_trace_step duration sampleRate rng gains hs hg i st h0 h1 hP)
  obtain ⟨st, hst, hP⟩ := key
  refine ⟨st, ?_, by simpa using hP.1, by simpa using hP.2⟩
  simp only [earlyReflections, AudioBuffer.alloc, hN, if_true, hgains, Bind.bind, Except.bind]
  exact hst

theorem lateSample_step (M : MathFns) (duration sampleRate : ℚ) (e : AudioBuffer × Random)
    (hl0 : 0 ≤ lateStart sampleRate) (i : Int) (st : AudioBuffer × Random)
    (h0 : lateStart sampleRate ≤ i) (h1 : i < irLength duration sampleRate)
    (hP : LateInv M duration sampleRate e i st) :
    ∃ st2, lateSample M duration sampleRate i st = .ok st2 ∧
      LateInv M duration sampleRate e (i + 1) st2 := by
  obtain ⟨b, g⟩ := st
  obtain ⟨hlen, hf, hb, hp, hlow, hv⟩ := hP
  simp only at hlen hf hb hp hlow hv
  refine ⟨_, lateSample_ok M duration sampleRate i b g _ hlen (by omega) (by omega), ?_⟩
  have hl : i.toNat < b.left.length := by rw [hlen.1]; omega
  have hr : i.toNat < b.right.length := by rw [hlen.2]; omega
  have hcast : ((i.toNat : Nat) : Int) = i := by omega
  refine ⟨⟨by simpa using hlen.1, by simpa using hlen.2⟩, hf, hb, ?_, ?_, ?_⟩
  · simp only
    rw [hp]
    have : (i + 1 - lateStart sampleRate).toNat = (i - lateStart sampleRate).toNat + 1 := by
      omega
    rw [this]; ring
  · intro j hj
    have hne : i.toNat ≠ j := by omega
    simp only [getD_set_ne _ _ _ _ hne]
    exact hlow j hj
  · intro j hj0 hj1
    by_cases e2 : i.toNat = j
    · subst e2
      simp only
      rw [getD_set_self _ _ _ hl, getD_set_self _ _ _ hr, hcast, hf, hp]
      exact ⟨rfl, rfl⟩
    · simp only [getD_set_ne _ _ _ _ e2]
      exact hv j hj0 (by omega)

/-- Lines 3-42 with the draws made explicit: every index from `lateStart` up to the
length holds the centred draw times the envelope, whatever was there before. -/
theorem lateReverb_trace (M : MathFns) (duration sampleRate : ℚ) (rng : Random)
    (hd : 0 ≤ duration) (hs : 0 ≤ sampleRate) :
    ∃ e st, earlyReflections duration sampleRate rng = .ok e ∧
      EarlyInv duration sampleRate rng numEarlyReflections e ∧
      EarlyTrace duration sampleRate rng numEarlyReflections e ∧
      lateReverb M duration sampleRate rng = .ok st ∧
      LateInv M duration sampleRate e (irLength duration sampleRate) st := by
  obtain ⟨e, he, hinv, htr⟩ := earlyReflections_trace duration sampleRate rng hd hs
  have hl0 := lateStart_nonneg hs
  have hrun : lateReverb M duration sampleRate rng =
      forLoop (lateStart sampleRate) (irLength duration sampleRate)
        (lateSample M duration sampleRate) e := by
    simp only [lateReverb, he, Bind.bind, Except.bind]
  rcases le_or_lt (lateStart sampleRate) (irLength duration sampleRate) with hle | hlt
  · obtain ⟨st, hst, hP⟩ := forLoop_inv (lateSample M duration sampleRate)
      (LateInv M duration sampleRate e) (lateStart sampleRate) (irLength duration sampleRate) e
      hle
      ⟨hinv.1, rfl, rfl, by simp, fun j _ => ⟨rfl, rfl⟩, fun j h1 h2 => by omega⟩
      (fun i st h0 h1 hP => lateSample_step M duration sampleRate e hl0 i st h0 h1 hP)
    exact ⟨e, st, he, hinv, htr, by rw [hrun, hst], hP⟩
  · refine ⟨e, e, he, hinv, htr, by rw [hrun, forLoop_empty _ _ _ _ hlt.le], ?_⟩
    refine ⟨hinv.1, rfl, rfl, ?_, fun j _ => ⟨rfl, rfl⟩, fun j h1 h2 => by omega⟩
    have : (irLength duration sampleRate - lateStart sampleRate).toNat = 0 := by omega
    rw [this]; rfl

theorem writeAt_ok_iff (data : List ℚ) (i : Int) (v : ℚ) :
    (∃ d, writeAt data i v = .ok d) ↔ (0 ≤ i ∧ i < (data.length : Int)) := by
  unfold writeAt
  by_cases h : 0 ≤ i ∧ i < (data.length : Int)
  · rw [if_pos h]; exact ⟨fun _ => h, fun _ => ⟨_, rfl⟩⟩
  · rw [if_neg h]
    exact ⟨fun ⟨d, hd⟩ => Except.noConfusion hd, fun h2 => absurd h2 h⟩

theorem readAt_ok_iff (data : List ℚ) (i : Int) :
    (∃ x, readAt data i = .ok x) ↔ (0 ≤ i ∧ i < (data.length : Int)) := by
  unfold readAt
  by_cases h : 0 ≤ i ∧ i < (data.length : Int)
  · rw [if_pos h]; exact ⟨fun _ => h, fun _ => ⟨_, rfl⟩⟩
  · rw [if_neg h]
    exact ⟨fun ⟨d, hd⟩ => Except.noConfusion hd, fun h2 => absurd h2 h⟩

/-- C13 (as amended): for every duration > 0 and sampleRate > 0 whose conversions to `int`
do not overflow (`sampleRate * duration < 2 ^ 31` and `0.1 * sampleRate < 2 ^ 31`) every
sample access of the call lies inside the buffer. Every conversion yields its truncated
value; in the embedding an access succeeds exactly when `0 ≤ index < length` and faults
otherwise; every stage of the call (reflections, late tail, modulation, proximity gain,
reversal, repair scan, normalization) returns without fault on buffers of exactly `N`
samples, reflections with `d ≥ N` are skipped, the late loops cover only
`lateStart ≤ i < N` with `lateStart ≥ 0`, and the repair window is at most `N`. -/
theorem C13_in_bounds (M : MathFns) (duration sampleRate : ℚ) (reverseReverb : Bool)
    (proximity : ℚ) (rng : Random) (hd : 0 < duration) (hs : 0 < sampleRate)
    (hlen : sampleRate * duration < 2147483648) (hrate : 1 / 10 * sampleRate < 2147483648) :
    castInt32 (sampleRate * duration) = .ok (irLength duration sampleRate) ∧
    (∀ i : Int, castInt32 (earlyDelaysMs.getD i.toNat 0 * sampleRate / 1000) =
      .ok (delaySamples sampleRate i)) ∧
    castInt32 (1 / 10 * sampleRate) = .ok (lateStart sampleRate) ∧
    (∀ (data : List ℚ) (i : Int) (v : ℚ),
      (∃ d, writeAt data i v = .ok d) ↔ (0 ≤ i ∧ i < (data.length : Int))) ∧
    (∀ (data : List ℚ) (i : Int),
      (∃ x, readAt data i = .ok x) ↔ (0 ≤ i ∧ i < (data.length : Int))) ∧
    0 ≤ irLength duration sampleRate ∧
    (∀ k : Int, 0 ≤ delaySamples sampleRate k) ∧
    (∀ (k : Int) (gains : List ℚ) (st : AudioBuffer × Random),
      irLength duration sampleRate ≤ delaySamples sampleRate k →
      placeReflection32 sampleRate (irLength duration sampleRate) gains k st = .ok st ∧
      placeReflection sampleRate (irLength duration sampleRate) gains k st = .ok st) ∧
    0 ≤ lateStart sampleRate ∧
    checkSamples duration sampleRate ≤ irLength duration sampleRate ∧
    (∃ e l m st r pre out g,
      earlyReflections duration sampleRate rng = .ok e ∧
      lateReverb M duration sampleRate rng = .ok l ∧
      modulated M duration sampleRate rng = .ok m ∧
      balanced M duration sampleRate proximity rng = .ok st ∧
      reversed M duration sampleRate reverseReverb proximity rng = .ok (r, g) ∧
      beforeNormalization M duration sampleRate reverseReverb proximity rng = .ok (pre, g) ∧
      createReverbImpulseResponse M duration sampleRate reverseReverb proximity rng =
        .ok (out, g) ∧
      createReverbImpulseResponse32 M duration sampleRate reverseReverb proximity rng =
        .ok (out, g) ∧
      e.1.HasLength (irLength duration sampleRate).toNat ∧
      l.1.HasLength (irLength duration sampleRate).toNat ∧
      m.1.HasLength (irLength duration sampleRate).toNat ∧
      st.1.HasLength (irLength duration sampleRate).toNat ∧
      r.HasLength (irLength duration sampleRate).toNat ∧
      pre.HasLength (irLength duration sampleRate).toNat ∧
      out.HasLength (irLength duration sampleRate).toNat) ∧
    ∀ f, createReverbImpulseResponse32 M duration sampleRate reverseReverb proximity rng ≠
      .error f := by
  obtain ⟨h₁, h₂, h₃, heq⟩ := createReverbImpulseResponse32_of_fits M duration sampleRate
    reverseReverb proximity rng hd.le hs.le hlen hrate
  obtain ⟨e, l, he, hinv, hl, hllen, _⟩ := lateReverb_spec M duration sampleRate rng hd.le hs.le
  obtain ⟨_, m, _, _, hm, hmlen, _⟩ := modulated_spec M duration sampleRate rng hd.le hs.le
  obtain ⟨st, r, pre, hbal, hrev, hpre, _, hrlen, hplen, _⟩ :=
    beforeNormalization_spec M duration sampleRate reverseReverb proximity rng hd.le hs.le
  obtain ⟨st2, _, _, out, hbal2, _, _, hout, _, _, hslen, _, holen, _⟩ :=
    createReverbImpulseResponse_spec M duration sampleRate reverseReverb proximity rng hd.le
      hs.le
  have e2 : st2 = st := by rw [hbal] at hbal2; exact (Except.ok.inj hbal2).symm
  subst e2
  refine ⟨h₁, h₂, h₃, writeAt_ok_iff, readAt_ok_iff, irLength_nonneg hd.le hs.le,
    fun k => delaySamples_nonneg hs.le k, ?_, lateStart_nonneg hs.le,
    checkSamples_le duration sampleRate,
    ⟨e, l, m, st2, r, pre, out, st2.2, he, hl, hm, hbal, hrev, hpre, hout, by rw [heq, hout],
      hinv.1, hllen, hmlen, hslen, hrlen, hplen, holen⟩, ?_⟩
  · intro k gains st hk
    have hout2 := placeReflection_out sampleRate (irLength duration sampleRate) gains k st
      (by omega)
    exact ⟨by rw [placeReflection32_eq sampleRate _ gains k st (h₂ k), hout2], hout2⟩
  · intro f hf
    rw [heq, hout] at hf
    exact Except.noConfusion hf

/-- At 1 kHz and 1/100 s (ten samples) only the 7 ms reflection fits; the 53 ms one is
skipped and the call returns two channels of ten samples. -/
theorem C13_in_bounds_witness :
    irLength (1 / 100) 1000 = 10 ∧ delaySamples 1000 11 = 53 ∧
    (∀ (gains : List ℚ) (st : AudioBuffer × Random),
      placeReflection32 1000 (irLength (1 / 100) 1000) gains 11 st = .ok st) ∧
    ∃ out g, createReverbImpulseResponse32 sampleMath (1 / 100) 1000 true 50 sampleRandom =
        .ok (out, g) ∧ out.left.length = 10 ∧ out.right.length = 10 := by
  have hN : irLength (1 / 100) 1000 = 10 := by
    norm_num [irLength, castInt]
  have hD : delaySamples 1000 11 = 53 := by
    have := delaySamples_natCast 1000 11
    rw [show ((11 : Nat) : Int) = 11 from rfl] at this
    rw [this]
    norm_num [earlyDelaysMs, castInt]
  obtain ⟨_, _, _, _, _, _, _, hskip, _, _, ⟨_, _, _, _, _, _, out, g, _, _, _, _, _, _, _, hout,
      _, _, _, _, _, _, holen⟩, _⟩ :=
    C13_in_bounds sampleMath (1 / 100) 1000 true 50 sampleRandom (by norm_num) (by norm_num)
      (by norm_num) (by norm_num)
  rw [hN] at holen
  refine ⟨hN, hD, fun gains st => (hskip 11 gains st (by rw [hN, hD]; norm_num)).1, out, g,
    hout, holen.1, holen.2⟩

/-- C13 as stated fails: at 48 kHz and 50000 s, both positive, the product 2400000000
exceeds the largest `int`; the conversion of line 3 is undefined, so the run has no
length `N ≥ 0` bounding its indices and does not complete without fault. -/
theorem C13_overflow_counterexample :
    (0 : ℚ) < 50000 ∧ (0 : ℚ) < 48000 ∧
    castInt ((48000 : ℚ) * 50000) = 2400000000 ∧ intMax = 2147483647 ∧
    castInt32 ((48000 : ℚ) * 50000) = .error .castOverflow ∧
    createReverbImpulseResponse32 sampleMath 50000 48000 false 0 sampleRandom =
      .error .castOverflow ∧
    ¬ ∃ out, createReverbImpulseResponse32 sampleMath 50000 48000 false 0 sampleRandom =
      .ok out := by
  have hrun := createReverbImpulseResponse32_overflow sampleMath 50000 48000 false 0
    sampleRandom length_48000_50000_overflows
  refine ⟨by norm_num, by norm_num, by norm_num [castInt], rfl,
    castInt32_overflow length_48000_50000_overflows, hrun, ?_⟩
  rintro ⟨out, hout⟩
  rw [hrun] at hout
  exact Except.noConfusion hout

theorem gain_mem_range (rng : Random) (hin : rng.InRange) (n : Nat) :
    1 / 2 ≤ rng.floats n * (1 / 2) + 1 / 2 ∧ rng.floats n * (1 / 2) + 1 / 2 < 1 := by
  obtain ⟨h0, h1⟩ := hin n
  constructor <;> linarith

/-- C14: with random floats in `[0, 1)`, after the reflection loop every tap offset
`d < N` holds `g * signL` on the left and `g * signR` on the right channel, where the
magnitude `g = 0.5 * float + 0.5` lies in `[0.5, 1)` and is shared by both channels and
the two signs are `±1` taken from two different boolean draws; consequently, without
reversal, the returned buffer has `|left[d]| = |right[d]|` at every tap offset
`d < lateStart`. -/
theorem C14_early_tap_values (M : MathFns) (duration sampleRate proximity : ℚ) (rng : Random)
    (hd : 0 < duration) (hs : 0 < sampleRate) (hin : rng.InRange) :
    (∃ e, earlyReflections duration sampleRate rng = .ok e ∧
      ∀ k : Nat, k < numEarlyReflections →
        delaySamples sampleRate k < irLength duration sampleRate →
        ∃ (g signL signR : ℚ) (p : Nat),
          1 / 2 ≤ g ∧ g < 1 ∧
          signL = (if rng.bools p then 1 else -1) ∧
          signR = (if rng.bools (p + 1) then 1 else -1) ∧
          (signL = 1 ∨ signL = -1) ∧ (signR = 1 ∨ signR = -1) ∧
          e.1.left.getD (delaySamples sampleRate k).toNat 0 = g * signL ∧
          e.1.right.getD (delaySamples sampleRate k).toNat 0 = g * signR ∧
          |e.1.left.getD (delaySamples sampleRate k).toNat 0| = g ∧
          |e.1.right.getD (delaySamples sampleRate k).toNat 0| = g) ∧
    ∃ out g, createReverbImpulseResponse M duration sampleRate false proximity rng =
        .ok (out, g) ∧
      ∀ t : Nat, (t : Int) ∈ tapOffsets sampleRate → (t : Int) < lateStart sampleRate →
        (t : Int) < irLength duration sampleRate →
        |out.left.getD t 0| = |out.right.getD t 0| := by
  constructor
  · obtain ⟨e, he, _, _, htr⟩ := earlyReflections_trace duration sampleRate rng hd.le hs.le
    refine ⟨e, he, fun k hk hlt => ?_⟩
    obtain ⟨k₁, _, _, p, _, _, hl, hr⟩ := htr k (by exact_mod_cast hk) hlt
    obtain ⟨g0, g1⟩ := gain_mem_range rng hin (rng.pos + k₁)
    have hgpos : 0 ≤ rng.floats (rng.pos + k₁) * (1 / 2) + 1 / 2 := by linarith
    refine ⟨rng.floats (rng.pos + k₁) * (1 / 2) + 1 / 2, _, _, p, g0, g1, rfl, rfl, ?_, ?_, hl,
      hr, ?_, ?_⟩
    · cases rng.bools p <;> simp
    · cases rng.bools (p + 1) <;> simp
    · rw [hl, abs_mul_sign, abs_of_nonneg hgpos]
    · rw [hr, abs_mul_sign, abs_of_nonneg hgpos]
  · obtain ⟨e, out, g, _, hinv, hout, c, _, hv⟩ :=
      output_early M duration sampleRate false proximity rng hd.le hs.le
    simp only [Bool.false_eq_true, if_false] at hv
    refine ⟨out, g, hout, fun t _ h1 h2 => ?_⟩
    obtain ⟨a, b⟩ := hv t h1 h2
    rw [a, b, abs_mul, abs_mul, abs_mul, abs_mul, hinv.2.2.2.2.1 t]

/-- One second at 48 kHz: the 7 ms tap at index 336 has a magnitude in `[0.5, 1)` shared by
both channels after the reflection loop, and equal magnitudes in the returned buffer. -/
theorem C14_early_tap_values_witness :
    (∃ e, earlyReflections 1 48000 sampleRandom = .ok e ∧
      1 / 2 ≤ |e.1.left.getD 336 0| ∧ |e.1.left.getD 336 0| < 1 ∧
      |e.1.left.getD 336 0| = |e.1.right.getD 336 0|) ∧
    ∃ out g, createReverbImpulseResponse sampleMath 1 48000 false 0 sampleRandom =
        .ok (out, g) ∧ |out.left.getD 336 0| = |out.right.getD 336 0| := by
  obtain ⟨⟨e, he, hv⟩, out, g, hout, ho⟩ :=
    C14_early_tap_values sampleMath 1 48000 0 sampleRandom (by norm_num) (by norm_num)
      sampleRandom_inRange
  have hd0 : delaySamples 48000 ((0 : Nat) : Int) = 336 := by
    norm_num [delaySamples, earlyDelaysMs, castInt, Int.floor_eq_iff]
  obtain ⟨g₀, _, _, _, h1, h2, _, _, _, _, _, _, h3, h4⟩ :=
    hv 0 (by norm_num [numEarlyReflections]) (by rw [hd0, irLength_one_48000]; norm_num)
  rw [hd0] at h3 h4
  have e336 : Int.toNat 336 = 336 := rfl
  rw [e336] at h3 h4
  refine ⟨⟨e, he, by rw [h3]; exact h1, by rw [h3]; exact h2, by rw [h3, h4]⟩, out, g, hout, ?_⟩
  exact ho 336 (by rw [tapOffsets_48000]; decide) (by rw [lateStart_48000]; decide)
    (by rw [irLength_one_48000]; decide)

theorem decayEnv_mem (M : MathFns) (hexp : ∀ x : ℚ, x ≤ 0 → 0 < M.exp x ∧ M.exp x ≤ 1)
    (duration sampleRate : ℚ) (hd : 0 < duration) (hs : 0 < sampleRate) (i : Int)
    (hi : 0 ≤ i) :
    0 < decayEnv M duration sampleRate i ∧ decayEnv M duration sampleRate i ≤ 1 := by
  unfold decayEnv
  apply hexp
  have hi' : (0 : ℚ) ≤ (i : ℚ) := by exact_mod_cast hi
  have h1 : 0 ≤ (i : ℚ) / sampleRate := div_nonneg hi' hs.le
  have h2 : 0 ≤ 691 / 100 * ((i : ℚ) / sampleRate) / duration :=
    div_nonneg (mul_nonneg (by norm_num) h1) hd.le
  have h3 : -(691 / 100) * ((i : ℚ) / sampleRate) / duration =
      -(691 / 100 * ((i : ℚ) / sampleRate) / duration) := by ring
  rw [h3]
  linarith

theorem noise_mem_range (rng : Random) (hin : rng.InRange) (n : Nat) :
    -(1 / 2) ≤ (rng.floats n * 2 - 1) * (1 / 2) ∧ (rng.floats n * 2 - 1) * (1 / 2) < 1 / 2 := by
  obtain ⟨h0, h1⟩ := hin n
  constructor <;> linarith

theorem abs_noise_mul_le (n env : ℚ) (hn0 : -(1 / 2) ≤ n) (hn1 : n < 1 / 2) (he0 : 0 < env)
    (he1 : env ≤ 1) : |n * env| ≤ 1 / 2 * env ∧ 1 / 2 * env ≤ 1 / 2 := by
  constructor
  · rw [abs_mul, abs_of_pos he0]
    exact mul_le_mul_of_nonneg_right (abs_le.mpr ⟨hn0, hn1.le⟩) he0.le
  · linarith

/-- C16 (as amended): with `lateStart = (int)(0.1 * sampleRate)`, the value truncated (not
rounded), whatever the duration, the late loop sets the sample of every index `i` with
`lateStart ≤ i < N` on each channel to `n * env (i)`, where `n` lies in `[-0.5, 0.5)` and
comes from a draw of its own per channel and
`env (i) = exp (-6.91 * (i / sampleRate) / duration)` lies in `(0, 1]` (for an `exp` with
values in `(0, 1]` on non-positive arguments), whatever the sample held before; so after
the loop every late sample has absolute value at most `0.5 * env (i) ≤ 0.5`. -/
theorem C16_late_tail (M : MathFns) (duration sampleRate : ℚ) (rng : Random)
    (hd : 0 < duration) (hs : 0 < sampleRate) (hin : rng.InRange)
    (hexp : ∀ x : ℚ, x ≤ 0 → 0 < M.exp x ∧ M.exp x ≤ 1) :
    lateStart sampleRate = ⌊1 / 10 * sampleRate⌋ ∧
    ∃ e l, earlyReflections duration sampleRate rng = .ok e ∧
      lateReverb M duration sampleRate rng = .ok l ∧
      ∀ i : Nat, lateStart sampleRate ≤ (i : Int) → (i : Int) < irLength duration sampleRate →
        ∃ (nL nR : ℚ) (p : Nat),
          nL = (rng.floats p * 2 - 1) * (1 / 2) ∧
          nR = (rng.floats (p + 1) * 2 - 1) * (1 / 2) ∧
          -(1 / 2) ≤ nL ∧ nL < 1 / 2 ∧ -(1 / 2) ≤ nR ∧ nR < 1 / 2 ∧
          decayEnv M duration sampleRate i =
            M.exp (-(691 / 100) * ((i : ℚ) / sampleRate) / duration) ∧
          0 < decayEnv M duration sampleRate i ∧ decayEnv M duration sampleRate i ≤ 1 ∧
          l.1.left.getD i 0 = nL * decayEnv M duration sampleRate i ∧
          l.1.right.getD i 0 = nR * decayEnv M duration sampleRate i ∧
          |l.1.left.getD i 0| ≤ 1 / 2 * decayEnv M duration sampleRate i ∧
          |l.1.right.getD i 0| ≤ 1 / 2 * decayEnv M duration sampleRate i ∧
          1 / 2 * decayEnv M duration sampleRate i ≤ 1 / 2 := by
  refine ⟨castInt_of_nonneg (by positivity), ?_⟩
  obtain ⟨e, l, he, hinv, _, hl, hlate⟩ :=
    lateReverb_trace M duration sampleRate rng hd.le hs.le
  refine ⟨e, l, he, hl, fun i h0 h1 => ?_⟩
  obtain ⟨hL, hR⟩ := hlate.2.2.2.2.2 i h0 h1
  rw [hinv.2.1] at hL hR
  have hl0 := lateStart_nonneg hs.le
  obtain ⟨e0, e1⟩ := decayEnv_mem M hexp duration sampleRate hd hs i (by omega)
  obtain ⟨a0, a1⟩ := noise_mem_range rng hin
    (e.2.pos + 2 * ((i : Int) - lateStart sampleRate).toNat)
  obtain ⟨b0, b1⟩ := noise_mem_range rng hin
    (e.2.pos + 2 * ((i : Int) - lateStart sampleRate).toNat + 1)
  refine ⟨_, _, e.2.pos + 2 * ((i : Int) - lateStart sampleRate).toNat, rfl, rfl, a0, a1, b0,
    b1, rfl, e0, e1, hL, hR, ?_, ?_, ?_⟩
  · rw [hL]; exact (abs_noise_mul_le _ _ a0 a1 e0 e1).1
  · rw [hR]; exact (abs_noise_mul_le _ _ b0 b1 e0 e1).1
  · exact (abs_noise_mul_le _ _ a0 a1 e0 e1).2

theorem sampleMath_exp_range (x : ℚ) (hx : x ≤ 0) :
    0 < sampleMath.exp x ∧ sampleMath.exp x ≤ 1 := by
  have hden : 1 ≤ 1 - x + x * x / 2 := by nlinarith [mul_self_nonneg x]
  simp only [sampleMath]
  constructor
  · exact div_pos one_pos (by linarith)
  · rw [div_le_one (by linarith)]
    exact hden

/-- One second at 48 kHz: sample 5000 of the late tail is at most 0.5 in magnitude on both
channels after the late loop. -/
theorem C16_late_tail_witness :
    lateStart 48000 = 4800 ∧
    ∃ l, lateReverb sampleMath 1 48000 sampleRandom = .ok l ∧
      |l.1.left.getD 5000 0| ≤ 1 / 2 ∧ |l.1.right.getD 5000 0| ≤ 1 / 2 := by
  obtain ⟨_, e, l, _, hl, hv⟩ :=
    C16_late_tail sampleMath 1 48000 sampleRandom (by norm_num) (by norm_num)
      sampleRandom_inRange sampleMath_exp_range
  obtain ⟨_, _, _, _, _, _, _, _, _, _, _, _, _, _, h1, h2, h3⟩ :=
    hv 5000 (by rw [lateStart_48000]; decide) (by rw [irLength_one_48000]; decide)
  exact ⟨lateStart_48000, l, hl, le_trans h1 h3, le_trans h2 h3⟩

/-- C16 as stated fails: at 18 Hz `lateStart` is `(int) 1.8 = 1`, not `round 1.8 = 2`, and
index 1, below the rounded boundary, already holds late-tail noise times the envelope. -/
theorem C16_round_boundary_counterexample :
    lateStart 18 = 1 ∧ round ((1 / 10 : ℚ) * 18) = 2 ∧
    lateStart 18 ≠ round ((1 / 10 : ℚ) * 18) ∧
    ∃ e l, earlyReflections 1 18 sampleRandom = .ok e ∧
      lateReverb sampleMath 1 18 sampleRandom = .ok l ∧
      l.1.left.getD 1 0 =
        (e.2.floats e.2.pos * 2 - 1) * (1 / 2) * decayEnv sampleMath 1 18 1 ∧
      l.1.right.getD 1 0 =
        (e.2.floats (e.2.pos + 1) * 2 - 1) * (1 / 2) * decayEnv sampleMath 1 18 1 := by
  have hL : lateStart 18 = 1 := by
    norm_num [lateStart, castInt, Int.floor_eq_iff]
  have hR : round ((1 / 10 : ℚ) * 18) = 2 := by
    rw [round_eq]; norm_num [Int.floor_eq_iff]
  obtain ⟨e, l, he, _, _, hl, hlate⟩ :=
    lateReverb_trace sampleMath 1 18 sampleRandom (by norm_num) (by norm_num)
  have hv := hlate.2.2.2.2.2 1 (by rw [hL]; decide) (by rw [irLength_one_18]; decide)
  rw [hL] at hv
  refine ⟨hL, hR, by rw [hL, hR]; decide, e, l, he, hl, ?_, ?_⟩
  · exact hv.1
  · exact hv.2

theorem magnitude_le_of_forall (l : List ℚ) (c : ℚ) (hc : 0 ≤ c) (h : ∀ x ∈ l, |x| ≤ c) :
    magnitude l ≤ c := by
  rcases foldl_jmax_attained l 0 with h0 | ⟨x, hx, hv⟩
  · unfold magnitude; rw [h0]; exact hc
  · unfold magnitude; rw [hv]; exact h x hx

theorem magnitude_reverse (l : List ℚ) : magnitude l.reverse = magnitude l := by
  apply le_antisymm
  · exact magnitude_le_of_forall _ _ (magnitude_nonneg l)
      (fun x hx => foldl_jmax_mem l 0 x (List.mem_reverse.mp hx))
  · exact magnitude_le_of_forall _ _ (magnitude_nonneg _)
      (fun x hx => foldl_jmax_mem l.reverse 0 x (List.mem_reverse.mpr hx))

theorem applyGain_eq_self_of_silent (length : Int) (b : AudioBuffer)
    (h : b.HasLength length.toNat) (hz : maxAmp length b = 0) (c : ℚ) : b.applyGain c = b := by
  have hall : ∀ x, x ∈ b.left ∨ x ∈ b.right → x = 0 := by
    intro x hx
    have := abs_le_maxAmp length b h x hx
    rw [hz] at this
    exact abs_eq_zero.mp (le_antisymm this (abs_nonneg x))
  have hmap : ∀ l : List ℚ, (∀ x ∈ l, x = 0) → l.map (· * c) = l := by
    intro l hl
    induction l with
    | nil => rfl
    | cons y ys ih =>
      rw [List.map_cons, ih (fun x hx => hl x (List.mem_cons_of_mem _ hx)),
        hl y (List.mem_cons_self _ _), zero_mul]
  cases b with
  | mk l r =>
    simp only [AudioBuffer.applyGain]
    rw [hmap l (fun x hx => hall x (Or.inl hx)), hmap r (fun x hx => hall x (Or.inr hx))]

/-- The final normalization cancels a positive gain applied to the whole buffer. -/
theorem normalizeIR_applyGain (length : Int) (b : AudioBuffer) (h : b.HasLength length.toNat)
    (c : ℚ) (hc : 0 < c) : normalizeIR length (b.applyGain c) = normalizeIR length b := by
  have hm := maxAmp_applyGain length b h c hc.le
  rcases (maxAmp_nonneg length b h).lt_or_eq with hpos | hzero
  · have hpos2 : 0 < maxAmp length (b.applyGain c) := by rw [hm]; exact mul_pos hpos hc
    unfold normalizeIR
    rw [if_pos hpos2, if_pos hpos, applyGain_applyGain, hm]
    congr 1
    field_simp
    ring
  · have hz : maxAmp length b = 0 := hzero.symm
    rw [applyGain_eq_self_of_silent length b h hz c]

/-- The final normalization commutes with the reversal of both channels. -/
theorem normalizeIR_reverse (length : Int) (b : AudioBuffer) (h : b.HasLength length.toNat) :
    normalizeIR length ⟨b.left.reverse, b.right.reverse⟩ =
      ⟨(normalizeIR length b).left.reverse, (normalizeIR length b).right.reverse⟩ := by
  have hr : (⟨b.left.reverse, b.right.reverse⟩ : AudioBuffer).HasLength length.toNat :=
    ⟨by simpa using h.1, by simpa using h.2⟩
  have hm : maxAmp length ⟨b.left.reverse, b.right.reverse⟩ = maxAmp length b := by
    rw [maxAmp_eq length _ hr, maxAmp_eq length b h, magnitude_reverse, magnitude_reverse]
  unfold normalizeIR
  rw [hm]
  split
  · simp only [AudioBuffer.applyGain, List.map_reverse]
  · rfl

/-- C17: the loudness repair never changes the final result: for every duration > 0,
sampleRate > 0 and random stream, the buffer returned with `reverseReverb = true` is the
per-channel time reversal of the buffer returned with `reverseReverb = false`, that is
`rev[c][N - 1 - i] = fwd[c][i]` for both channels and every `i < N`, and the generator is
left in the same state. -/
theorem C17_repair_cancelled (M : MathFns) (duration sampleRate proximity : ℚ) (rng : Random)
    (hd : 0 < duration) (hs : 0 < sampleRate) :
    ∃ fwd rev g,
      createReverbImpulseResponse M duration sampleRate false proximity rng = .ok (fwd, g) ∧
      createReverbImpulseResponse M duration sampleRate true proximity rng = .ok (rev, g) ∧
      rev = ⟨fwd.left.reverse, fwd.right.reverse⟩ ∧
      ∀ i : Nat, (i : Int) < irLength duration sampleRate →
        rev.left.getD ((irLength duration sampleRate).toNat - 1 - i) 0 = fwd.left.getD i 0 ∧
        rev.right.getD ((irLength duration sampleRate).toNat - 1 - i) 0 = fwd.right.getD i 0 := by
  obtain ⟨st, r₁, pre₁, hbal, _, hpre₁, hr₁, hrlen₁, _, c₁, hc₁, hp₁⟩ :=
    beforeNormalization_spec M duration sampleRate false proximity rng hd.le hs.le
  obtain ⟨st2, r₂, pre₂, hbal2, _, hpre₂, hr₂, hrlen₂, _, c₂, hc₂, hp₂⟩ :=
    beforeNormalization_spec M duration sampleRate true proximity rng hd.le hs.le
  have e2 : st2 = st := by rw [hbal] at hbal2; exact (Except.ok.inj hbal2).symm
  subst e2
  simp only [Bool.false_eq_true, if_false] at hr₁
  simp only [if_true] at hr₂
  have hslen : st2.1.HasLength (irLength duration sampleRate).toNat := by
    rw [← hr₁]; exact hrlen₁
  have hf := createReverbImpulseResponse_eq M duration sampleRate false proximity rng _ _ hpre₁
  have hr := createReverbImpulseResponse_eq M duration sampleRate true proximity rng _ _ hpre₂
  rw [hp₁, hr₁, normalizeIR_applyGain _ _ hslen c₁ hc₁] at hf
  rw [hp₂, normalizeIR_applyGain _ _ hrlen₂ c₂ hc₂, hr₂, normalizeIR_reverse _ _ hslen] at hr
  have hnlen : (normalizeIR (irLength duration sampleRate) st2.1).HasLength
      (irLength duration sampleRate).toNat := by
    obtain ⟨c, _, hn⟩ := normalizeIR_gain (irLength duration sampleRate) st2.1
    rw [hn]; exact applyGain_hasLength _ _ _ hslen
  refine ⟨_, _, st2.2, hf, hr, rfl, fun i hi => ?_⟩
  have hl : i < (normalizeIR (irLength duration sampleRate) st2.1).left.length := by
    rw [hnlen.1]; omega
  have hrr : i < (normalizeIR (irLength duration sampleRate) st2.1).right.length := by
    rw [hnlen.2]; omega
  have a := getD_reverse _ i hl
  have b := getD_reverse _ i hrr
  rw [hnlen.1] at a
  rw [hnlen.2] at b
  exact ⟨a, b⟩

/-- One second at 48 kHz: sample 47663 of the reversed result is sample 336 of the forward
result. -/
theorem C17_repair_cancelled_witness :
    ∃ fwd rev g,
      createReverbImpulseResponse sampleMath 1 48000 false 30 sampleRandom = .ok (fwd, g) ∧
      createReverbImpulseResponse sampleMath 1 48000 true 30 sampleRandom = .ok (rev, g) ∧
      rev.left.getD 47663 0 = fwd.left.getD 336 0 ∧
      rev.right.getD 47663 0 = fwd.right.getD 336 0 := by
  obtain ⟨fwd, rev, g, h1, h2, _, hv⟩ :=
    C17_repair_cancelled sampleMath 1 48000 30 sampleRandom (by norm_num) (by norm_num)
  have a := hv 336 (by rw [irLength_one_48000]; decide)
  rw [irLength_one_48000] at a
  exact ⟨fwd, rev, g, h1, h2, a.1, a.2⟩

/-- From 20 Hz on every reflection offset lies strictly before `lateStart`. -/
theorem delaySamples_lt_lateStart {sampleRate : ℚ} (hs : 20 ≤ sampleRate) (k : Nat) :
    delaySamples sampleRate (k : Int) < lateStart sampleRate := by
  have hs0 : (0 : ℚ) ≤ sampleRate := by linarith
  have h0 := earlyDelay_nonneg k
  have h53 := earlyDelay_le k
  rw [delaySamples_natCast, castInt_of_nonneg (by positivity)]
  unfold lateStart
  rw [castInt_of_nonneg (by positivity), Int.floor_lt]
  have hle : earlyDelaysMs.getD k 0 * sampleRate / 1000 ≤ 53 * sampleRate / 1000 := by
    apply div_le_div_of_nonneg_right _ (by norm_num)
    exact mul_le_mul_of_nonneg_right h53 hs0
  rcases le_or_lt (1000 / 47 : ℚ) sampleRate with hbig | hsmall
  · have hfl : 1 / 10 * sampleRate - 1 < (⌊1 / 10 * sampleRate⌋ : ℚ) := Int.sub_one_lt_floor _
    have : 53 * sampleRate / 1000 ≤ 1 / 10 * sampleRate - 1 := by linarith
    linarith
  · have h2 : (2 : Int) ≤ ⌊1 / 10 * sampleRate⌋ := by
      rw [Int.le_floor]; push_cast; linarith
    have h2' : (2 : ℚ) ≤ (⌊1 / 10 * sampleRate⌋ : ℚ) := by exact_mod_cast h2
    have : 53 * sampleRate / 1000 < 2 := by linarith
    linarith

/-- Below 10 Hz `lateStart` is 0 and so is every reflection offset. -/
theorem delaySamples_eq_lateStart_of_lt_ten {sampleRate : ℚ} (h0 : 0 < sampleRate)
    (h10 : sampleRate < 10) (k : Nat) :
    lateStart sampleRate = 0 ∧ delaySamples sampleRate (k : Int) = 0 := by
  have hk0 := earlyDelay_nonneg k
  have h53 := earlyDelay_le k
  constructor
  · unfold lateStart
    rw [castInt_of_nonneg (by positivity), Int.floor_eq_iff]
    constructor
    · push_cast; positivity
    · push_cast; linarith
  · rw [delaySamples_natCast, castInt_of_nonneg (by positivity), Int.floor_eq_iff]
    constructor
    · push_cast; positivity
    · push_cast
      have : earlyDelaysMs.getD k 0 * sampleRate ≤ 53 * 10 := by
        calc earlyDelaysMs.getD k 0 * sampleRate ≤ 53 * sampleRate :=
              mul_le_mul_of_nonneg_right h53 h0.le
          _ ≤ 53 * 10 := by linarith
      rw [div_lt_iff₀ (by norm_num)]
      linarith

/-- C18: for every sampleRate ≥ 20 each of the 12 tap offsets
`(int)(delayMs * sampleRate / 1000)` is strictly below `lateStart = (int)(0.1 * sampleRate)`,
so the late loop leaves every early impulse as the reflection loop wrote it; whereas at
sampleRate 19 the 53 ms offset equals `lateStart` (both are 1), below 10 Hz every offset
equals `lateStart` (both are 0), and at any sample rate an offset `d` with
`lateStart ≤ d < N` is overwritten by the late-tail noise. -/
theorem C18_regions_disjoint (M : MathFns) (duration sampleRate : ℚ) (rng : Random)
    (hd : 0 < duration) (hs : 0 < sampleRate) :
    (20 ≤ sampleRate → ∀ k : Nat, k < numEarlyReflections →
      delaySamples sampleRate (k : Int) < lateStart sampleRate) ∧
    (∃ e l, earlyReflections duration sampleRate rng = .ok e ∧
      lateReverb M duration sampleRate rng = .ok l ∧
      (20 ≤ sampleRate → ∀ k : Nat, k < numEarlyReflections →
        l.1.left.getD (delaySamples sampleRate (k : Int)).toNat 0 =
          e.1.left.getD (delaySamples sampleRate (k : Int)).toNat 0 ∧
        l.1.right.getD (delaySamples sampleRate (k : Int)).toNat 0 =
          e.1.right.getD (delaySamples sampleRate (k : Int)).toNat 0) ∧
      ∀ k : Nat, k < numEarlyReflections →
        lateStart sampleRate ≤ delaySamples sampleRate (k : Int) →
        delaySamples sampleRate (k : Int) < irLength duration sampleRate →
        ∃ p : Nat,
          l.1.left.getD (delaySamples sampleRate (k : Int)).toNat 0 =
            (rng.floats p * 2 - 1) * (1 / 2) *
              decayEnv M duration sampleRate (delaySamples sampleRate (k : Int)) ∧
          l.1.right.getD (delaySamples sampleRate (k : Int)).toNat 0 =
            (rng.floats (p + 1) * 2 - 1) * (1 / 2) *
              decayEnv M duration sampleRate (delaySamples sampleRate (k : Int))) ∧
    delaySamples 19 11 = 1 ∧ lateStart 19 = 1 ∧
    (sampleRate < 10 → ∀ k : Nat, k < numEarlyReflections →
      delaySamples sampleRate (k : Int) = lateStart sampleRate) := by
  refine ⟨fun h20 k _ => delaySamples_lt_lateStart h20 k, ?_, ?_, ?_, ?_⟩
  · obtain ⟨e, l, he, hinv, _, hl, hlate⟩ :=
      lateReverb_trace M duration sampleRate rng hd.le hs.le
    refine ⟨e, l, he, hl, ?_, ?_⟩
    · intro h20 k _
      have hlt := delaySamples_lt_lateStart h20 k
      have h0 := delaySamples_nonneg hs.le (k : Int)
      exact hlate.2.2.2.2.1 _ (by rw [Int.toNat_of_nonneg h0]; exact hlt)
    · intro k _ h1 h2
      have h0 := delaySamples_nonneg hs.le (k : Int)
      have hc : (((delaySamples sampleRate (k : Int)).toNat : Nat) : Int) =
          delaySamples sampleRate (k : Int) := Int.toNat_of_nonneg h0
      obtain ⟨a, b⟩ := hlate.2.2.2.2.2 (delaySamples sampleRate (k : Int)).toNat
        (by rw [hc]; exact h1) (by rw [hc]; exact h2)
      rw [hc, hinv.2.1] at a b
      exact ⟨_, a, b⟩
  · have := delaySamples_natCast 19 11
    rw [show ((11 : Nat) : Int) = 11 from rfl] at this
    rw [this]
    norm_num [earlyDelaysMs, castInt, Int.floor_eq_iff]
  · norm_num [lateStart, castInt, Int.floor_eq_iff]
  · intro h10 k _
    obtain ⟨a, b⟩ := delaySamples_eq_lateStart_of_lt_ten hs h10 k
    rw [a, b]

/-- One second at 19 Hz: the 53 ms reflection falls on index 1 = `lateStart` and after the
late loop that index holds late-tail noise; at 48 kHz the same reflection (index 2544)
lies before `lateStart` (4800). -/
theorem C18_regions_disjoint_witness :
    (∃ l p, lateReverb sampleMath 1 19 sampleRandom = .ok l ∧
      l.1.left.getD 1 0 =
        (sampleRandom.floats p * 2 - 1) * (1 / 2) * decayEnv sampleMath 1 19 1 ∧
      l.1.right.getD 1 0 =
        (sampleRandom.floats (p + 1) * 2 - 1) * (1 / 2) * decayEnv sampleMath 1 19 1) ∧
    delaySamples 48000 11 < lateStart 48000 := by
  obtain ⟨_, ⟨e, l, _, hl, _, hov⟩, hD, hL, _⟩ :=
    C18_regions_disjoint sampleMath 1 19 sampleRandom (by norm_num) (by norm_num)
  obtain ⟨h48, _⟩ :=
    C18_regions_disjoint sampleMath 1 48000 sampleRandom (by norm_num) (by norm_num)
  have hN : irLength 1 19 = 19 := by norm_num [irLength, castInt]
  have hD' : delaySamples 19 ((11 : Nat) : Int) = 1 := hD
  obtain ⟨p, a, b⟩ := hov 11 (by norm_num [numEarlyReflections]) (by rw [hD', hL])
    (by rw [hD', hN]; decide)
  rw [hD'] at a b
  exact ⟨⟨l, p, hl, a, b⟩, h48 (by norm_num) 11 (by norm_num [numEarlyReflections])⟩

end ReverbIR
